import Mathlib

/-! Fragile LSB watermarking of GLB models: embedding of `main.cpp`.

The development follows `src/main.cpp`.  The glTF container (`tiny_gltf.h`), the C++ standard
library (`std::stoi`, `std::mt19937`, `std::ranges::shuffle`) and OpenSSL are not part of the
sources; the few pieces of them the program relies on are modelled below and marked as such.

Machine integers are `Int`/`Nat` with explicit wrap-around, bytes are `Fin 256`, and every way in
which the C++ program can leave the normal control flow is a `Fault`.
-/

namespace Watermark

/-! ## Faults and machine integers -/

/-- Ways in which the program leaves normal control flow. -/
inductive Fault where
  /-- `std::invalid_argument` thrown by `std::stoi` (no digits to convert). -/
  | invalid_argument
  /-- `std::out_of_range` thrown by `std::stoi` (value outside `int`) or `std::map::at`. -/
  | out_of_range
  /-- `std::length_error` thrown by the `std::vector` constructor (negative size request). -/
  | length_error
  /-- `println("Invalid attribute of vertex!"); exit(1);`. -/
  | exit1
  /-- Undefined behaviour: out-of-bounds access, shift by 32 or more, division by zero. -/
  | undefinedBehaviour
  deriving DecidableEq, Repr

deriving instance DecidableEq for Except

/-- `unsigned char`. -/
abbrev BYTE := Fin 256

/-- Conversion of an integer value to `uint32_t`. -/
def toU32 (x : Int) : Nat := (x % 4294967296).toNat

/-- Conversion of an integer value to `size_t` (64 bit). -/
def toU64 (x : Int) : Nat := (x % 18446744073709551616).toNat

/-- Conversion of an integer value to `int` (32 bit, two's complement): the value is reduced
modulo 2^32 and the residues from 2^31 on are the negative numbers. -/
def toI32 (x : Int) : Int :=
  if 2147483648 ≤ toU32 x then (toU32 x : Int) - 4294967296 else (toU32 x : Int)

/-- `HMAC_BYTE_SIZE = SHA512_DIGEST_LENGTH`. -/
def HMAC_BYTE_SIZE : Nat := 64

/-- `MAX_VERTICES_FOR_HMAC`. -/
def MAX_VERTICES_FOR_HMAC : Nat := 512

/-- `std::vector::operator[]` with an `int` index: outside the vector there is no element. -/
def index {α : Type} (l : List α) (i : Int) : Option α :=
  if i < 0 then none else l[i.toNat]?

/-! ## The key -/

/-- The four members of `struct SteganographyKey`. -/
structure SteganographyKey where
  numBits : Int
  seed : Int
  attr : String
  keyHMAC : String
  deriving DecidableEq, Repr

/-- What running the constructor `SteganographyKey(string_view)` does. -/
inductive KeyResult where
  /-- The constructor ran to its last statement: all four members are assigned. -/
  | constructed (key : SteganographyKey)
  /-- `println("Invalid key format"); return;` the object exists, `attr` and `keyHMAC` are still
  empty, and `seed` is `none` when it was never assigned. -/
  | invalidFormat (numBits : Int) (seed : Option Int)
  /-- An exception left the constructor: there is no object. -/
  | thrown (e : Fault)
  /-- `remove_prefix` past the end of the view. -/
  | undefined
  deriving DecidableEq, Repr

/-- `isspace` in the "C" locale. -/
def isspace (c : Char) : Bool :=
  c = ' ' || c = '\t' || c = '\n' || c = '\x0b' || c = '\x0c' || c = '\r'

/-- Value of a run of decimal digits, most significant first. -/
def digitsValue (ds : List Char) : Nat :=
  ds.foldl (fun acc c => 10 * acc + (c.toNat - 48)) 0

/-- Conversion of the longest run of decimal digits at the start of `s`, with the sign already
read: no digit at all is `invalid_argument`, a value outside `int` is `out_of_range`. -/
def stoiDigits (neg : Bool) (s : List Char) : Except Fault Int :=
  let ds := s.takeWhile Char.isDigit
  if ds = [] then .error .invalid_argument
  else
    let v : Int := if neg then -(digitsValue ds : Int) else (digitsValue ds : Int)
    if v < -2147483648 ∨ 2147483647 < v then .error .out_of_range else .ok v

/-- Modelled from the spec: `std::stoi` (standard library, not in src/), the integer the numeric
fields of the key are parsed with.  Leading white space is skipped, one sign is accepted, the
longest run of decimal digits is converted and what follows is ignored. -/
def stoi (s : List Char) : Except Fault Int :=
  match s.dropWhile isspace with
  | '-' :: rest => stoiDigits true rest
  | '+' :: rest => stoiDigits false rest
  | rest => stoiDigits false rest

/-- `string_view::find(char)`: position of the first occurrence, `none` for `npos`. -/
def find (s : List Char) (c : Char) : Option Nat :=
  match s with
  | [] => none
  | x :: xs => if x = c then some 0 else (find xs c).map (· + 1)

/-- The constructor `SteganographyKey::SteganographyKey(string_view key)`. -/
def SteganographyKey.parse (keyString : String) : KeyResult :=
  let key := keyString.data
  -- numBits = stoi(string{ key.substr(0, 2) });
  match stoi (key.take 2) with
  | .error e => .thrown e
  | .ok numBits =>
    -- key.remove_prefix(2);
    if key.length < 2 then .undefined
    else
      let key := key.drop 2
      match find key '*' with
      | none => .invalidFormat numBits none
      | some pos =>
        -- seed = stoi(string{ key.substr(0, pos) });
        match stoi (key.take pos) with
        | .error e => .thrown e
        | .ok seed =>
          let key := key.drop (pos + 1)
          match find key '*' with
          | none => .invalidFormat numBits (some seed)
          | some pos =>
            let attr := key.take pos
            let key := key.drop (pos + 1)
            -- the third `pos == npos` test repeats the second one and cannot fire here
            .constructed
              { numBits := numBits, seed := seed, attr := String.mk attr, keyHMAC := String.mk key }

/-! ## The glTF model (the parts of `tinygltf::Model` the program reads) -/

/-- Accessor `type` (`TINYGLTF_TYPE_*`); `unknown` is any other value of the `int` field. -/
inductive AccessorType where
  | SCALAR | VEC2 | VEC3 | VEC4 | MAT2 | MAT3 | MAT4 | unknown
  deriving DecidableEq, Repr

/-- Accessor `componentType` (`TINYGLTF_COMPONENT_TYPE_*`); `unknown` is any other value. -/
inductive ComponentType where
  | BYTE | UNSIGNED_BYTE | SHORT | UNSIGNED_SHORT | INT | UNSIGNED_INT | FLOAT | DOUBLE | unknown
  deriving DecidableEq, Repr

structure Accessor where
  bufferView : Int
  byteOffset : Nat
  componentType : ComponentType
  count : Nat
  type : AccessorType
  deriving DecidableEq, Repr

structure BufferView where
  buffer : Int
  byteOffset : Nat
  byteStride : Nat
  deriving DecidableEq, Repr

structure Buffer where
  data : List BYTE
  deriving DecidableEq, Repr

/-- A primitive: its `attributes` map from attribute name to accessor index. -/
structure Primitive where
  attributes : List (String × Int)
  deriving DecidableEq, Repr

structure Mesh where
  primitives : List Primitive
  deriving DecidableEq, Repr

structure Model where
  accessors : List Accessor
  meshes : List Mesh
  bufferViews : List BufferView
  buffers : List Buffer
  deriving DecidableEq, Repr

/-- Modelled from the spec: `componentsPerElement(accessor.type)`, which is
`tinygltf::GetNumComponentsInType` (tiny_gltf.h is not in src/); `-1` for an unknown type. -/
def GetNumComponentsInType : AccessorType → Int
  | .SCALAR => 1
  | .VEC2 => 2
  | .VEC3 => 3
  | .VEC4 => 4
  | .MAT2 => 4
  | .MAT3 => 9
  | .MAT4 => 16
  | .unknown => -1

/-- Modelled from the spec: size in bytes of one component, `tinygltf::GetComponentSizeInBytes`
(tiny_gltf.h is not in src/); `-1` for an unknown component type. -/
def GetComponentSizeInBytes : ComponentType → Int
  | .BYTE => 1
  | .UNSIGNED_BYTE => 1
  | .SHORT => 2
  | .UNSIGNED_SHORT => 2
  | .INT => 4
  | .UNSIGNED_INT => 4
  | .FLOAT => 4
  | .DOUBLE => 8
  | .unknown => -1

/-- Modelled from the spec: the `byteStride` of the vertex buffer view as the accessor sees it,
`tinygltf::Accessor::ByteStride` (tiny_gltf.h is not in src/): a zero `byteStride` means tightly
packed elements, a stride that is no multiple of the component size is answered with `-1`,
any other stride is returned as an `int`. -/
def Accessor.ByteStride (accessor : Accessor) (bufferView : BufferView) : Int :=
  let componentSizeInBytes := GetComponentSizeInBytes accessor.componentType
  if bufferView.byteStride = 0 then
    if componentSizeInBytes ≤ 0 then -1
    else
      let numComponents := GetNumComponentsInType accessor.type
      if numComponents ≤ 0 then -1 else componentSizeInBytes * numComponents
  else
    if componentSizeInBytes ≤ 0 then -1
    else if (bufferView.byteStride : Int) % componentSizeInBytes ≠ 0 then -1
    else toI32 bufferView.byteStride

/-! ## `GenerateVertexIndices` -/

/-- Exchange of the elements at positions `i` and `j` (`std::swap(first[i], first[j])`). -/
def swap (l : List Nat) (i j : Nat) : List Nat :=
  match l[i]?, l[j]? with
  | some a, some b => (l.set i b).set j a
  | _, _ => l

/-- Loop of the shuffle: for `i` from `n` down to `1`, exchange position `i` with a position
drawn from `0..i`. -/
def shuffleLoop (draw : Nat → Nat) : Nat → List Nat → List Nat
  | 0, l => l
  | i + 1, l => shuffleLoop draw i (swap l (i + 1) (draw (i + 1) % (i + 2)))

/-- Modelled from the spec: `std::mt19937 rng(seed); std::ranges::shuffle(allIndices, rng)`
(standard library, not in src/), "a seeded Fisher–Yates-style shuffle using a deterministic
pseudorandom generator initialized solely from `seed`".  The generator is the parameter `rng`:
`rng seed i` is the variate drawn for position `i`, reduced into `0..i`. -/
def shuffle (rng : Int → Nat → Nat) (seed : Int) (l : List Nat) : List Nat :=
  shuffleLoop (rng seed) (l.length - 1) l

/-- `GenerateVertexIndices(int seed, int maxIndex) -> array<size_t, 512>`. -/
def GenerateVertexIndices (rng : Int → Nat → Nat) (seed : Int) (maxIndex : Int) :
    Except Fault (List Nat) :=
  -- vector<size_t> allIndices(maxIndex, 0): a negative `int` is a size above `max_size()`
  if maxIndex < 0 then .error .length_error
  else
    -- ranges::iota(allIndices, 0); mt19937 rng(seed); ranges::shuffle(allIndices, rng);
    let allIndices := shuffle rng seed (List.range maxIndex.toNat)
    -- copy_n(allIndices.begin(), 512, indices.begin()) reads 512 elements of `allIndices`
    if allIndices.length < 512 then .error .undefinedBehaviour
    else .ok (allIndices.take 512)

/-! ## `FindMaxVerticesMeshId` -/

/-- Inner loop of `FindMaxVerticesMeshId`: `numElements` summed over the primitives of a mesh. -/
def sumElements (accessors : List Accessor) : List Primitive → Int → Except Fault Int
  | [], numElements => .ok numElements
  | primitive :: rest, numElements =>
    -- primitive.attributes.at("POSITION")
    match primitive.attributes.lookup "POSITION" with
    | none => .error .out_of_range
    | some accessorIndex =>
      match index accessors accessorIndex with
      | none => .error .undefinedBehaviour
      | some accessor =>
        let numComponents := GetNumComponentsInType accessor.type
        -- numElements += accessor.count * numComponents, computed in size_t, stored in an int
        sumElements accessors rest (toI32 (numElements + (accessor.count : Int) * numComponents))

/-- Outer loop of `FindMaxVerticesMeshId` over `views::enumerate(model.meshes)`; the state is
`(maxNumElMeshId, maxNumElements)`. -/
def findMaxLoop (accessors : List Accessor) : List Mesh → Int → Int × Int → Except Fault (Int × Int)
  | [], _, best => .ok best
  | mesh :: rest, i, (maxNumElMeshId, maxNumElements) =>
    match sumElements accessors mesh.primitives 0 with
    | .error e => .error e
    | .ok numElements =>
      if numElements > maxNumElements then findMaxLoop accessors rest (i + 1) (i, numElements)
      else findMaxLoop accessors rest (i + 1) (maxNumElMeshId, maxNumElements)

/-- `FindMaxVerticesMeshId(const gltf_model&) -> pair<int, int>`:
`(maxNumElMeshId, maxNumElements)`. -/
def FindMaxVerticesMeshId (model : Model) : Except Fault (Int × Int) :=
  findMaxLoop model.accessors model.meshes 0 (0, 0)

/-! ## Raw access to the vertex data -/

/-- Byte `i` (least significant first) of a 32-bit word. -/
def byteOf (w : Nat) (i : Nat) : BYTE := ⟨(w >>> (8 * i)) % 256, Nat.mod_lt _ (by decide)⟩

/-- Load through `*reinterpret_cast<unsigned int*>(p)`, `p` being `off` bytes into the buffer:
the four bytes at `off`, least significant first (little-endian target); `none` when they are not
all inside the buffer. -/
def readU32 (data : List BYTE) (off : Nat) : Option Nat :=
  match data[off]?, data[off + 1]?, data[off + 2]?, data[off + 3]? with
  | some b0, some b1, some b2, some b3 =>
    some (b0.val ||| (b1.val <<< 8) ||| (b2.val <<< 16) ||| (b3.val <<< 24))
  | _, _, _, _ => none

/-- Store through `*reinterpret_cast<unsigned int*>(p)`: the four bytes at `off` are replaced. -/
def writeU32 (data : List BYTE) (off : Nat) (w : Nat) : List BYTE :=
  (((data.set off (byteOf w 0)).set (off + 1) (byteOf w 1)).set (off + 2) (byteOf w 2)).set
    (off + 3) (byteOf w 3)

/-- Byte offset in the buffer of `(float*)(data + indices[i] * accessor.ByteStride(buffer_view))`,
where `data` is `base` bytes into the buffer; the product is computed in `size_t`. -/
def vertexOffset (base : Nat) (stride : Int) (idx : Nat) : Nat :=
  base + (idx * toU64 stride) % 18446744073709551616

/-! ## Loops -/

/-- How an iteration of a loop body ends: fall through to the next iteration, or `return`. -/
inductive Flow (σ : Type) where
  | next (s : σ)
  | ret (s : σ)

/-- A loop `for (int k = start; k < start + n; k++) body`, left early by `return`. -/
def forRange {σ : Type} (body : Nat → σ → Except Fault (Flow σ)) :
    Nat → Nat → σ → Except Fault (Flow σ)
  | 0, _, s => .ok (.next s)
  | n + 1, k, s =>
    match body k s with
    | .error e => .error e
    | .ok (.ret s') => .ok (.ret s')
    | .ok (.next s') => forRange body n (k + 1) s'

/-- The loop `for (int i = 0; ; i++)` reading `indices[i]`: it has no exit condition and ends only
by a `return` in its body; with the array used up, `indices[i]` is out of bounds. -/
def forIndices {σ : Type} (body : Nat → σ → Except Fault (Flow σ)) :
    List Nat → σ → Except Fault σ
  | [], _ => .error .undefinedBehaviour
  | idx :: rest, s =>
    match body idx s with
    | .error e => .error e
    | .ok (.ret s') => .ok s'
    | .ok (.next s') => forIndices body rest s'

/-- The loop nest shared by `ZeroingBits`, `EmbedHMAC` and `ExtractHMAC`:
`for (i = 0; ; i++) for (j = 0; j < numOfComps; j++) for (k = 0; k < key.numBits; k++)`,
the body receiving the byte offset of `vertex[j]` and `k`. -/
def vertexLoops {σ : Type} (base : Nat) (stride : Int) (numOfComps numBits : Int)
    (body : Nat → Nat → σ → Except Fault (Flow σ)) (indices : List Nat) (s : σ) :
    Except Fault σ :=
  forIndices (fun idx =>
    forRange (fun j =>
      forRange (fun k => body (vertexOffset base stride idx + 4 * j) k) numBits.toNat 0)
      numOfComps.toNat 0) indices s

/-- The "boilerplate code": accessor, buffer view and buffer behind an accessor index. -/
def locate (model : Model) (accessor_index : Int) :
    Except Fault (Accessor × BufferView × Buffer) :=
  match index model.accessors accessor_index with
  | none => .error .undefinedBehaviour
  | some accessor =>
    match index model.bufferViews accessor.bufferView with
    | none => .error .undefinedBehaviour
    | some buffer_view =>
      match index model.buffers buffer_view.buffer with
      | none => .error .undefinedBehaviour
      | some buffer => .ok (accessor, buffer_view, buffer)

/-- The model after the bytes of buffer `buffer_view.buffer` were changed in place. -/
def Model.withData (model : Model) (buffer_view : BufferView) (data : List BYTE) : Model :=
  { model with buffers := model.buffers.set buffer_view.buffer.toNat { data := data } }

/-- `uint32_t numOfVerts = (MAX_VERTICES_FOR_HMAC / (key.numBits * 3)) + 1;` (unsigned
arithmetic; a zero divisor is undefined). -/
def numOfVerts (key : SteganographyKey) : Except Fault Nat :=
  let divisor := toU32 (key.numBits * 3)
  if divisor = 0 then .error .undefinedBehaviour
  else .ok ((MAX_VERTICES_FOR_HMAC / divisor + 1) % 4294967296)

/-- The argument `accessor.count - 1` (a `size_t`) as received by the `int maxIndex`. -/
def maxIndexOf (accessor : Accessor) : Int := toI32 (toU64 ((accessor.count : Int) - 1))

/-! ## `ZeroingBits` -/

/-- Body of the innermost loop of `ZeroingBits`; the state is `(buffer bytes, bitCounter)`. -/
def zeroStep (off k : Nat) (s : List BYTE × Int) : Except Fault (Flow (List BYTE × Int)) :=
  -- *reinterpret_cast<unsigned int*>(&vertex[j]) &= ~(1u << k);
  if 32 ≤ k then .error .undefinedBehaviour
  else
    match readU32 s.1 off with
    | none => .error .undefinedBehaviour
    | some w =>
      let data := writeU32 s.1 off (w &&& (4294967295 ^^^ (1 <<< k)))
      -- if (bitCounter++; bitCounter == MAX_VERTICES_FOR_HMAC) return;
      let bitCounter := s.2 + 1
      if bitCounter = (MAX_VERTICES_FOR_HMAC : Int) then .ok (.ret (data, bitCounter))
      else .ok (.next (data, bitCounter))

/-- The loop `for (auto& primitive : model.meshes[maxNumElMeshId].primitives)` of `ZeroingBits`:
the first primitive already ends the function, by `return` or by `exit(1)`. -/
def zeroPrimitives (rng : Int → Nat → Nat) (model : Model) (key : SteganographyKey) :
    List Primitive → Except Fault Model
  | [] => .ok model
  | primitive :: _ =>
    -- if (primitive.attributes.contains(key.attr))
    match primitive.attributes.lookup key.attr with
    | none => .error .exit1
    | some accessor_index =>
      match locate model accessor_index with
      | .error e => .error e
      | .ok (accessor, buffer_view, buffer) =>
        let base := buffer_view.byteOffset + accessor.byteOffset
        let numOfComps := GetNumComponentsInType accessor.type
        match GenerateVertexIndices rng key.seed (maxIndexOf accessor) with
        | .error e => .error e
        | .ok indices =>
          match vertexLoops base (accessor.ByteStride buffer_view) numOfComps key.numBits
              zeroStep indices (buffer.data, 0) with
          | .error e => .error e
          | .ok s => .ok (model.withData buffer_view s.1)

/-- `void ZeroingBits(gltf_model& gltfModel, const SteganographyKey& key)`: the model it leaves. -/
def ZeroingBits (rng : Int → Nat → Nat) (gltfModel : Model) (key : SteganographyKey) :
    Except Fault Model :=
  match FindMaxVerticesMeshId gltfModel with
  | .error e => .error e
  | .ok (maxNumElMeshId, maxNumElements) =>
    match numOfVerts key with
    | .error e => .error e
    | .ok numOfVerts =>
      -- if (maxNumElements < numOfVerts) return;   (compared as unsigned)
      if toU32 maxNumElements < numOfVerts then .ok gltfModel
      else
        match index gltfModel.meshes maxNumElMeshId with
        | none => .error .undefinedBehaviour
        | some mesh => zeroPrimitives rng gltfModel key mesh.primitives

/-! ## `EmbedHMAC` -/

/-- The counter update shared by `EmbedHMAC` and `ExtractHMAC`:
`if (bitCounter--; bitCounter == -1) { byteCounter++; bitCounter = 7; }`. -/
def advance (byteCounter bitCounter : Int) : Int × Int :=
  if bitCounter - 1 = -1 then (byteCounter + 1, 7) else (byteCounter, bitCounter - 1)

/-- Body of the innermost loop of `EmbedHMAC`; the state is
`(buffer bytes, byteCounter, bitCounter)`. -/
def embedStep (hmac : List BYTE) (off k : Nat) (s : List BYTE × Int × Int) :
    Except Fault (Flow (List BYTE × Int × Int)) :=
  -- BYTE byte = hmac[byteCounter];
  match index hmac s.2.1 with
  | none => .error .undefinedBehaviour
  | some byte =>
    -- *reinterpret_cast<unsigned int*>(&vertex[j]) ^= (((byte >> bitCounter) & 1u) << k);
    if 32 ≤ k then .error .undefinedBehaviour
    else
      match readU32 s.1 off with
      | none => .error .undefinedBehaviour
      | some w =>
        let data := writeU32 s.1 off (w ^^^ (((byte.val >>> s.2.2.toNat) &&& 1) <<< k))
        let counters := advance s.2.1 s.2.2
        -- if (byteCounter == HMAC_BYTE_SIZE) return;
        if counters.1 = (HMAC_BYTE_SIZE : Int) then .ok (.ret (data, counters))
        else .ok (.next (data, counters))

/-- The loop over the primitives of the selected mesh in `EmbedHMAC`: a primitive without the
attribute is passed over (there is no `else`), the first one that has it ends the function. -/
def embedPrimitives (rng : Int → Nat → Nat) (model : Model) (key : SteganographyKey)
    (hmac : List BYTE) : List Primitive → Except Fault Model
  | [] => .ok model
  | primitive :: rest =>
    match primitive.attributes.lookup key.attr with
    | none => embedPrimitives rng model key hmac rest
    | some accessor_index =>
      match locate model accessor_index with
      | .error e => .error e
      | .ok (accessor, buffer_view, buffer) =>
        let base := buffer_view.byteOffset + accessor.byteOffset
        let numOfComps := GetNumComponentsInType accessor.type
        match GenerateVertexIndices rng key.seed (maxIndexOf accessor) with
        | .error e => .error e
        | .ok indices =>
          -- int byteCounter = 0; int bitCounter = 7;
          match vertexLoops base (accessor.ByteStride buffer_view) numOfComps key.numBits
              (embedStep hmac) indices (buffer.data, 0, 7) with
          | .error e => .error e
          | .ok s => .ok (model.withData buffer_view s.1)

/-- `void EmbedHMAC(gltf_model&, const SteganographyKey&, const HMAC_CODE&)`: the model it
leaves. -/
def EmbedHMAC (rng : Int → Nat → Nat) (gltfModel : Model) (key : SteganographyKey)
    (hmac : List BYTE) : Except Fault Model :=
  match FindMaxVerticesMeshId gltfModel with
  | .error e => .error e
  | .ok (maxNumElMeshId, maxNumElements) =>
    match numOfVerts key with
    | .error e => .error e
    | .ok numOfVerts =>
      if toU32 maxNumElements < numOfVerts then .ok gltfModel
      else
        match index gltfModel.meshes maxNumElMeshId with
        | none => .error .undefinedBehaviour
        | some mesh => embedPrimitives rng gltfModel key hmac mesh.primitives

/-! ## `ExtractHMAC` -/

/-- Body of the innermost loop of `ExtractHMAC`; the buffer `data` is only read, the state is
`(hmac, byteCounter, bitCounter)`. -/
def extractStep (data : List BYTE) (off k : Nat) (s : List BYTE × Int × Int) :
    Except Fault (Flow (List BYTE × Int × Int)) :=
  -- hmac[byteCounter] |= ((*reinterpret_cast<unsigned int*>(&vertex[j]) >> k) & 1u) << bitCounter;
  if 32 ≤ k then .error .undefinedBehaviour
  else
    match readU32 data off with
    | none => .error .undefinedBehaviour
    | some w =>
      match index s.1 s.2.1 with
      | none => .error .undefinedBehaviour
      | some old =>
        let value := ((w >>> k) &&& 1) <<< s.2.2.toNat
        let hmac := s.1.set s.2.1.toNat ⟨(old.val ||| value) % 256, Nat.mod_lt _ (by decide)⟩
        let counters := advance s.2.1 s.2.2
        if counters.1 = (HMAC_BYTE_SIZE : Int) then .ok (.ret (hmac, counters))
        else .ok (.next (hmac, counters))

/-- The loop over the primitives of the selected mesh in `ExtractHMAC`: the first primitive
already ends the function, by `return` or by `exit(1)`. -/
def extractPrimitives (rng : Int → Nat → Nat) (model : Model) (key : SteganographyKey)
    (hmac : List BYTE) : List Primitive → Except Fault (List BYTE)
  | [] => .ok hmac
  | primitive :: _ =>
    match primitive.attributes.lookup key.attr with
    | none => .error .exit1
    | some accessor_index =>
      match locate model accessor_index with
      | .error e => .error e
      | .ok (accessor, buffer_view, buffer) =>
        let base := buffer_view.byteOffset + accessor.byteOffset
        let numOfComps := GetNumComponentsInType accessor.type
        match GenerateVertexIndices rng key.seed (maxIndexOf accessor) with
        | .error e => .error e
        | .ok indices =>
          match vertexLoops base (accessor.ByteStride buffer_view) numOfComps key.numBits
              (extractStep buffer.data) indices (hmac, 0, 7) with
          | .error e => .error e
          | .ok s => .ok s.1

/-- `void ExtractHMAC(gltf_model&, const SteganographyKey&, HMAC_CODE& hmac)`: the contents of
`hmac` it leaves. -/
def ExtractHMAC (rng : Int → Nat → Nat) (gltfModel : Model) (key : SteganographyKey)
    (hmac : List BYTE) : Except Fault (List BYTE) :=
  match FindMaxVerticesMeshId gltfModel with
  | .error e => .error e
  | .ok (maxNumElMeshId, maxNumElements) =>
    match numOfVerts key with
    | .error e => .error e
    | .ok numOfVerts =>
      if toU32 maxNumElements < numOfVerts then .ok hmac
      else
        match index gltfModel.meshes maxNumElMeshId with
        | none => .error .undefinedBehaviour
        | some mesh => extractPrimitives rng gltfModel key hmac mesh.primitives

/-! ## The two flows of `main` -/

/-- The collaborators of `main` that are outside the sources: the glTF container (`save` stands
for `gltf_model::save` followed by `LoadFileData` of the written file, `load` for the
`gltf_model` constructor) and OpenSSL behind `CalculateHMAC`. -/
structure Collaborators (File : Type) where
  save : Model → File
  load : File → Model
  CalculateHMAC : File → String → List BYTE

/-- The marking branch of `main` (`isMarkingProcess`): the file it leaves under the marked name. -/
def marking {File : Type} (E : Collaborators File) (rng : Int → Nat → Nat) (modelFile : File)
    (keyStego : SteganographyKey) : Except Fault File :=
  let model := E.load modelFile
  match ZeroingBits rng model keyStego with
  | .error e => .error e
  | .ok model =>
    let fileData := E.save model
    let hmac := E.CalculateHMAC fileData keyStego.keyHMAC
    let markedModel := E.load fileData
    match EmbedHMAC rng markedModel keyStego hmac with
    | .error e => .error e
    | .ok markedModel => .ok (E.save markedModel)

/-- The authorization branch of `main`: `true` for "Verification Confirmed", `false` for
"Watermark violate!". -/
def verification {File : Type} (E : Collaborators File) (rng : Int → Nat → Nat) (modelFile : File)
    (keyStego : SteganographyKey) : Except Fault Bool :=
  let markedModel := E.load modelFile
  -- HMAC_CODE hmacLoaded {};
  match ExtractHMAC rng markedModel keyStego (List.replicate HMAC_BYTE_SIZE 0) with
  | .error e => .error e
  | .ok hmacLoaded =>
    match ZeroingBits rng markedModel keyStego with
    | .error e => .error e
    | .ok markedModel =>
      let fileData := E.save markedModel
      let hmacRecalculated := E.CalculateHMAC fileData keyStego.keyHMAC
      .ok (decide (hmacRecalculated = hmacLoaded))

/-! ## `GetMarkedFilename` -/

/-- Position of the last occurrence of `c` in `s` (`std::string::find_last_of` with one
character); `none` is `npos`. -/
def find_last_of (s : List Char) (c : Char) : Option Nat :=
  match s with
  | [] => none
  | x :: xs =>
    match find_last_of xs c with
    | some p => some (p + 1)
    | none => if x = c then some 0 else none

/-- The name of the marked file. -/
def GetMarkedFilename (filename : String) : String :=
  let dotPos := find_last_of filename.data '.'
  match dotPos with
  | none => filename ++ "_marked.glb"
  | some dotPos =>
    String.mk (filename.data.take dotPos) ++ "_marked" ++ String.mk (filename.data.drop dotPos)

/-! ## Sample data -/

/-- A sample generator: the variate drawn for position `i` under seed `seed`. -/
def sampleRng (seed : Int) (i : Nat) : Nat := seed.toNat * 7919 + i * 104729 + 13

/-- The accessor of the large mesh of the sample model: 1000 `VEC3` float vertices. -/
def sampleAccessor : Accessor :=
  { bufferView := 1, byteOffset := 0, componentType := .FLOAT, count := 1000, type := .VEC3 }

/-- The buffer view of the large mesh of the sample model: tightly packed, from byte 36. -/
def sampleView : BufferView := { buffer := 0, byteOffset := 36, byteStride := 0 }

/-- The buffer of the sample model: 12036 zero bytes. -/
def sampleBuffer : Buffer := { data := List.replicate 12036 0 }

/-- A sample model: a small mesh of 3 vertices followed by a mesh of 1000 vertices. -/
def sampleModel : Model :=
  { accessors :=
      [ { bufferView := 0, byteOffset := 0, componentType := .FLOAT, count := 3, type := .VEC3 },
        sampleAccessor ]
    meshes :=
      [ { primitives := [{ attributes := [("POSITION", 0)] }] },
        { primitives := [{ attributes := [("POSITION", 1)] }] } ]
    bufferViews := [{ buffer := 0, byteOffset := 0, byteStride := 0 }, sampleView]
    buffers := [sampleBuffer] }

/-- A model of one mesh with one primitive: `count` tightly packed `VEC3` float vertices under
`POSITION`, all zero. -/
def meshModel (count : Nat) : Model :=
  { accessors :=
      [{ bufferView := 0, byteOffset := 0, componentType := .FLOAT, count := count, type := .VEC3 }]
    meshes := [{ primitives := [{ attributes := [("POSITION", 0)] }] }]
    bufferViews := [{ buffer := 0, byteOffset := 0, byteStride := 0 }]
    buffers := [{ data := List.replicate (12 * count) 0 }] }

/-- A sample digest: 64 bytes `0xA5`. -/
def sampleDigest : List BYTE := List.replicate 64 165

/-- Sample collaborators: the file is the model itself, the digest depends on the key length
only. -/
def sampleCollaborators : Collaborators Model :=
  { save := fun m => m
    load := fun f => f
    CalculateHMAC := fun _ k =>
      (List.range 64).map (fun i => ⟨(k.length + i) % 256, Nat.mod_lt _ (by decide)⟩) }

/-- A sample key: bit density 1, seed 7, attribute `POSITION`. -/
def sampleKey : SteganographyKey :=
  { numBits := 1, seed := 7, attr := "POSITION", keyHMAC := "mysecret" }

/-- A sample key of bit density 4. -/
def denseKey : SteganographyKey :=
  { numBits := 4, seed := 7, attr := "POSITION", keyHMAC := "mysecret" }

/-- A sample key whose target attribute is `NORMAL`. -/
def normalKey : SteganographyKey :=
  { numBits := 1, seed := 7, attr := "NORMAL", keyHMAC := "mysecret" }

/-- The key the constructor builds from `001*POSITION*mysecret`: bit density 0. -/
def zeroKey : SteganographyKey :=
  { numBits := 0, seed := 1, attr := "POSITION", keyHMAC := "mysecret" }

/-- A sample model whose only mesh has two primitives: the 1000 vertices of the sample accessor,
then 3 more vertices. -/
def twoPrimitiveModel : Model :=
  { sampleModel with
    meshes :=
      [{ primitives := [{ attributes := [("POSITION", 1)] }, { attributes := [("POSITION", 0)] }] }] }

/-- The same model with the mesh reduced to its first primitive. -/
def firstPrimitiveModel : Model :=
  { sampleModel with meshes := [{ primitives := [{ attributes := [("POSITION", 1)] }] }] }

/-! ## Specification-side notions -/

/-- The accessor a primitive names under `POSITION`, when there is one. -/
def positionAccessor (accessors : List Accessor) (primitive : Primitive) : Option Accessor :=
  (primitive.attributes.lookup "POSITION").bind (index accessors)

/-- The primitive has a `POSITION` accessor, of a known type. -/
def hasPosition (accessors : List Accessor) (primitive : Primitive) : Bool :=
  match positionAccessor accessors primitive with
  | some accessor => accessor.type != .unknown
  | none => false

/-- Elements one primitive contributes: `accessor.count * componentsPerElement(accessor.type)`. -/
def primitiveElements (accessors : List Accessor) (primitive : Primitive) : Int :=
  match positionAccessor accessors primitive with
  | some accessor => (accessor.count : Int) * GetNumComponentsInType accessor.type
  | none => 0

/-- The element count of a mesh in the words of the spec: the sum, over its primitives, of
`accessor.count * componentsPerElement(accessor.type)`, as an integer. -/
def elementCount (accessors : List Accessor) (mesh : Mesh) : Int :=
  (mesh.primitives.map (primitiveElements accessors)).sum

/-! ## Notions used in the proofs -/

/-- Bit `p` of a byte sequence read as a bit string: bit `p % 8` of byte `p / 8`. -/
def bitAt (data : List BYTE) (p : Nat) : Bool :=
  match data[p / 8]? with
  | some b => b.val.testBit (p % 8)
  | none => false

/-- Bit `n` of a digest in the order of the spec: most significant bit first within each byte,
bytes in order. -/
def digestBit (hmac : List BYTE) (n : Nat) : Bool :=
  bitAt hmac (8 * (n / 8) + (7 - n % 8))

/-- A slot of the loop nest: the byte offset of a vertex component and a bit number `k`. -/
abbrev Slot := Nat × Nat

/-- Position of a slot in the buffer read as a bit string. -/
def Slot.pos (slot : Slot) : Nat := 8 * slot.1 + slot.2

/-- Sequential run of a loop body over a list of loop variables, left early by `return`. -/
def runList {ι σ : Type} (body : ι → σ → Except Fault (Flow σ)) :
    List ι → σ → Except Fault (Flow σ)
  | [], s => .ok (.next s)
  | x :: xs, s =>
    match body x s with
    | .error e => .error e
    | .ok (.ret s') => .ok (.ret s')
    | .ok (.next s') => runList body xs s'

/-- End of the loop `for (i = 0; ; i++)`: a `return` ends the function, running out of indices
is an access past the array. -/
def finish {σ : Type} : Except Fault (Flow σ) → Except Fault σ
  | .error e => .error e
  | .ok (.ret s) => .ok s
  | .ok (.next _) => .error .undefinedBehaviour

/-- The slots the loop nest visits when it is never left, in the order it visits them. -/
def allSlots (base : Nat) (stride : Int) (numOfComps numBits : Int) (indices : List Nat) :
    List Slot :=
  indices.flatMap (fun idx =>
    (List.range numOfComps.toNat).flatMap (fun j =>
      (List.range numBits.toNat).map (fun k => (vertexOffset base stride idx + 4 * j, k))))

/-- The first `MAX_VERTICES_FOR_HMAC` slots of the loop nest: the slots of the mark. -/
def markSlots (base : Nat) (stride : Int) (numOfComps numBits : Int) (indices : List Nat) :
    List Slot :=
  (allSlots base stride numOfComps numBits indices).take 512

/-- A slot the program can access in a buffer of `n` bytes: the shift is below 32 and the four
bytes of the component lie inside the buffer. -/
def Slot.valid (n : Nat) (slot : Slot) : Prop := slot.2 < 32 ∧ slot.1 + 4 ≤ n

instance (n : Nat) (slot : Slot) : Decidable (Slot.valid n slot) :=
  inferInstanceAs (Decidable (_ ∧ _))

/-- Effect of one `ZeroingBits` step on the buffer: bit `k` of the word at `off` is cleared. -/
def zeroWord (data : List BYTE) (slot : Slot) : List BYTE :=
  writeU32 data slot.1 ((readU32 data slot.1).getD 0 &&& (4294967295 ^^^ (1 <<< slot.2)))

/-- Effect of one `EmbedHMAC` step on the state `(buffer bytes, byteCounter, bitCounter)`. -/
def embedEffect (hmac : List BYTE) (slot : Slot) (s : List BYTE × Int × Int) :
    List BYTE × Int × Int :=
  (writeU32 s.1 slot.1 ((readU32 s.1 slot.1).getD 0 ^^^
      ((((index hmac s.2.1).getD 0).val >>> s.2.2.toNat &&& 1) <<< slot.2)),
    advance s.2.1 s.2.2)

/-- Effect of one `ExtractHMAC` step on the state `(hmac, byteCounter, bitCounter)`. -/
def extractEffect (data : List BYTE) (slot : Slot) (s : List BYTE × Int × Int) :
    List BYTE × Int × Int :=
  (s.1.set s.2.1.toNat
      ⟨(((index s.1 s.2.1).getD 0).val |||
          (((readU32 data slot.1).getD 0 >>> slot.2) &&& 1) <<< s.2.2.toNat) % 256,
        Nat.mod_lt _ (by decide)⟩,
    advance s.2.1 s.2.2)

/-- The vertex data the three operations work on: accessor, buffer view and buffer named under
`key.attr` by the first primitive of the selected mesh; `none` when the operation does not get
that far (capacity guard, no primitive, no such attribute, or a fault on the way). -/
def target (model : Model) (key : SteganographyKey) : Option (Accessor × BufferView × Buffer) :=
  match FindMaxVerticesMeshId model, numOfVerts key with
  | .ok (maxNumElMeshId, maxNumElements), .ok numOfVerts =>
    if toU32 maxNumElements < numOfVerts then none
    else
      match index model.meshes maxNumElMeshId with
      | none => none
      | some mesh =>
        match mesh.primitives with
        | [] => none
        | primitive :: _ =>
          match primitive.attributes.lookup key.attr with
          | none => none
          | some accessor_index =>
            match locate model accessor_index with
            | .error _ => none
            | .ok t => some t
  | _, _ => none

/-- The slots of the mark for a given accessor, buffer view and index sequence. -/
def slotsOf (key : SteganographyKey) (accessor : Accessor) (buffer_view : BufferView)
    (indices : List Nat) : List Slot :=
  markSlots (buffer_view.byteOffset + accessor.byteOffset) (accessor.ByteStride buffer_view)
    (GetNumComponentsInType accessor.type) key.numBits indices

/-- Sufficient capacity of the vertex data for a key: a bit density between 1 and 32, at least
513 vertices (the permutation draws 512 indices below `count - 1`), components of a known type
that do not overlap from one vertex to the next, and all vertices inside the buffer. -/
structure SufficientCapacity (key : SteganographyKey) (accessor : Accessor)
    (buffer_view : BufferView) (buffer : Buffer) : Prop where
  numBits_pos : 1 ≤ key.numBits
  numBits_le : key.numBits ≤ 32
  components_pos : 1 ≤ GetNumComponentsInType accessor.type
  count_ge : 513 ≤ accessor.count
  count_lt : accessor.count < 2147483648
  stride_ge : 4 * GetNumComponentsInType accessor.type ≤ accessor.ByteStride buffer_view
  in_bounds : (buffer_view.byteOffset : Int) + accessor.byteOffset
      + ((accessor.count : Int) - 1) * accessor.ByteStride buffer_view
      + 4 * GetNumComponentsInType accessor.type ≤ buffer.data.length
  length_lt : buffer.data.length < 18446744073709551616

instance (key : SteganographyKey) (accessor : Accessor) (buffer_view : BufferView)
    (buffer : Buffer) : Decidable (SufficientCapacity key accessor buffer_view buffer) :=
  decidable_of_iff
    (1 ≤ key.numBits ∧ key.numBits ≤ 32 ∧ 1 ≤ GetNumComponentsInType accessor.type ∧
      513 ≤ accessor.count ∧ accessor.count < 2147483648 ∧
      4 * GetNumComponentsInType accessor.type ≤ accessor.ByteStride buffer_view ∧
      (buffer_view.byteOffset : Int) + accessor.byteOffset
        + ((accessor.count : Int) - 1) * accessor.ByteStride buffer_view
        + 4 * GetNumComponentsInType accessor.type ≤ buffer.data.length ∧
      buffer.data.length < 18446744073709551616)
    ⟨fun ⟨a, b, c, d, e, f, g, h⟩ => ⟨a, b, c, d, e, f, g, h⟩,
     fun ⟨a, b, c, d, e, f, g, h⟩ => ⟨a, b, c, d, e, f, g, h⟩⟩

/-- The byte sequence with bit `p` inverted (bit `p % 8` of byte `p / 8`). -/
def flipBit (data : List BYTE) (p : Nat) : List BYTE :=
  match data[p / 8]? with
  | some b => data.set (p / 8) ⟨(b.val ^^^ (1 <<< (p % 8))) % 256, Nat.mod_lt _ (by decide)⟩
  | none => data

/-- The buffer bytes after the `ZeroingBits` steps over the slots `P`. -/
def zeroed (P : List Slot) (data : List BYTE) : List BYTE :=
  (P.foldl (fun s x => (zeroWord s.1 x, s.2 + 1)) (data, (0 : Int))).1

/-- The buffer bytes after the `EmbedHMAC` steps over the slots `P`. -/
def embedded (hmac : List BYTE) (P : List Slot) (data : List BYTE) : List BYTE :=
  (P.foldl (fun s x => embedEffect hmac x s) (data, 0, 7)).1

/-- The digest buffer after the `ExtractHMAC` steps over the slots `P`. -/
def extracted (data : List BYTE) (P : List Slot) (hmac : List BYTE) : List BYTE :=
  (P.foldl (fun s x => extractEffect data x s) (hmac, 0, 7)).1

/-- The loop nest can run to its `return` on a buffer of `n` bytes: it has 512 slots to visit
and can access each of them. -/
def Accessible (key : SteganographyKey) (accessor : Accessor) (buffer_view : BufferView)
    (indices : List Nat) (n : Nat) : Prop :=
  512 ≤ (allSlots (buffer_view.byteOffset + accessor.byteOffset)
      (accessor.ByteStride buffer_view) (GetNumComponentsInType accessor.type) key.numBits
      indices).length ∧
  ∀ x ∈ slotsOf key accessor buffer_view indices, x.valid n

instance (key : SteganographyKey) (accessor : Accessor) (buffer_view : BufferView)
    (indices : List Nat) (n : Nat) : Decidable (Accessible key accessor buffer_view indices n) :=
  inferInstanceAs (Decidable (_ ∧ _))

/-- The slots of the mark in a model: the first 512 slots the loop nest visits in the target of
the model, in order (no slot when the operations do not reach the vertex data). -/
def markSlotsOf (rng : Int → Nat → Nat) (model : Model) (key : SteganographyKey) : List Slot :=
  match target model key with
  | none => []
  | some (accessor, buffer_view, _) =>
    match GenerateVertexIndices rng key.seed (maxIndexOf accessor) with
    | .error _ => []
    | .ok indices => slotsOf key accessor buffer_view indices

/-- Tampering with one bit: the model with the bit of `slot` inverted in the target buffer. -/
def tamper (model : Model) (key : SteganographyKey) (slot : Slot) : Model :=
  match target model key with
  | none => model
  | some (_, buffer_view, buffer) => model.withData buffer_view (flipBit buffer.data slot.pos)

/-! ## Theorems: the index permutation -/

theorem swap_perm (l : List Nat) (i j : Nat) : (swap l i j).Perm l := by
  unfold swap
  split
  · rename_i a b ha hb
    obtain ⟨hi, rfl⟩ := List.getElem?_eq_some_iff.mp ha
    obtain ⟨hj, rfl⟩ := List.getElem?_eq_some_iff.mp hb
    rw [List.perm_iff_count]
    intro x
    have hj' : j < (l.set i l[j]).length := by simpa using hj
    rw [List.count_set _ _ _ _ hj', List.count_set _ _ _ _ hi]
    have h1 : 0 < l.count l[i] := List.count_pos_iff.mpr (List.getElem_mem _)
    have h2 : 0 < l.count l[j] := List.count_pos_iff.mpr (List.getElem_mem _)
    simp only [List.getElem_set, beq_iff_eq]
    by_cases hij : i = j
    · subst hij
      simp only [if_true]
      by_cases hx : l[i] = x
      · subst hx; simp
      · simp [hx]
    · simp only [hij, if_false]
      by_cases hx : l[i] = x <;> by_cases hy : l[j] = x
      · simp only [hx, hy, if_true]; subst hx; omega
      · simp only [hx, hy, if_true, if_false]; subst hx; omega
      · simp only [hx, hy, if_true, if_false]; subst hy; omega
      · simp [hx, hy]
  · exact List.Perm.refl _

theorem shuffleLoop_perm (draw : Nat → Nat) (n : Nat) (l : List Nat) :
    (shuffleLoop draw n l).Perm l := by
  induction n generalizing l with
  | zero => exact List.Perm.refl _
  | succ i ih => exact (ih _).trans (swap_perm _ _ _)

theorem shuffle_perm (rng : Int → Nat → Nat) (seed : Int) (l : List Nat) :
    (shuffle rng seed l).Perm l := shuffleLoop_perm _ _ _

/-- The result of `GenerateVertexIndices` when `512 ≤ maxIndex`. -/
theorem GenerateVertexIndices_eq (rng : Int → Nat → Nat) (seed maxIndex : Int)
    (h : 512 ≤ maxIndex) :
    GenerateVertexIndices rng seed maxIndex
      = .ok ((shuffle rng seed (List.range maxIndex.toNat)).take 512) := by
  have hlen : (shuffle rng seed (List.range maxIndex.toNat)).length = maxIndex.toNat := by
    rw [(shuffle_perm _ _ _).length_eq, List.length_range]
  unfold GenerateVertexIndices
  rw [if_neg (by omega)]
  simp only [hlen]
  rw [if_neg (by omega)]

/-- C5: for every seed and every bound `maxIndex ≥ 512`, `GenerateVertexIndices` returns exactly
512 pairwise distinct indices, each in `[0, maxIndex)`, namely the first 512 entries of a
permutation of `0..maxIndex-1`, and a call with the same seed and bound returns the same
sequence. -/
theorem C5_generate (rng : Int → Nat → Nat) (seed maxIndex : Int) (h : 512 ≤ maxIndex) :
    ∃ indices : List Nat,
      GenerateVertexIndices rng seed maxIndex = .ok indices ∧
      indices.length = 512 ∧ indices.Nodup ∧ (∀ x ∈ indices, (x : Int) < maxIndex) ∧
      (∃ p : List Nat, p.Perm (List.range maxIndex.toNat) ∧ indices = p.take 512) ∧
      (∀ seed' maxIndex' : Int, seed' = seed → maxIndex' = maxIndex →
        GenerateVertexIndices rng seed' maxIndex' = .ok indices) := by
  have hperm := shuffle_perm rng seed (List.range maxIndex.toNat)
  refine ⟨_, GenerateVertexIndices_eq rng seed maxIndex h, ?_, ?_, ?_, ⟨_, hperm, rfl⟩, ?_⟩
  · rw [List.length_take, hperm.length_eq, List.length_range]; omega
  · exact ((hperm.nodup_iff).mpr (List.nodup_range _)).sublist (List.take_sublist _ _)
  · intro x hx
    have := (hperm.mem_iff).mp (List.mem_of_mem_take hx)
    rw [List.mem_range] at this
    omega
  · intro s' m' hs hm
    rw [hs, hm]
    exact GenerateVertexIndices_eq rng seed maxIndex h

/-- The index sequence at seed 7 and bound 999 with the sample generator. -/
theorem C5_generate_witness :
    ∃ indices : List Nat,
      GenerateVertexIndices sampleRng 7 999 = .ok indices ∧
      indices.length = 512 ∧ indices.Nodup ∧ (∀ x ∈ indices, (x : Int) < 999) ∧
      (∃ p : List Nat, p.Perm (List.range (999 : Int).toNat) ∧ indices = p.take 512) ∧
      (∀ seed' maxIndex' : Int, seed' = 7 → maxIndex' = 999 →
        GenerateVertexIndices sampleRng seed' maxIndex' = .ok indices) :=
  C5_generate sampleRng 7 999 (by decide)

/-! ## Theorems: the key parser -/

theorem isDigit_not_isspace {c : Char} (h : c.isDigit = true) : isspace c = false := by
  unfold isspace
  simp only [Bool.or_eq_false_iff, decide_eq_false_iff_not]
  refine ⟨⟨⟨⟨⟨?_, ?_⟩, ?_⟩, ?_⟩, ?_⟩, ?_⟩ <;> (rintro rfl; revert h; decide)

theorem isDigit_ne_sign {c : Char} (h : c.isDigit = true) : c ≠ '-' ∧ c ≠ '+' ∧ c ≠ '*' := by
  refine ⟨?_, ?_, ?_⟩ <;> (rintro rfl; revert h; decide)

theorem takeWhile_digits (ds rest : List Char) (hd : ∀ c ∈ ds, c.isDigit = true)
    (hrest : ∀ c, rest.head? = some c → c.isDigit = false) :
    (ds ++ rest).takeWhile Char.isDigit = ds := by
  induction ds with
  | nil =>
    cases rest with
    | nil => rfl
    | cons c r => simp [List.takeWhile_cons, hrest c rfl]
  | cons d ds ih =>
    have hd' : d.isDigit = true := hd d (List.mem_cons_self _ _)
    simp only [List.cons_append, List.takeWhile_cons, hd', if_true]
    rw [ih (fun c hc => hd c (List.mem_cons_of_mem _ hc))]

theorem stoiDigits_digits (neg : Bool) (ds rest : List Char) (hne : ds ≠ [])
    (hd : ∀ c ∈ ds, c.isDigit = true)
    (hrest : ∀ c, rest.head? = some c → c.isDigit = false) :
    stoiDigits neg (ds ++ rest)
      = (if (if neg then -(digitsValue ds : Int) else (digitsValue ds : Int)) < -2147483648 ∨
            2147483647 < (if neg then -(digitsValue ds : Int) else (digitsValue ds : Int))
         then .error .out_of_range
         else .ok (if neg then -(digitsValue ds : Int) else (digitsValue ds : Int))) := by
  unfold stoiDigits
  simp only [takeWhile_digits ds rest hd hrest, hne, if_false]

/-- The integer a signed run of digits denotes. -/
theorem stoi_digits (neg : Bool) (ds rest : List Char) (hne : ds ≠ [])
    (hd : ∀ c ∈ ds, c.isDigit = true)
    (hrest : ∀ c, rest.head? = some c → c.isDigit = false) :
    stoi ((if neg then ['-'] else []) ++ (ds ++ rest))
      = (if (if neg then -(digitsValue ds : Int) else (digitsValue ds : Int)) < -2147483648 ∨
            2147483647 < (if neg then -(digitsValue ds : Int) else (digitsValue ds : Int))
         then .error .out_of_range
         else .ok (if neg then -(digitsValue ds : Int) else (digitsValue ds : Int))) := by
  rw [← stoiDigits_digits neg ds rest hne hd hrest]
  obtain ⟨d, ds', rfl⟩ := List.exists_cons_of_ne_nil hne
  have hd' : d.isDigit = true := hd d (List.mem_cons_self _ _)
  have hsp := isDigit_not_isspace hd'
  obtain ⟨h1, h2, -⟩ := isDigit_ne_sign hd'
  cases neg with
  | false =>
    have hdw : List.dropWhile isspace (d :: (ds' ++ rest)) = d :: (ds' ++ rest) := by
      simp [List.dropWhile_cons, hsp]
    simp only [Bool.false_eq_true, if_false, List.nil_append, List.cons_append]
    unfold stoi
    rw [hdw]
    split
    · rename_i heq; exact absurd (List.cons.inj heq).1 h1
    · rename_i heq; exact absurd (List.cons.inj heq).1 h2
    · rfl
  | true =>
    have hdw : List.dropWhile isspace ('-' :: (d :: (ds' ++ rest))) = '-' :: (d :: (ds' ++ rest)) := by
      rw [List.dropWhile_cons]; simp [isspace]
    simp only [if_true, List.singleton_append, List.cons_append, List.nil_append]
    unfold stoi
    rw [hdw]
    rfl

theorem find_append_of_not_mem (c : Char) (pre rest : List Char) (h : c ∉ pre) :
    find (pre ++ c :: rest) c = some pre.length := by
  induction pre with
  | nil => simp [find]
  | cons x xs ih =>
    have hx : x ≠ c := fun e => h (e ▸ List.mem_cons_self _ _)
    have := ih (fun hm => h (List.mem_cons_of_mem _ hm))
    simp [find, hx, this]

theorem digit_le_nine {c : Char} (h : c.isDigit = true) : c.toNat - 48 ≤ 9 := by
  simp only [Char.isDigit, Bool.and_eq_true, decide_eq_true_eq] at h
  have h2 : c.val.toNat ≤ 57 := h.2
  show c.val.toNat - 48 ≤ 9
  omega

theorem digitsValue_two {d1 d2 : Char} (h1 : d1.isDigit = true) (h2 : d2.isDigit = true) :
    digitsValue [d1, d2] ≤ 99 := by
  have := digit_le_nine h1
  have := digit_le_nine h2
  simp only [digitsValue, List.foldl_cons, List.foldl_nil]
  omega

/-- C7: a key string `<two decimal digits B><decimal integer S>*<A>*<K>`, with `A` free of `*`,
`K` arbitrary and `S` within the range of `int`, is parsed to `numBits = B`, `seed = S`,
`attr = A` and `keyHMAC = K` (everything after the second `*`). -/
theorem C7_parse (d1 d2 : Char) (neg : Bool) (S A K : List Char)
    (hd1 : d1.isDigit = true) (hd2 : d2.isDigit = true)
    (hS : S ≠ []) (hSd : ∀ c ∈ S, c.isDigit = true)
    (hlo : -2147483648 ≤ (if neg then -(digitsValue S : Int) else (digitsValue S : Int)))
    (hhi : (if neg then -(digitsValue S : Int) else (digitsValue S : Int)) ≤ 2147483647)
    (hA : '*' ∉ A) :
    SteganographyKey.parse
        (String.mk ([d1, d2] ++ ((if neg then ['-'] else []) ++ S) ++ '*' :: A ++ '*' :: K))
      = .constructed
          { numBits := (digitsValue [d1, d2] : Int)
            seed := if neg then -(digitsValue S : Int) else (digitsValue S : Int)
            attr := String.mk A
            keyHMAC := String.mk K } := by
  have hB : stoi [d1, d2] = .ok (digitsValue [d1, d2] : Int) := by
    have h := stoi_digits false [d1, d2] [] (by simp)
      (by intro c hc; simp at hc; rcases hc with rfl | rfl <;> assumption) (by simp)
    have hb := digitsValue_two hd1 hd2
    simp only [Bool.false_eq_true, if_false, List.nil_append, List.append_nil] at h
    rw [h, if_neg (by omega)]
  have hstar : '*' ∉ (if neg then ['-'] else []) ++ S := by
    intro hm
    rcases List.mem_append.mp hm with hm | hm
    · cases neg <;> simp at hm
    · exact (isDigit_ne_sign (hSd _ hm)).2.2 rfl
  have hSv : stoi ((if neg then ['-'] else []) ++ S)
      = .ok (if neg then -(digitsValue S : Int) else (digitsValue S : Int)) := by
    have h := stoi_digits neg S [] hS hSd (by simp)
    simp only [List.append_nil] at h
    rw [h, if_neg (by omega)]
  generalize (if neg then ['-'] else []) ++ S = P at hstar hSv
  simp only [SteganographyKey.parse, List.cons_append, List.nil_append, List.take_succ_cons,
    List.take_zero, hB, List.length_cons, List.drop_succ_cons, List.drop_zero]
  rw [if_neg (by omega)]
  simp only [List.append_assoc, List.cons_append]
  rw [find_append_of_not_mem '*' _ _ hstar]
  have hd : List.drop (P.length + 1) (P ++ '*' :: (A ++ '*' :: K)) = A ++ '*' :: K := by
    rw [List.drop_append_eq_append_drop]
    simp
  simp only [List.take_left', hd, hSv]
  rw [find_append_of_not_mem '*' _ _ hA]
  simp

theorem count_of_find (c : Char) (l : List Char) (p : Nat) (h : find l c = some p) :
    l.count c = (l.drop (p + 1)).count c + 1 := by
  induction l generalizing p with
  | nil => simp [find] at h
  | cons x xs ih =>
    unfold find at h
    by_cases hx : x = c
    · subst hx
      simp only [if_true, Option.some.injEq] at h
      subst h
      simp
    · simp only [hx, if_false, Option.map_eq_some'] at h
      obtain ⟨q, hq, rfl⟩ := h
      simp [List.count_cons, hx, ih q hq]

/-- For every key string of at least two characters in which a required `*` is absent or whose
two-character prefix is no integer, the constructor does not produce a key: it throws, or it
prints "Invalid key format" and returns early with `attr` and `keyHMAC` never assigned. -/
theorem parse_malformed (keyString : String) (hlen : 2 ≤ keyString.data.length)
    (h : (keyString.data.drop 2).count '*' < 2 ∨ ∀ v, stoi (keyString.data.take 2) ≠ .ok v) :
    (∃ e, SteganographyKey.parse keyString = .thrown e) ∨
    (∃ numBits seed, SteganographyKey.parse keyString = .invalidFormat numBits seed) := by
  have hlen' : ¬ keyString.data.length < 2 := by omega
  cases hB : stoi (keyString.data.take 2) with
  | error e => exact Or.inl ⟨e, by simp only [SteganographyKey.parse, hB]⟩
  | ok numBits =>
    have hcount : (keyString.data.drop 2).count '*' < 2 := by
      rcases h with h | h
      · exact h
      · exact absurd hB (h numBits)
    cases hf : find (keyString.data.drop 2) '*' with
    | none =>
      exact Or.inr ⟨numBits, none,
        by simp only [SteganographyKey.parse, hB, hlen', if_false, hf]⟩
    | some pos =>
      cases hS : stoi ((keyString.data.drop 2).take pos) with
      | error e =>
        exact Or.inl ⟨e, by simp only [SteganographyKey.parse, hB, hlen', if_false, hf, hS]⟩
      | ok seed =>
        cases hf2 : find ((keyString.data.drop 2).drop (pos + 1)) '*' with
        | none =>
          exact Or.inr ⟨numBits, some seed,
            by simp only [SteganographyKey.parse, hB, hlen', if_false, hf, hS, hf2]⟩
        | some pos2 =>
          have h1 := count_of_find _ _ _ hf
          have h2 := count_of_find _ _ _ hf2
          omega

/-- A key string shorter than two characters whose prefix is an integer: `remove_prefix(2)` runs
past the end of the view. -/
theorem parse_short (keyString : String) (numBits : Int) (hlen : keyString.data.length < 2)
    (hB : stoi (keyString.data.take 2) = .ok numBits) :
    SteganographyKey.parse keyString = .undefined := by
  simp only [SteganographyKey.parse, hB, hlen, if_true]

/-- C8: the key string `1` has no `*` at all, yet the constructor neither throws nor prints
"Invalid key format": `stoi` reads 1 from the prefix and `key.remove_prefix(2)` is then called
on a view of one character, which is undefined behaviour. -/
theorem C8_short_key :
    stoi ("1".data.take 2) = .ok 1 ∧ SteganographyKey.parse "1" = .undefined :=
  ⟨by decide, parse_short "1" 1 (by decide) (by decide)⟩

/-- The key `021*POSITION*mysecret` of the spec. -/
theorem C7_parse_witness :
    SteganographyKey.parse "021*POSITION*mysecret"
      = .constructed { numBits := 2, seed := 1, attr := "POSITION", keyHMAC := "mysecret" } :=
  C7_parse '0' '2' false ['1'] "POSITION".data "mysecret".data (by decide) (by decide)
    (by decide) (by decide) (by decide) (by decide) (by decide)

/-! ## Theorems: mesh selection -/

theorem toI32_of_range {x : Int} (h0 : -2147483648 ≤ x) (h1 : x ≤ 2147483647) : toI32 x = x := by
  unfold toI32 toU32
  split <;> omega

theorem primitiveElements_nonneg (accessors : List Accessor) (p : Primitive)
    (h : hasPosition accessors p = true) : 0 ≤ primitiveElements accessors p := by
  unfold hasPosition at h
  unfold primitiveElements
  cases hp : positionAccessor accessors p with
  | none => simp [hp] at h
  | some acc =>
    simp only [hp] at h ⊢
    have : 0 ≤ GetNumComponentsInType acc.type := by
      cases ht : acc.type <;> simp [GetNumComponentsInType, ht] at h ⊢
    positivity

theorem sumElements_eq (accessors : List Accessor) (ps : List Primitive) (n : Int)
    (hp : ∀ p ∈ ps, hasPosition accessors p = true) (h0 : 0 ≤ n)
    (hmax : n + (ps.map (primitiveElements accessors)).sum ≤ 2147483647) :
    sumElements accessors ps n = .ok (n + (ps.map (primitiveElements accessors)).sum) := by
  induction ps generalizing n with
  | nil => simp [sumElements]
  | cons p ps ih =>
    have hp1 := hp p (List.mem_cons_self _ _)
    have hnn := primitiveElements_nonneg accessors p hp1
    have hrest : 0 ≤ (ps.map (primitiveElements accessors)).sum :=
      List.sum_nonneg (by
        intro x hx
        obtain ⟨q, hq, rfl⟩ := List.mem_map.mp hx
        exact primitiveElements_nonneg accessors q (hp q (List.mem_cons_of_mem _ hq)))
    simp only [List.map_cons, List.sum_cons] at hmax ⊢
    unfold hasPosition positionAccessor at hp1
    unfold sumElements
    cases hl : List.lookup "POSITION" p.attributes with
    | none => simp [hl] at hp1
    | some ai =>
      cases hi : index accessors ai with
      | none => simp [hl, hi] at hp1
      | some acc =>
        have hpe : primitiveElements accessors p
            = (acc.count : Int) * GetNumComponentsInType acc.type := by
          simp [primitiveElements, positionAccessor, hl, hi]
        simp only [hi]
        rw [← hpe, toI32_of_range (by omega) (by omega)]
        rw [ih _ (fun q hq => hp q (List.mem_cons_of_mem _ hq)) (by omega) (by omega)]
        congr 1
        omega

theorem elementCount_nonneg (accessors : List Accessor) (mesh : Mesh)
    (hp : ∀ p ∈ mesh.primitives, hasPosition accessors p = true) :
    0 ≤ elementCount accessors mesh :=
  List.sum_nonneg (by
    intro x hx
    obtain ⟨q, hq, rfl⟩ := List.mem_map.mp hx
    exact primitiveElements_nonneg accessors q (hp q hq))

theorem findMaxLoop_spec (accessors : List Accessor) (meshes : List Mesh) (i bestId bestN : Int)
    (hp : ∀ mesh ∈ meshes, ∀ p ∈ mesh.primitives, hasPosition accessors p = true)
    (hmax : ∀ mesh ∈ meshes, elementCount accessors mesh ≤ 2147483647) :
    ∃ id c, findMaxLoop accessors meshes i (bestId, bestN) = .ok (id, c) ∧
      bestN ≤ c ∧ (∀ mesh ∈ meshes, elementCount accessors mesh ≤ c) ∧
      ((c = bestN ∧ id = bestId) ∨
       (bestN < c ∧ ∃ j : Nat, id = i + j ∧
          (∃ mesh, meshes[j]? = some mesh ∧ elementCount accessors mesh = c) ∧
          ∀ j' mesh, j' < j → meshes[j']? = some mesh → elementCount accessors mesh < c)) := by
  induction meshes generalizing i bestId bestN with
  | nil => exact ⟨bestId, bestN, rfl, le_refl _, by simp, Or.inl ⟨rfl, rfl⟩⟩
  | cons m ms ih =>
    have hpm := hp m (List.mem_cons_self _ _)
    have hsum := sumElements_eq accessors m.primitives 0 hpm (le_refl _)
      (by simpa [elementCount] using hmax m (List.mem_cons_self _ _))
    simp only [zero_add] at hsum
    have hps : ∀ mesh ∈ ms, ∀ p ∈ mesh.primitives, hasPosition accessors p = true :=
      fun mesh hm => hp mesh (List.mem_cons_of_mem _ hm)
    have hms : ∀ mesh ∈ ms, elementCount accessors mesh ≤ 2147483647 :=
      fun mesh hm => hmax mesh (List.mem_cons_of_mem _ hm)
    unfold findMaxLoop
    simp only [hsum]
    change ∃ id c, (if elementCount accessors m > bestN then _ else _) = _ ∧ _
    by_cases hgt : elementCount accessors m > bestN
    · rw [if_pos hgt]
      obtain ⟨id, c, hrun, hle, hall, hcase⟩ := ih (i + 1) i (elementCount accessors m) hps hms
      refine ⟨id, c, hrun, by omega, ?_, Or.inr ⟨by omega, ?_⟩⟩
      · intro mesh hm
        rcases List.mem_cons.mp hm with rfl | hm
        · exact hle
        · exact hall mesh hm
      · rcases hcase with ⟨hc, hid⟩ | ⟨hc, j, hid, ⟨mesh, hj, hcnt⟩, hfirst⟩
        · refine ⟨0, by simp [hid], ⟨m, by simp, hc.symm⟩, ?_⟩
          intro j' mesh hj'; omega
        · refine ⟨j + 1, by rw [hid]; push_cast; ring, ⟨mesh, by simpa using hj, hcnt⟩, ?_⟩
          intro j' mesh' hj' hget
          cases j' with
          | zero =>
            simp only [List.getElem?_cons_zero, Option.some.injEq] at hget
            subst hget; exact hc
          | succ j'' =>
            simp only [List.getElem?_cons_succ] at hget
            exact hfirst j'' mesh' (by omega) hget
    · rw [if_neg hgt]
      obtain ⟨id, c, hrun, hle, hall, hcase⟩ := ih (i + 1) bestId bestN hps hms
      refine ⟨id, c, hrun, hle, ?_, ?_⟩
      · intro mesh hm
        rcases List.mem_cons.mp hm with rfl | hm
        · omega
        · exact hall mesh hm
      · rcases hcase with ⟨hc, hid⟩ | ⟨hc, j, hid, ⟨mesh, hj, hcnt⟩, hfirst⟩
        · exact Or.inl ⟨hc, hid⟩
        · refine Or.inr ⟨hc, j + 1, by rw [hid]; push_cast; ring, ⟨mesh, by simpa using hj, hcnt⟩, ?_⟩
          intro j' mesh' hj' hget
          cases j' with
          | zero =>
            simp only [List.getElem?_cons_zero, Option.some.injEq] at hget
            subst hget; omega
          | succ j'' =>
            simp only [List.getElem?_cons_succ] at hget
            exact hfirst j'' mesh' (by omega) hget

/-- C10: in a model with at least one mesh in which every primitive has a `POSITION` accessor
(of a known type, the element counts fitting in an `int`), `FindMaxVerticesMeshId` returns
`(i, c)` where `c` is the maximum over all meshes of the element count (the sum over the
primitives of `accessor.count * componentsPerElement(accessor.type)`) and `i` is the smallest
mesh index whose element count equals `c`. -/
theorem C10_findMax (model : Model) (hne : model.meshes ≠ [])
    (hp : ∀ mesh ∈ model.meshes, ∀ p ∈ mesh.primitives, hasPosition model.accessors p = true)
    (hmax : ∀ mesh ∈ model.meshes, elementCount model.accessors mesh ≤ 2147483647) :
    ∃ (i : Nat) (c : Int), FindMaxVerticesMeshId model = .ok ((i : Int), c) ∧
      (∀ mesh ∈ model.meshes, elementCount model.accessors mesh ≤ c) ∧
      (∃ mesh, model.meshes[i]? = some mesh ∧ elementCount model.accessors mesh = c) ∧
      (∀ j mesh, j < i → model.meshes[j]? = some mesh →
        elementCount model.accessors mesh ≠ c) := by
  obtain ⟨id, c, hrun, hle, hall, hcase⟩ :=
    findMaxLoop_spec model.accessors model.meshes 0 0 0 hp hmax
  rcases hcase with ⟨hc, hid⟩ | ⟨hc, j, hid, hj, hfirst⟩
  · subst hc hid
    obtain ⟨m, ms, hm⟩ := List.exists_cons_of_ne_nil hne
    refine ⟨0, 0, hrun, hall, ⟨m, by simp [hm], ?_⟩, fun j mesh hj => by omega⟩
    have h1 := hall m (by simp [hm])
    have h2 := elementCount_nonneg model.accessors m (hp m (by simp [hm]))
    omega
  · refine ⟨j, c, by simpa [hid] using hrun, hall, hj, ?_⟩
    intro j' mesh hj' hget
    exact ne_of_lt (hfirst j' mesh hj' hget)


/-- Mesh selection on the sample model. -/
theorem C10_findMax_witness :
    ∃ (i : Nat) (c : Int), FindMaxVerticesMeshId sampleModel = .ok ((i : Int), c) ∧
      (∀ mesh ∈ sampleModel.meshes, elementCount sampleModel.accessors mesh ≤ c) ∧
      (∃ mesh, sampleModel.meshes[i]? = some mesh ∧
        elementCount sampleModel.accessors mesh = c) ∧
      (∀ j mesh, j < i → sampleModel.meshes[j]? = some mesh →
        elementCount sampleModel.accessors mesh ≠ c) :=
  C10_findMax sampleModel (by decide) (by decide) (by decide)

/-! ## Theorems: the loop nest -/

/-! ### The loop nest as one sequential run -/

theorem runList_append {ι σ : Type} (body : ι → σ → Except Fault (Flow σ)) (l₁ l₂ : List ι)
    (s : σ) :
    runList body (l₁ ++ l₂) s =
      (match runList body l₁ s with
       | .error e => .error e
       | .ok (.ret s') => .ok (.ret s')
       | .ok (.next s') => runList body l₂ s') := by
  induction l₁ generalizing s with
  | nil => rfl
  | cons x xs ih =>
    simp only [List.cons_append, runList]
    cases hb : body x s with
    | error e => rfl
    | ok r =>
      cases r with
      | next s' => exact ih s'
      | ret s' => rfl

theorem runList_map {ι κ σ : Type} (body : κ → σ → Except Fault (Flow σ)) (f : ι → κ)
    (l : List ι) (s : σ) :
    runList body (l.map f) s = runList (fun x => body (f x)) l s := by
  induction l generalizing s with
  | nil => rfl
  | cons x xs ih =>
    simp only [List.map_cons, runList]
    cases hb : body (f x) s with
    | error e => rfl
    | ok r =>
      cases r with
      | next s' => simp only [ih]
      | ret s' => rfl

theorem runList_flatMap {ι κ σ : Type} (body : κ → σ → Except Fault (Flow σ)) (f : ι → List κ)
    (l : List ι) (s : σ) :
    runList body (l.flatMap f) s = runList (fun x => runList body (f x)) l s := by
  induction l generalizing s with
  | nil => rfl
  | cons x xs ih =>
    simp only [List.flatMap_cons, runList_append, runList]
    cases hb : runList body (f x) s with
    | error e => rfl
    | ok r =>
      cases r with
      | next s' => simp only [ih]
      | ret s' => rfl

theorem forRange_eq_runList {σ : Type} (body : Nat → σ → Except Fault (Flow σ)) (n k : Nat)
    (s : σ) : forRange body n k s = runList body (List.range' k n) s := by
  induction n generalizing k s with
  | zero => rfl
  | succ n ih =>
    simp only [forRange, List.range'_succ, runList]
    cases hb : body k s with
    | error e => rfl
    | ok r =>
      cases r with
      | next s' => simp only [ih]
      | ret s' => rfl

theorem forIndices_eq_finish {σ : Type} (body : Nat → σ → Except Fault (Flow σ))
    (l : List Nat) (s : σ) : forIndices body l s = finish (runList body l s) := by
  induction l generalizing s with
  | nil => rfl
  | cons x xs ih =>
    simp only [forIndices, runList]
    cases hb : body x s with
    | error e => rfl
    | ok r =>
      cases r with
      | next s' => simp only [ih]
      | ret s' => rfl

/-- The loop nest runs its body over `allSlots`, in order, until the body returns. -/
theorem vertexLoops_eq {σ : Type} (base : Nat) (stride numOfComps numBits : Int)
    (body : Nat → Nat → σ → Except Fault (Flow σ)) (indices : List Nat) (s : σ) :
    vertexLoops base stride numOfComps numBits body indices s =
      finish (runList (fun slot : Slot => body slot.1 slot.2)
        (allSlots base stride numOfComps numBits indices) s) := by
  unfold vertexLoops allSlots
  rw [forIndices_eq_finish, runList_flatMap]
  congr 1
  congr 1
  funext idx s
  rw [forRange_eq_runList, ← List.range_eq_range', runList_flatMap]
  congr 1
  funext j s
  rw [forRange_eq_runList, ← List.range_eq_range', runList_map]

/-- A body that counts its executions and returns at the `N`-th one runs over exactly the
first `N - rank` variables, provided each of them is valid; in every other case the run ends in
undefined behaviour. -/
theorem runList_counted {ι σ : Type} (body : ι → σ → Except Fault (Flow σ)) (step : ι → σ → σ)
    (valid : ι → Prop) [DecidablePred valid] (inv : σ → Prop) (rank : σ → Nat) (N : Nat)
    (hstep : ∀ x s, inv s → rank s < N → valid x →
      body x s = if rank s + 1 = N then .ok (.ret (step x s)) else .ok (.next (step x s)))
    (hbad : ∀ x s, inv s → rank s < N → ¬ valid x → body x s = .error .undefinedBehaviour)
    (hinv : ∀ x s, inv s → rank s < N → valid x →
      inv (step x s) ∧ rank (step x s) = rank s + 1)
    (l : List ι) (s : σ) (hs : inv s) (hr : rank s < N) :
    finish (runList body l s) =
      if N - rank s ≤ l.length ∧ ∀ x ∈ l.take (N - rank s), valid x then
        .ok ((l.take (N - rank s)).foldl (fun s x => step x s) s)
      else .error .undefinedBehaviour := by
  induction l generalizing s with
  | nil =>
    rw [if_neg (by simp; omega)]
    rfl
  | cons x xs ih =>
    obtain ⟨m, hm⟩ : ∃ m, N - rank s = m + 1 := ⟨N - rank s - 1, by omega⟩
    rw [hm]
    simp only [List.take_succ_cons, List.mem_cons, forall_eq_or_imp, List.length_cons,
      List.foldl_cons, runList]
    by_cases hv : valid x
    · rw [hstep x s hs hr hv]
      obtain ⟨hs', hr'⟩ := hinv x s hs hr hv
      by_cases hN : rank s + 1 = N
      · have hm0 : m = 0 := by omega
        subst hm0
        simp [hN, hv, finish]
      · simp only [hN, if_false]
        have hlt : rank (step x s) < N := by omega
        rw [ih (step x s) hs' hlt]
        have hm' : N - rank (step x s) = m := by omega
        rw [hm']
        simp only [hv, true_and, Nat.add_le_add_iff_right]
    · rw [hbad x s hs hr hv]
      simp [hv, finish]

/-! ### Buffers as bit strings -/

theorem bitAt_ext (l₁ l₂ : List BYTE) (hlen : l₁.length = l₂.length)
    (h : ∀ p, bitAt l₁ p = bitAt l₂ p) : l₁ = l₂ := by
  apply List.ext_getElem hlen
  intro i h1 h2
  apply Fin.ext
  apply Nat.eq_of_testBit_eq
  intro t
  by_cases ht : t < 8
  · have := h (8 * i + t)
    have e1 : (8 * i + t) / 8 = i := by omega
    have e2 : (8 * i + t) % 8 = t := by omega
    simpa [bitAt, e1, e2, List.getElem?_eq_getElem h1, List.getElem?_eq_getElem h2] using this
  · have b1 : (l₁[i]).val < 2 ^ t :=
      lt_of_lt_of_le (l₁[i]).isLt (by
        calc 256 = 2 ^ 8 := by norm_num
          _ ≤ 2 ^ t := Nat.pow_le_pow_right (by norm_num) (by omega))
    have b2 : (l₂[i]).val < 2 ^ t :=
      lt_of_lt_of_le (l₂[i]).isLt (by
        calc 256 = 2 ^ 8 := by norm_num
          _ ≤ 2 ^ t := Nat.pow_le_pow_right (by norm_num) (by omega))
    rw [Nat.testBit_lt_two_pow b1, Nat.testBit_lt_two_pow b2]

theorem bitAt_of_le (data : List BYTE) (p : Nat) (h : 8 * data.length ≤ p) :
    bitAt data p = false := by
  unfold bitAt
  rw [List.getElem?_eq_none (by omega)]

@[simp] theorem length_writeU32 (data : List BYTE) (off w : Nat) :
    (writeU32 data off w).length = data.length := by
  simp [writeU32]

theorem readU32_isSome (data : List BYTE) (off : Nat) (h : off + 4 ≤ data.length) :
    ∃ w, readU32 data off = some w := by
  unfold readU32
  rw [List.getElem?_eq_getElem (by omega), List.getElem?_eq_getElem (by omega),
    List.getElem?_eq_getElem (by omega), List.getElem?_eq_getElem (by omega)]
  exact ⟨_, rfl⟩

theorem readU32_eq_none (data : List BYTE) (off : Nat) (h : ¬ off + 4 ≤ data.length) :
    readU32 data off = none := by
  unfold readU32
  have h3 : data[off + 3]? = none := List.getElem?_eq_none (by omega)
  rw [h3]
  split
  · rename_i heq; simp at heq
  · rfl

theorem byte_testBit (b : BYTE) (t : Nat) (ht : 8 ≤ t) : b.val.testBit t = false :=
  Nat.testBit_lt_two_pow (lt_of_lt_of_le b.isLt (by
    calc 256 = 2 ^ 8 := by norm_num
      _ ≤ 2 ^ t := Nat.pow_le_pow_right (by norm_num) ht))

/-- The word read at `off` holds the 32 bits of the buffer from position `8 * off`. -/
theorem readU32_testBit (data : List BYTE) (off w t : Nat) (h : readU32 data off = some w) :
    w.testBit t = (decide (t < 32) && bitAt data (8 * off + t)) := by
  unfold readU32 at h
  split at h
  · rename_i b0 b1 b2 b3 h0 h1 h2 h3
    simp only [Option.some.injEq] at h
    subst h
    simp only [Nat.testBit_or, Nat.testBit_shiftLeft, bitAt]
    by_cases c0 : t < 8
    · have e1 : (8 * off + t) / 8 = off := by omega
      have e2 : (8 * off + t) % 8 = t := by omega
      have n1 : ¬ t ≥ 8 := by omega
      have n2 : ¬ t ≥ 16 := by omega
      have n3 : ¬ t ≥ 24 := by omega
      have n4 : t < 32 := by omega
      simp [e1, e2, h0, n1, n2, n3, n4]
    · by_cases c1 : t < 16
      · have e1 : (8 * off + t) / 8 = off + 1 := by omega
        have e2 : (8 * off + t) % 8 = t - 8 := by omega
        have n1 : t ≥ 8 := by omega
        have n2 : ¬ t ≥ 16 := by omega
        have n3 : ¬ t ≥ 24 := by omega
        have n4 : t < 32 := by omega
        simp [e1, e2, h1, n1, n2, n3, n4, byte_testBit b0 t (by omega)]
      · by_cases c2 : t < 24
        · have e1 : (8 * off + t) / 8 = off + 2 := by omega
          have e2 : (8 * off + t) % 8 = t - 16 := by omega
          have n1 : t ≥ 8 := by omega
          have n2 : t ≥ 16 := by omega
          have n3 : ¬ t ≥ 24 := by omega
          have n4 : t < 32 := by omega
          simp [e1, e2, h2, n1, n2, n3, n4, byte_testBit b0 t (by omega),
            byte_testBit b1 (t - 8) (by omega)]
        · by_cases c3 : t < 32
          · have e1 : (8 * off + t) / 8 = off + 3 := by omega
            have e2 : (8 * off + t) % 8 = t - 24 := by omega
            have n1 : t ≥ 8 := by omega
            have n2 : t ≥ 16 := by omega
            have n3 : t ≥ 24 := by omega
            simp [e1, e2, h3, n1, n2, n3, c3, byte_testBit b0 t (by omega),
              byte_testBit b1 (t - 8) (by omega), byte_testBit b2 (t - 16) (by omega)]
          · have n1 : t ≥ 8 := by omega
            have n2 : t ≥ 16 := by omega
            have n3 : t ≥ 24 := by omega
            simp [n1, n2, n3, c3, byte_testBit b0 t (by omega),
              byte_testBit b1 (t - 8) (by omega), byte_testBit b2 (t - 16) (by omega),
              byte_testBit b3 (t - 24) (by omega)]
  · simp at h

theorem byteOf_testBit (w i t : Nat) :
    (byteOf w i).val.testBit t = (decide (t < 8) && w.testBit (8 * i + t)) := by
  show ((w >>> (8 * i)) % 256).testBit t = _
  have : (256 : Nat) = 2 ^ 8 := by norm_num
  rw [this, Nat.testBit_mod_two_pow, Nat.testBit_shiftRight]

/-- After a store at `off` the 32 bits from position `8 * off` are those of the stored word,
all other bits are as before. -/
theorem bitAt_writeU32 (data : List BYTE) (off w q : Nat) (h : off + 4 ≤ data.length) :
    bitAt (writeU32 data off w) q =
      if 8 * off ≤ q ∧ q < 8 * off + 32 then w.testBit (q - 8 * off) else bitAt data q := by
  unfold bitAt writeU32
  simp only [List.getElem?_set, List.length_set]
  by_cases c3 : off + 3 = q / 8
  · have e : 8 * 3 + q % 8 = q - 8 * off := by omega
    rw [if_pos c3, if_pos (by omega), if_pos (by omega)]
    simp only [byteOf_testBit, e]
    have : q % 8 < 8 := by omega
    simp [this]
  · rw [if_neg c3]
    by_cases c2 : off + 2 = q / 8
    · have e : 8 * 2 + q % 8 = q - 8 * off := by omega
      rw [if_pos c2, if_pos (by omega), if_pos (by omega)]
      simp only [byteOf_testBit, e]
      have : q % 8 < 8 := by omega
      simp [this]
    · rw [if_neg c2]
      by_cases c1 : off + 1 = q / 8
      · have e : 8 * 1 + q % 8 = q - 8 * off := by omega
        rw [if_pos c1, if_pos (by omega), if_pos (by omega)]
        simp only [byteOf_testBit, e]
        have : q % 8 < 8 := by omega
        simp [this]
      · rw [if_neg c1]
        by_cases c0 : off = q / 8
        · have e : 8 * 0 + q % 8 = q - 8 * off := by omega
          rw [if_pos c0, if_pos (by omega), if_pos (by omega)]
          simp only [byteOf_testBit, e]
          have : q % 8 < 8 := by omega
          simp [this]
        · rw [if_neg c0, if_neg (by omega)]

/-! ### One step of each loop body, bit by bit -/

theorem testBit_one (j : Nat) : (1 : Nat).testBit j = decide (j = 0) := by
  cases j with
  | zero => rfl
  | succ j =>
    have h : ¬ (Nat.testBit 1 (j + 1) = true) := fun h =>
      absurd (Nat.testBit_one_eq_true_iff_self_eq_zero.mp h) (by omega)
    simpa using h

@[simp] theorem length_zeroWord (data : List BYTE) (slot : Slot) :
    (zeroWord data slot).length = data.length := by
  simp [zeroWord]

/-- A `ZeroingBits` step clears the bit of its slot and nothing else. -/
theorem bitAt_zeroWord (data : List BYTE) (slot : Slot) (q : Nat)
    (hv : slot.valid data.length) :
    bitAt (zeroWord data slot) q = (bitAt data q && decide (q ≠ slot.pos)) := by
  obtain ⟨hk, hoff⟩ := hv
  obtain ⟨w, hw⟩ := readU32_isSome data slot.1 hoff
  unfold zeroWord Slot.pos
  rw [hw, Option.getD_some, bitAt_writeU32 _ _ _ _ hoff]
  have hM : (4294967295 : Nat) = 2 ^ 32 - 1 := by norm_num
  by_cases hr : 8 * slot.1 ≤ q ∧ q < 8 * slot.1 + 32
  · rw [if_pos hr, Nat.testBit_and, Nat.testBit_xor, readU32_testBit _ _ _ _ hw, hM,
      Nat.testBit_two_pow_sub_one, Nat.one_shiftLeft, Nat.testBit_two_pow]
    have e : 8 * slot.1 + (q - 8 * slot.1) = q := by omega
    have hlt : q - 8 * slot.1 < 32 := by omega
    rw [e]
    by_cases hq : q = 8 * slot.1 + slot.2
    · have h2 : q - 8 * slot.1 = slot.2 := by omega
      rw [h2]
      simp [hk, hq]
    · have : ¬ slot.2 = q - 8 * slot.1 := by omega
      simp [hlt, hq, this]
  · rw [if_neg hr]
    have : q ≠ 8 * slot.1 + slot.2 := by omega
    simp [this]

theorem length_embedEffect (hmac : List BYTE) (slot : Slot) (s : List BYTE × Int × Int) :
    (embedEffect hmac slot s).1.length = s.1.length := by
  simp [embedEffect]

/-- An `EmbedHMAC` step XORs the current digest bit into the bit of its slot and changes
nothing else. -/
theorem bitAt_embedEffect (hmac : List BYTE) (slot : Slot) (s : List BYTE × Int × Int) (q : Nat)
    (hv : slot.valid s.1.length) :
    bitAt (embedEffect hmac slot s).1 q =
      (bitAt s.1 q ^^ (decide (q = slot.pos) &&
        ((index hmac s.2.1).getD 0).val.testBit s.2.2.toNat)) := by
  obtain ⟨hk, hoff⟩ := hv
  obtain ⟨w, hw⟩ := readU32_isSome s.1 slot.1 hoff
  unfold embedEffect Slot.pos
  simp only
  rw [hw, Option.getD_some, bitAt_writeU32 _ _ _ _ hoff]
  by_cases hr : 8 * slot.1 ≤ q ∧ q < 8 * slot.1 + 32
  · rw [if_pos hr, Nat.testBit_xor, readU32_testBit _ _ _ _ hw, Nat.testBit_shiftLeft,
      Nat.testBit_and, Nat.testBit_shiftRight, testBit_one]
    have e : 8 * slot.1 + (q - 8 * slot.1) = q := by omega
    have hlt : q - 8 * slot.1 < 32 := by omega
    rw [e]
    by_cases hq : q = 8 * slot.1 + slot.2
    · have h2 : q - 8 * slot.1 = slot.2 := by omega
      rw [h2]
      simp [hk, hq]
    · by_cases h1 : q - 8 * slot.1 ≥ slot.2
      · have h2 : ¬ q - 8 * slot.1 - slot.2 = 0 := by omega
        simp [hlt, hq, h1, h2]
      · simp [hlt, hq, h1]
  · rw [if_neg hr]
    have : q ≠ 8 * slot.1 + slot.2 := by omega
    simp [this]

theorem length_extractEffect (data : List BYTE) (slot : Slot) (s : List BYTE × Int × Int) :
    (extractEffect data slot s).1.length = s.1.length := by
  simp [extractEffect]

/-- An `ExtractHMAC` step ORs the bit of its slot into the current digest bit and changes
nothing else. -/
theorem bitAt_extractEffect (data : List BYTE) (slot : Slot) (s : List BYTE × Int × Int)
    (q : Nat) (hv : slot.valid data.length) (hb0 : 0 ≤ s.2.1) (hb1 : s.2.1.toNat < s.1.length)
    (hc0 : 0 ≤ s.2.2) (hc1 : s.2.2 ≤ 7) :
    bitAt (extractEffect data slot s).1 q =
      (bitAt s.1 q || (decide (q = 8 * s.2.1.toNat + s.2.2.toNat) && bitAt data slot.pos)) := by
  obtain ⟨hk, hoff⟩ := hv
  obtain ⟨w, hw⟩ := readU32_isSome data slot.1 hoff
  have hidx : index s.1 s.2.1 = some (s.1[s.2.1.toNat]) := by
    unfold index
    rw [if_neg (by omega), List.getElem?_eq_getElem hb1]
  have hwk : bitAt data slot.pos = w.testBit slot.2 := by
    rw [readU32_testBit _ _ _ _ hw]
    simp [Slot.pos, hk]
  unfold extractEffect
  simp only [hw, hidx, Option.getD_some, hwk]
  unfold bitAt
  rw [List.getElem?_set]
  by_cases hq : s.2.1.toNat = q / 8
  · rw [if_pos hq, if_pos hb1]
    have h256 : (256 : Nat) = 2 ^ 8 := by norm_num
    simp only [h256, Nat.testBit_mod_two_pow, Nat.testBit_or, Nat.testBit_shiftLeft,
      Nat.testBit_and, Nat.testBit_shiftRight, testBit_one]
    have hlt : q % 8 < 8 := by omega
    have hget : s.1[q / 8]? = some (s.1[s.2.1.toNat]) := by
      rw [← hq, List.getElem?_eq_getElem hb1]
    rw [hget]
    by_cases hbit : q = 8 * s.2.1.toNat + s.2.2.toNat
    · have h2 : q % 8 = s.2.2.toNat := by omega
      rw [h2]
      simp [hbit]
      omega
    · by_cases h1 : q % 8 ≥ s.2.2.toNat
      · have h2 : ¬ q % 8 - s.2.2.toNat = 0 := by omega
        simp [hlt, hbit, h1, h2]
      · simp [hlt, hbit, h1]
  · rw [if_neg hq]
    have : ¬ q = 8 * s.2.1.toNat + s.2.2.toNat := by omega
    simp [this]

/-! ### The three loop nests in closed form -/

theorem index_of_lt {α : Type} (l : List α) (i : Int) (h0 : 0 ≤ i) (h1 : i.toNat < l.length) :
    index l i = some (l[i.toNat]) := by
  unfold index
  rw [if_neg (by omega), List.getElem?_eq_getElem h1]

theorem advance_rank (byteCounter bitCounter : Int) (h0 : 0 ≤ byteCounter)
    (h1 : 0 ≤ bitCounter) (h2 : bitCounter ≤ 7) :
    0 ≤ (advance byteCounter bitCounter).1 ∧ 0 ≤ (advance byteCounter bitCounter).2 ∧
    (advance byteCounter bitCounter).2 ≤ 7 ∧
    8 * (advance byteCounter bitCounter).1 + (7 - (advance byteCounter bitCounter).2)
      = 8 * byteCounter + (7 - bitCounter) + 1 := by
  unfold advance
  split <;> simp only <;> omega

/-- `ZeroingBits`: the loop nest clears the bits of the mark slots, when there are 512 of them
and all can be accessed; otherwise its behaviour is undefined. -/
theorem zero_loops (base : Nat) (stride numOfComps numBits : Int) (indices : List Nat)
    (data : List BYTE) :
    vertexLoops base stride numOfComps numBits zeroStep indices (data, 0) =
      if 512 ≤ (allSlots base stride numOfComps numBits indices).length ∧
          ∀ x ∈ markSlots base stride numOfComps numBits indices, x.valid data.length then
        .ok ((markSlots base stride numOfComps numBits indices).foldl
          (fun s x => (zeroWord s.1 x, s.2 + 1)) (data, 0))
      else .error .undefinedBehaviour := by
  rw [vertexLoops_eq]
  have h := runList_counted (fun slot : Slot => zeroStep slot.1 slot.2)
    (fun x s => (zeroWord s.1 x, s.2 + 1)) (Slot.valid data.length)
    (fun s => s.1.length = data.length ∧ 0 ≤ s.2) (fun s => s.2.toNat) 512
    (by
      rintro ⟨off, k⟩ ⟨d, c⟩ ⟨hlen, hc⟩ hr ⟨hk, hoff⟩
      simp only at hlen hc hr hk hoff
      obtain ⟨w, hw⟩ := readU32_isSome d off (by omega)
      simp only [zeroStep, zeroWord, hw, Option.getD_some, if_neg (show ¬ 32 ≤ k by omega),
        MAX_VERTICES_FOR_HMAC]
      have : (c + 1 = ((512 : Nat) : Int)) ↔ (c.toNat + 1 = 512) := by omega
      by_cases h512 : c.toNat + 1 = 512
      · rw [if_pos (this.mpr h512), if_pos h512]
      · rw [if_neg (fun h => h512 (this.mp h)), if_neg h512])
    (by
      rintro ⟨off, k⟩ ⟨d, c⟩ ⟨hlen, hc⟩ hr hv
      simp only at hlen hc hr
      by_cases hk : 32 ≤ k
      · simp only [zeroStep, if_pos hk]
      · have : ¬ off + 4 ≤ d.length := fun h => hv ⟨by omega, by omega⟩
        simp only [zeroStep, if_neg hk, readU32_eq_none d off this])
    (by
      rintro ⟨off, k⟩ ⟨d, c⟩ ⟨hlen, hc⟩ hr hv
      simp only at hlen hc hr ⊢
      refine ⟨⟨by simp [hlen], by omega⟩, by omega⟩)
    (allSlots base stride numOfComps numBits indices) (data, 0) ⟨rfl, le_refl _⟩ (by norm_num)
  simpa [markSlots] using h

/-- `EmbedHMAC`: the loop nest applies `embedEffect` to the mark slots, when there are 512 of
them and all can be accessed; otherwise its behaviour is undefined. -/
theorem embed_loops (base : Nat) (stride numOfComps numBits : Int) (indices : List Nat)
    (hmac data : List BYTE) (hh : hmac.length = 64) :
    vertexLoops base stride numOfComps numBits (embedStep hmac) indices (data, 0, 7) =
      if 512 ≤ (allSlots base stride numOfComps numBits indices).length ∧
          ∀ x ∈ markSlots base stride numOfComps numBits indices, x.valid data.length then
        .ok ((markSlots base stride numOfComps numBits indices).foldl
          (fun s x => embedEffect hmac x s) (data, 0, 7))
      else .error .undefinedBehaviour := by
  rw [vertexLoops_eq]
  have h := runList_counted (fun slot : Slot => embedStep hmac slot.1 slot.2)
    (fun x s => embedEffect hmac x s) (Slot.valid data.length)
    (fun s => s.1.length = data.length ∧ 0 ≤ s.2.1 ∧ 0 ≤ s.2.2 ∧ s.2.2 ≤ 7)
    (fun s => (8 * s.2.1 + (7 - s.2.2)).toNat) 512
    (by
      rintro ⟨off, k⟩ ⟨d, bc, tc⟩ ⟨hlen, hb, ht0, ht7⟩ hr ⟨hk, hoff⟩
      simp only at hlen hb ht0 ht7 hr hk hoff
      obtain ⟨w, hw⟩ := readU32_isSome d off (by omega)
      have hidx := index_of_lt hmac bc hb (by omega)
      obtain ⟨a0, a1, a2, a3⟩ := advance_rank bc tc hb ht0 ht7
      simp only [embedStep, embedEffect, hw, hidx, Option.getD_some,
        if_neg (show ¬ 32 ≤ k by omega), HMAC_BYTE_SIZE]
      have : ((advance bc tc).1 = ((64 : Nat) : Int)) ↔ ((8 * bc + (7 - tc)).toNat + 1 = 512) := by
        omega
      by_cases h512 : (8 * bc + (7 - tc)).toNat + 1 = 512
      · rw [if_pos (this.mpr h512), if_pos h512]
      · rw [if_neg (fun h => h512 (this.mp h)), if_neg h512])
    (by
      rintro ⟨off, k⟩ ⟨d, bc, tc⟩ ⟨hlen, hb, ht0, ht7⟩ hr hv
      simp only at hlen hb ht0 ht7 hr
      have hidx := index_of_lt hmac bc hb (by omega)
      by_cases hk : 32 ≤ k
      · simp only [embedStep, hidx, if_pos hk]
      · have : ¬ off + 4 ≤ d.length := fun h => hv ⟨by omega, by omega⟩
        simp only [embedStep, hidx, if_neg hk, readU32_eq_none d off this])
    (by
      rintro ⟨off, k⟩ ⟨d, bc, tc⟩ ⟨hlen, hb, ht0, ht7⟩ hr hv
      simp only at hlen hb ht0 ht7 hr ⊢
      obtain ⟨a0, a1, a2, a3⟩ := advance_rank bc tc hb ht0 ht7
      refine ⟨⟨by simp [embedEffect, hlen], a0, a1, a2⟩, ?_⟩
      simp only [embedEffect]
      omega)
    (allSlots base stride numOfComps numBits indices) (data, 0, 7)
    ⟨rfl, le_refl _, by norm_num, le_refl _⟩ (by norm_num)
  simpa [markSlots] using h

/-- `ExtractHMAC`: the loop nest applies `extractEffect` to the mark slots, when there are 512
of them and all can be accessed; otherwise its behaviour is undefined. -/
theorem extract_loops (base : Nat) (stride numOfComps numBits : Int) (indices : List Nat)
    (data hmac : List BYTE) (hh : hmac.length = 64) :
    vertexLoops base stride numOfComps numBits (extractStep data) indices (hmac, 0, 7) =
      if 512 ≤ (allSlots base stride numOfComps numBits indices).length ∧
          ∀ x ∈ markSlots base stride numOfComps numBits indices, x.valid data.length then
        .ok ((markSlots base stride numOfComps numBits indices).foldl
          (fun s x => extractEffect data x s) (hmac, 0, 7))
      else .error .undefinedBehaviour := by
  rw [vertexLoops_eq]
  have h := runList_counted (fun slot : Slot => extractStep data slot.1 slot.2)
    (fun x s => extractEffect data x s) (Slot.valid data.length)
    (fun s => s.1.length = 64 ∧ 0 ≤ s.2.1 ∧ 0 ≤ s.2.2 ∧ s.2.2 ≤ 7)
    (fun s => (8 * s.2.1 + (7 - s.2.2)).toNat) 512
    (by
      rintro ⟨off, k⟩ ⟨d, bc, tc⟩ ⟨hlen, hb, ht0, ht7⟩ hr ⟨hk, hoff⟩
      simp only at hlen hb ht0 ht7 hr hk hoff
      obtain ⟨w, hw⟩ := readU32_isSome data off (by omega)
      have hidx := index_of_lt d bc hb (by omega)
      obtain ⟨a0, a1, a2, a3⟩ := advance_rank bc tc hb ht0 ht7
      simp only [extractStep, extractEffect, hw, hidx, Option.getD_some,
        if_neg (show ¬ 32 ≤ k by omega), HMAC_BYTE_SIZE]
      have : ((advance bc tc).1 = ((64 : Nat) : Int)) ↔ ((8 * bc + (7 - tc)).toNat + 1 = 512) := by
        omega
      by_cases h512 : (8 * bc + (7 - tc)).toNat + 1 = 512
      · rw [if_pos (this.mpr h512), if_pos h512]
      · rw [if_neg (fun h => h512 (this.mp h)), if_neg h512])
    (by
      rintro ⟨off, k⟩ ⟨d, bc, tc⟩ ⟨hlen, hb, ht0, ht7⟩ hr hv
      simp only at hlen hb ht0 ht7 hr
      by_cases hk : 32 ≤ k
      · simp only [extractStep, if_pos hk]
      · have : ¬ off + 4 ≤ data.length := fun h => hv ⟨by omega, by omega⟩
        simp only [extractStep, if_neg hk, readU32_eq_none data off this])
    (by
      rintro ⟨off, k⟩ ⟨d, bc, tc⟩ ⟨hlen, hb, ht0, ht7⟩ hr hv
      simp only at hlen hb ht0 ht7 hr ⊢
      obtain ⟨a0, a1, a2, a3⟩ := advance_rank bc tc hb ht0 ht7
      refine ⟨⟨by simp [extractEffect, hlen], a0, a1, a2⟩, ?_⟩
      simp only [extractEffect]
      omega)
    (allSlots base stride numOfComps numBits indices) (hmac, 0, 7)
    ⟨hh, le_refl _, by norm_num, le_refl _⟩ (by norm_num)
  simpa [markSlots] using h

/-! ### The three loop nests, bit by bit -/

/-- After the `ZeroingBits` steps over `P` exactly the bits of the slots in `P` are cleared. -/
theorem zero_fold (P : List Slot) (data : List BYTE) (c : Int)
    (hv : ∀ x ∈ P, x.valid data.length) :
    (P.foldl (fun s x => (zeroWord s.1 x, s.2 + 1)) (data, c)).1.length = data.length ∧
    ∀ q, bitAt (P.foldl (fun s x => (zeroWord s.1 x, s.2 + 1)) (data, c)).1 q =
      (bitAt data q && decide (q ∉ P.map Slot.pos)) := by
  induction P generalizing data c with
  | nil => simp
  | cons x xs ih =>
    have hx := hv x (List.mem_cons_self _ _)
    have hxs : ∀ y ∈ xs, y.valid (zeroWord data x).length := by
      intro y hy
      rw [length_zeroWord]
      exact hv y (List.mem_cons_of_mem _ hy)
    obtain ⟨h1, h2⟩ := ih (zeroWord data x) (c + 1) hxs
    simp only [List.foldl_cons]
    refine ⟨by rw [h1, length_zeroWord], ?_⟩
    intro q
    rw [h2 q, bitAt_zeroWord data x q hx]
    by_cases hq : q = x.pos
    · simp [hq]
    · simp only [List.map_cons, List.mem_cons, hq, false_or, ne_eq, not_false_eq_true,
        decide_True, Bool.and_true]

theorem digestBit_counters (hmac : List BYTE) (bc tc : Int) (hb : 0 ≤ bc) (h0 : 0 ≤ tc)
    (h7 : tc ≤ 7) :
    ((index hmac bc).getD 0).val.testBit tc.toNat = digestBit hmac (8 * bc + (7 - tc)).toNat := by
  have e1 : (8 * ((8 * bc + (7 - tc)).toNat / 8) + (7 - (8 * bc + (7 - tc)).toNat % 8)) / 8
      = bc.toNat := by omega
  have e2 : (8 * ((8 * bc + (7 - tc)).toNat / 8) + (7 - (8 * bc + (7 - tc)).toNat % 8)) % 8
      = tc.toNat := by omega
  unfold digestBit bitAt index
  rw [e1, e2, if_neg (by omega)]
  cases hmac[bc.toNat]? with
  | none => simp
  | some b => simp

/-- After the `EmbedHMAC` steps over `P`: bits outside the slots of `P` are unchanged, and
when the slots are pairwise distinct the bit of the `n`-th slot is XORed with the digest bit
whose number is `n` steps after the current one. -/
theorem embed_fold (hmac : List BYTE) (P : List Slot) (s : List BYTE × Int × Int)
    (hv : ∀ x ∈ P, x.valid s.1.length) (hb : 0 ≤ s.2.1) (h0 : 0 ≤ s.2.2) (h7 : s.2.2 ≤ 7) :
    (P.foldl (fun s x => embedEffect hmac x s) s).1.length = s.1.length ∧
    (∀ q, q ∉ P.map Slot.pos →
      bitAt (P.foldl (fun s x => embedEffect hmac x s) s).1 q = bitAt s.1 q) ∧
    ((P.map Slot.pos).Nodup → ∀ n (hn : n < P.length),
      bitAt (P.foldl (fun s x => embedEffect hmac x s) s).1 (P[n]).pos =
        (bitAt s.1 (P[n]).pos ^^ digestBit hmac ((8 * s.2.1 + (7 - s.2.2)).toNat + n))) := by
  induction P generalizing s with
  | nil => simp
  | cons x xs ih =>
    have hx := hv x (List.mem_cons_self _ _)
    have hxs : ∀ y ∈ xs, y.valid (embedEffect hmac x s).1.length := by
      intro y hy
      rw [length_embedEffect]
      exact hv y (List.mem_cons_of_mem _ hy)
    obtain ⟨a0, a1, a2, a3⟩ := advance_rank s.2.1 s.2.2 hb h0 h7
    obtain ⟨h1, h2, h3⟩ := ih (embedEffect hmac x s) hxs a0 a1 a2
    simp only [List.foldl_cons]
    refine ⟨by rw [h1, length_embedEffect], ?_, ?_⟩
    · intro q hq
      simp only [List.map_cons, List.mem_cons, not_or] at hq
      rw [h2 q hq.2, bitAt_embedEffect hmac x s q hx]
      simp [hq.1]
    · intro hnd n hn
      simp only [List.map_cons, List.nodup_cons] at hnd
      cases n with
      | zero =>
        simp only [List.getElem_cons_zero, Nat.add_zero]
        rw [h2 _ hnd.1, bitAt_embedEffect hmac x s _ hx, digestBit_counters hmac _ _ hb h0 h7]
        simp
      | succ m =>
        simp only [List.getElem_cons_succ]
        have hm : m < xs.length := by simpa using hn
        have hne : (xs[m]).pos ≠ x.pos := by
          intro e
          exact hnd.1 (e ▸ List.mem_map_of_mem _ (List.getElem_mem hm))
        rw [h3 hnd.2 m hm, bitAt_embedEffect hmac x s _ hx]
        have e : (8 * (embedEffect hmac x s).2.1 + (7 - (embedEffect hmac x s).2.2)).toNat + m
            = (8 * s.2.1 + (7 - s.2.2)).toNat + (m + 1) := by
          simp only [embedEffect]
          omega
        rw [e]
        simp [hne]

/-- After the `ExtractHMAC` steps over `P`: digest bit `m` of the output is ORed with the bit
of the slot visited `m - rank` steps after the current one. -/
theorem extract_fold (data : List BYTE) (P : List Slot) (s : List BYTE × Int × Int)
    (hv : ∀ x ∈ P, x.valid data.length) (hb : 0 ≤ s.2.1) (h0 : 0 ≤ s.2.2) (h7 : s.2.2 ≤ 7)
    (hcap : (8 * s.2.1 + (7 - s.2.2)).toNat + P.length ≤ 8 * s.1.length) :
    (P.foldl (fun s x => extractEffect data x s) s).1.length = s.1.length ∧
    ∀ m, digestBit (P.foldl (fun s x => extractEffect data x s) s).1 m =
      (digestBit s.1 m || (decide ((8 * s.2.1 + (7 - s.2.2)).toNat ≤ m) &&
        ((P[m - (8 * s.2.1 + (7 - s.2.2)).toNat]?).map (fun x => bitAt data x.pos)).getD false))
    := by
  induction P generalizing s with
  | nil => simp
  | cons x xs ih =>
    have hx := hv x (List.mem_cons_self _ _)
    obtain ⟨a0, a1, a2, a3⟩ := advance_rank s.2.1 s.2.2 hb h0 h7
    have hlen := length_extractEffect data x s
    have hr' : (8 * (extractEffect data x s).2.1 + (7 - (extractEffect data x s).2.2)).toNat
        = (8 * s.2.1 + (7 - s.2.2)).toNat + 1 := by
      simp only [extractEffect]
      omega
    simp only [List.length_cons] at hcap
    obtain ⟨h1, h2⟩ := ih (extractEffect data x s)
      (fun y hy => hv y (List.mem_cons_of_mem _ hy)) a0 a1 a2 (by rw [hr', hlen]; omega)
    simp only [List.foldl_cons]
    refine ⟨by rw [h1, hlen], ?_⟩
    intro m
    rw [h2 m, hr']
    have hstep : digestBit (extractEffect data x s).1 m =
        (digestBit s.1 m || (decide (m = (8 * s.2.1 + (7 - s.2.2)).toNat) && bitAt data x.pos)) := by
      unfold digestBit
      rw [bitAt_extractEffect data x s _ hx hb (by omega) h0 h7]
      congr 2
      apply decide_eq_decide.mpr
      omega
    rw [hstep]
    by_cases hm : m = (8 * s.2.1 + (7 - s.2.2)).toNat
    · subst hm
      simp
    · by_cases hlt : (8 * s.2.1 + (7 - s.2.2)).toNat + 1 ≤ m
      · obtain ⟨d, hd⟩ : ∃ d, m - (8 * s.2.1 + (7 - s.2.2)).toNat = d + 1 :=
          ⟨m - (8 * s.2.1 + (7 - s.2.2)).toNat - 1, by omega⟩
        have hd' : m - ((8 * s.2.1 + (7 - s.2.2)).toNat + 1) = d := by omega
        have hle : (8 * s.2.1 + (7 - s.2.2)).toNat ≤ m := by omega
        simp [hm, hlt, hd, hd', hle]
      · have hle : ¬ (8 * s.2.1 + (7 - s.2.2)).toNat ≤ m := by omega
        simp [hm, hlt, hle]

/-! ### The three operations in closed form -/

theorem index_withData (model : Model) (bv : BufferView) (buf : Buffer) (data : List BYTE)
    (h : index model.buffers bv.buffer = some buf) :
    index (model.withData bv data).buffers bv.buffer = some { data := data } := by
  unfold index at h ⊢
  by_cases hneg : bv.buffer < 0
  · rw [if_pos hneg] at h; simp at h
  · rw [if_neg hneg] at h ⊢
    obtain ⟨hlt, -⟩ := List.getElem?_eq_some_iff.mp h
    simp [Model.withData, List.getElem?_set, hlt]

theorem locate_withData (model : Model) (ai : Int) (acc : Accessor) (bv : BufferView)
    (buf : Buffer) (data : List BYTE) (h : locate model ai = .ok (acc, bv, buf)) :
    locate (model.withData bv data) ai = .ok (acc, bv, { data := data }) := by
  unfold locate at h ⊢
  change (match index model.accessors ai with
    | none => _
    | some accessor =>
      match index model.bufferViews accessor.bufferView with
      | none => _
      | some buffer_view =>
        match index (model.withData bv data).buffers buffer_view.buffer with
        | none => _
        | some buffer => _) = _
  cases ha : index model.accessors ai with
  | none => simp [ha] at h
  | some a =>
    simp only [ha] at h ⊢
    cases hv : index model.bufferViews a.bufferView with
    | none => simp [hv] at h
    | some v =>
      simp only [hv] at h ⊢
      cases hb : index model.buffers v.buffer with
      | none => simp [hb] at h
      | some b =>
        simp only [hb, Except.ok.injEq, Prod.mk.injEq] at h
        obtain ⟨rfl, rfl, rfl⟩ := h
        rw [index_withData model v b data hb]

theorem withData_withData (model : Model) (bv : BufferView) (d₁ d₂ : List BYTE) :
    (model.withData bv d₁).withData bv d₂ = model.withData bv d₂ := by
  simp [Model.withData, List.set_set]

theorem target_withData (model : Model) (key : SteganographyKey) (acc : Accessor)
    (bv : BufferView) (buf : Buffer) (data : List BYTE)
    (h : target model key = some (acc, bv, buf)) :
    target (model.withData bv data) key = some (acc, bv, { data := data }) := by
  unfold target at h ⊢
  change (match FindMaxVerticesMeshId model, numOfVerts key with
    | .ok (maxNumElMeshId, maxNumElements), .ok numOfVerts =>
      if toU32 maxNumElements < numOfVerts then none
      else
        match index model.meshes maxNumElMeshId with
        | none => none
        | some mesh =>
          match mesh.primitives with
          | [] => none
          | primitive :: _ =>
            match primitive.attributes.lookup key.attr with
            | none => none
            | some accessor_index =>
              match locate (model.withData bv data) accessor_index with
              | .error _ => none
              | .ok t => some t
    | _, _ => none) = _
  cases hf : FindMaxVerticesMeshId model with
  | error e => simp [hf] at h
  | ok r =>
    obtain ⟨id, n⟩ := r
    cases hn : numOfVerts key with
    | error e => simp [hf, hn] at h
    | ok nv =>
      simp only [hf, hn] at h ⊢
      by_cases hg : toU32 n < nv
      · simp [hg] at h
      · rw [if_neg hg] at h ⊢
        cases hm : index model.meshes id with
        | none => simp [hm] at h
        | some mesh =>
          simp only [hm] at h ⊢
          cases hp : mesh.primitives with
          | nil => simp [hp] at h
          | cons p rest =>
            simp only [hp] at h ⊢
            cases hl : List.lookup key.attr p.attributes with
            | none => simp [hl] at h
            | some ai =>
              simp only [hl] at h ⊢
              cases hloc : locate model ai with
              | error e => simp [hloc] at h
              | ok t =>
                simp only [hloc, Option.some.injEq] at h
                subst h
                rw [locate_withData model ai acc bv buf data hloc]

theorem zero_of_target (rng : Int → Nat → Nat) (model : Model) (key : SteganographyKey)
    (acc : Accessor) (bv : BufferView) (buf : Buffer)
    (h : target model key = some (acc, bv, buf)) :
    ZeroingBits rng model key =
      (match GenerateVertexIndices rng key.seed (maxIndexOf acc) with
       | .error e => .error e
       | .ok indices =>
         match vertexLoops (bv.byteOffset + acc.byteOffset) (acc.ByteStride bv)
             (GetNumComponentsInType acc.type) key.numBits zeroStep indices (buf.data, 0) with
         | .error e => .error e
         | .ok s => .ok (model.withData bv s.1)) := by
  unfold target at h
  unfold ZeroingBits
  cases hf : FindMaxVerticesMeshId model with
  | error e => simp [hf] at h
  | ok r =>
    obtain ⟨id, n⟩ := r
    cases hn : numOfVerts key with
    | error e => simp [hf, hn] at h
    | ok nv =>
      simp only [hf, hn] at h ⊢
      by_cases hg : toU32 n < nv
      · simp [hg] at h
      · rw [if_neg hg] at h ⊢
        cases hm : index model.meshes id with
        | none => simp [hm] at h
        | some mesh =>
          simp only [hm] at h ⊢
          cases hp : mesh.primitives with
          | nil => simp [hp] at h
          | cons p rest =>
            simp only [hp] at h ⊢
            unfold zeroPrimitives
            cases hl : List.lookup key.attr p.attributes with
            | none => simp [hl] at h
            | some ai =>
              simp only [hl] at h ⊢
              cases hloc : locate model ai with
              | error e => simp [hloc] at h
              | ok t =>
                simp only [hloc, Option.some.injEq] at h
                subst h
                rfl

theorem embed_of_target (rng : Int → Nat → Nat) (model : Model) (key : SteganographyKey)
    (hmac : List BYTE) (acc : Accessor) (bv : BufferView) (buf : Buffer)
    (h : target model key = some (acc, bv, buf)) :
    EmbedHMAC rng model key hmac =
      (match GenerateVertexIndices rng key.seed (maxIndexOf acc) with
       | .error e => .error e
       | .ok indices =>
         match vertexLoops (bv.byteOffset + acc.byteOffset) (acc.ByteStride bv)
             (GetNumComponentsInType acc.type) key.numBits (embedStep hmac) indices
             (buf.data, 0, 7) with
         | .error e => .error e
         | .ok s => .ok (model.withData bv s.1)) := by
  unfold target at h
  unfold EmbedHMAC
  cases hf : FindMaxVerticesMeshId model with
  | error e => simp [hf] at h
  | ok r =>
    obtain ⟨id, n⟩ := r
    cases hn : numOfVerts key with
    | error e => simp [hf, hn] at h
    | ok nv =>
      simp only [hf, hn] at h ⊢
      by_cases hg : toU32 n < nv
      · simp [hg] at h
      · rw [if_neg hg] at h ⊢
        cases hm : index model.meshes id with
        | none => simp [hm] at h
        | some mesh =>
          simp only [hm] at h ⊢
          cases hp : mesh.primitives with
          | nil => simp [hp] at h
          | cons p rest =>
            simp only [hp] at h ⊢
            unfold embedPrimitives
            cases hl : List.lookup key.attr p.attributes with
            | none => simp [hl] at h
            | some ai =>
              simp only [hl] at h ⊢
              cases hloc : locate model ai with
              | error e => simp [hloc] at h
              | ok t =>
                simp only [hloc, Option.some.injEq] at h
                subst h
                rfl

theorem extract_of_target (rng : Int → Nat → Nat) (model : Model) (key : SteganographyKey)
    (hmac : List BYTE) (acc : Accessor) (bv : BufferView) (buf : Buffer)
    (h : target model key = some (acc, bv, buf)) :
    ExtractHMAC rng model key hmac =
      (match GenerateVertexIndices rng key.seed (maxIndexOf acc) with
       | .error e => .error e
       | .ok indices =>
         match vertexLoops (bv.byteOffset + acc.byteOffset) (acc.ByteStride bv)
             (GetNumComponentsInType acc.type) key.numBits (extractStep buf.data) indices
             (hmac, 0, 7) with
         | .error e => .error e
         | .ok s => .ok s.1) := by
  unfold target at h
  unfold ExtractHMAC
  cases hf : FindMaxVerticesMeshId model with
  | error e => simp [hf] at h
  | ok r =>
    obtain ⟨id, n⟩ := r
    cases hn : numOfVerts key with
    | error e => simp [hf, hn] at h
    | ok nv =>
      simp only [hf, hn] at h ⊢
      by_cases hg : toU32 n < nv
      · simp [hg] at h
      · rw [if_neg hg] at h ⊢
        cases hm : index model.meshes id with
        | none => simp [hm] at h
        | some mesh =>
          simp only [hm] at h ⊢
          cases hp : mesh.primitives with
          | nil => simp [hp] at h
          | cons p rest =>
            simp only [hp] at h ⊢
            unfold extractPrimitives
            cases hl : List.lookup key.attr p.attributes with
            | none => simp [hl] at h
            | some ai =>
              simp only [hl] at h ⊢
              cases hloc : locate model ai with
              | error e => simp [hloc] at h
              | ok t =>
                simp only [hloc, Option.some.injEq] at h
                subst h
                rfl

/-- When `ZeroingBits` returns without having reached the vertex data, it has changed nothing,
and `EmbedHMAC` and `ExtractHMAC` change nothing either. -/
theorem idle_of_target_none (rng : Int → Nat → Nat) (model m₁ : Model) (key : SteganographyKey)
    (h : target model key = none) (hz : ZeroingBits rng model key = .ok m₁) :
    m₁ = model ∧ (∀ hmac, EmbedHMAC rng model key hmac = .ok model) ∧
      ∀ hmac, ExtractHMAC rng model key hmac = .ok hmac := by
  unfold target at h
  unfold ZeroingBits at hz
  unfold EmbedHMAC ExtractHMAC
  cases hf : FindMaxVerticesMeshId model with
  | error e => simp [hf] at hz
  | ok r =>
    obtain ⟨id, n⟩ := r
    cases hn : numOfVerts key with
    | error e => simp [hf, hn] at hz
    | ok nv =>
      simp only [hf, hn] at h hz ⊢
      by_cases hg : toU32 n < nv
      · simp only [if_pos hg, Except.ok.injEq] at hz ⊢
        exact ⟨hz.symm, fun _ => trivial, fun _ => trivial⟩
      · rw [if_neg hg] at h hz
        simp only [if_neg hg]
        cases hm : index model.meshes id with
        | none => simp [hm] at hz
        | some mesh =>
          simp only [hm] at h hz ⊢
          cases hp : mesh.primitives with
          | nil =>
            simp only [hp, zeroPrimitives, Except.ok.injEq] at hz
            exact ⟨hz.symm, fun _ => rfl, fun _ => rfl⟩
          | cons p rest =>
            simp only [hp] at h hz
            unfold zeroPrimitives at hz
            cases hl : List.lookup key.attr p.attributes with
            | none => simp [hl] at hz
            | some ai =>
              simp only [hl] at h hz
              cases hloc : locate model ai with
              | error e => simp [hloc] at hz
              | ok t => simp [hloc] at h

/-! ### Closed forms with the index sequence fixed -/

theorem zeroed_length (P : List Slot) (data : List BYTE) (hv : ∀ x ∈ P, x.valid data.length) :
    (zeroed P data).length = data.length := (zero_fold P data 0 hv).1

theorem bitAt_zeroed (P : List Slot) (data : List BYTE) (hv : ∀ x ∈ P, x.valid data.length)
    (q : Nat) : bitAt (zeroed P data) q = (bitAt data q && decide (q ∉ P.map Slot.pos)) :=
  (zero_fold P data 0 hv).2 q

theorem embedded_length (hmac : List BYTE) (P : List Slot) (data : List BYTE)
    (hv : ∀ x ∈ P, x.valid data.length) : (embedded hmac P data).length = data.length :=
  (embed_fold hmac P (data, 0, 7) hv (le_refl _) (by norm_num) (le_refl _)).1

theorem bitAt_embedded_of_not_mem (hmac : List BYTE) (P : List Slot) (data : List BYTE)
    (hv : ∀ x ∈ P, x.valid data.length) (q : Nat) (hq : q ∉ P.map Slot.pos) :
    bitAt (embedded hmac P data) q = bitAt data q :=
  (embed_fold hmac P (data, 0, 7) hv (le_refl _) (by norm_num) (le_refl _)).2.1 q hq

theorem bitAt_embedded (hmac : List BYTE) (P : List Slot) (data : List BYTE)
    (hv : ∀ x ∈ P, x.valid data.length) (hnd : (P.map Slot.pos).Nodup) (n : Nat)
    (hn : n < P.length) :
    bitAt (embedded hmac P data) (P[n]).pos = (bitAt data (P[n]).pos ^^ digestBit hmac n) := by
  have h := (embed_fold hmac P (data, 0, 7) hv (le_refl _) (by norm_num) (le_refl _)).2.2 hnd n hn
  simpa using h

theorem extracted_length (data : List BYTE) (P : List Slot) (hmac : List BYTE)
    (hv : ∀ x ∈ P, x.valid data.length) (hcap : P.length ≤ 8 * hmac.length) :
    (extracted data P hmac).length = hmac.length :=
  (extract_fold data P (hmac, 0, 7) hv (le_refl _) (by norm_num) (le_refl _)
    (by simpa using hcap)).1

theorem digestBit_extracted (data : List BYTE) (P : List Slot) (hmac : List BYTE)
    (hv : ∀ x ∈ P, x.valid data.length) (hcap : P.length ≤ 8 * hmac.length) (m : Nat) :
    digestBit (extracted data P hmac) m =
      (digestBit hmac m || ((P[m]?).map (fun x => bitAt data x.pos)).getD false) := by
  have h := (extract_fold data P (hmac, 0, 7) hv (le_refl _) (by norm_num) (le_refl _)
    (by simpa using hcap)).2 m
  simpa using h

theorem zero_closed (rng : Int → Nat → Nat) (model : Model) (key : SteganographyKey)
    (acc : Accessor) (bv : BufferView) (buf : Buffer) (indices : List Nat)
    (ht : target model key = some (acc, bv, buf))
    (hi : GenerateVertexIndices rng key.seed (maxIndexOf acc) = .ok indices) :
    ZeroingBits rng model key =
      if Accessible key acc bv indices buf.data.length then
        .ok (model.withData bv (zeroed (slotsOf key acc bv indices) buf.data))
      else .error .undefinedBehaviour := by
  rw [zero_of_target rng model key acc bv buf ht, hi]
  simp only [zero_loops]
  unfold Accessible slotsOf zeroed
  split_ifs <;> rfl

theorem embed_closed (rng : Int → Nat → Nat) (model : Model) (key : SteganographyKey)
    (hmac : List BYTE) (acc : Accessor) (bv : BufferView) (buf : Buffer) (indices : List Nat)
    (hh : hmac.length = 64) (ht : target model key = some (acc, bv, buf))
    (hi : GenerateVertexIndices rng key.seed (maxIndexOf acc) = .ok indices) :
    EmbedHMAC rng model key hmac =
      if Accessible key acc bv indices buf.data.length then
        .ok (model.withData bv (embedded hmac (slotsOf key acc bv indices) buf.data))
      else .error .undefinedBehaviour := by
  rw [embed_of_target rng model key hmac acc bv buf ht, hi]
  simp only [embed_loops _ _ _ _ _ _ _ hh]
  unfold Accessible slotsOf embedded
  split_ifs <;> rfl

theorem extract_closed (rng : Int → Nat → Nat) (model : Model) (key : SteganographyKey)
    (hmac : List BYTE) (acc : Accessor) (bv : BufferView) (buf : Buffer) (indices : List Nat)
    (hh : hmac.length = 64) (ht : target model key = some (acc, bv, buf))
    (hi : GenerateVertexIndices rng key.seed (maxIndexOf acc) = .ok indices) :
    ExtractHMAC rng model key hmac =
      if Accessible key acc bv indices buf.data.length then
        .ok (extracted buf.data (slotsOf key acc bv indices) hmac)
      else .error .undefinedBehaviour := by
  rw [extract_of_target rng model key hmac acc bv buf ht, hi]
  simp only [extract_loops _ _ _ _ _ _ _ hh]
  unfold Accessible slotsOf extracted
  split_ifs <;> rfl

/-- What a successful `ZeroingBits` has done: nothing at all (and then the other two operations
do nothing either), or the zeroing of the mark slots of the target. -/
theorem zero_ok_cases (rng : Int → Nat → Nat) (model m₁ : Model) (key : SteganographyKey)
    (hz : ZeroingBits rng model key = .ok m₁) :
    (target model key = none ∧ m₁ = model ∧ (∀ hmac, EmbedHMAC rng model key hmac = .ok model) ∧
      ∀ hmac, ExtractHMAC rng model key hmac = .ok hmac) ∨
    (∃ acc bv buf indices, target model key = some (acc, bv, buf) ∧
      GenerateVertexIndices rng key.seed (maxIndexOf acc) = .ok indices ∧
      Accessible key acc bv indices buf.data.length ∧
      m₁ = model.withData bv (zeroed (slotsOf key acc bv indices) buf.data)) := by
  cases ht : target model key with
  | none =>
    obtain ⟨h1, h2, h3⟩ := idle_of_target_none rng model m₁ key ht hz
    exact Or.inl ⟨rfl, h1, h2, h3⟩
  | some t =>
    obtain ⟨acc, bv, buf⟩ := t
    right
    cases hi : GenerateVertexIndices rng key.seed (maxIndexOf acc) with
    | error e =>
      rw [zero_of_target rng model key acc bv buf ht, hi] at hz
      simp at hz
    | ok indices =>
      rw [zero_closed rng model key acc bv buf indices ht hi] at hz
      by_cases ha : Accessible key acc bv indices buf.data.length
      · rw [if_pos ha] at hz
        exact ⟨acc, bv, buf, indices, rfl, hi, ha, (Except.ok.inj hz).symm⟩
      · rw [if_neg ha] at hz
        simp at hz

/-! ### Zeroing after zeroing, zeroing after embedding -/

theorem zeroed_zeroed (P : List Slot) (data : List BYTE) (hv : ∀ x ∈ P, x.valid data.length) :
    zeroed P (zeroed P data) = zeroed P data := by
  have hlen := zeroed_length P data hv
  have hv' : ∀ x ∈ P, x.valid (zeroed P data).length := by rw [hlen]; exact hv
  apply bitAt_ext _ _ (by rw [zeroed_length P _ hv'])
  intro q
  rw [bitAt_zeroed P _ hv', bitAt_zeroed P data hv]
  cases bitAt data q <;> cases decide (q ∉ P.map Slot.pos) <;> rfl

theorem zeroed_embedded (hmac : List BYTE) (P : List Slot) (data : List BYTE)
    (hv : ∀ x ∈ P, x.valid data.length) :
    zeroed P (embedded hmac P (zeroed P data)) = zeroed P data := by
  have hlen := zeroed_length P data hv
  have hv' : ∀ x ∈ P, x.valid (zeroed P data).length := by rw [hlen]; exact hv
  have hlen2 := embedded_length hmac P _ hv'
  have hv'' : ∀ x ∈ P, x.valid (embedded hmac P (zeroed P data)).length := by
    rw [hlen2]; exact hv'
  apply bitAt_ext _ _ (by rw [zeroed_length P _ hv'', hlen2])
  intro q
  rw [bitAt_zeroed P _ hv'', bitAt_zeroed P data hv]
  by_cases hq : q ∈ P.map Slot.pos
  · simp [hq]
  · rw [bitAt_embedded_of_not_mem hmac P _ hv' q hq, bitAt_zeroed P data hv]
    simp [hq]

/-- C4: `ZeroingBits` is idempotent: on every model and key on which it completes, a second
run with the same key completes and leaves the model, byte for byte, as the first run left
it. -/
theorem C4_zero_idempotent (rng : Int → Nat → Nat) (model m₁ : Model) (key : SteganographyKey)
    (hz : ZeroingBits rng model key = .ok m₁) :
    ZeroingBits rng m₁ key = .ok m₁ := by
  rcases zero_ok_cases rng model m₁ key hz with ⟨-, rfl, -, -⟩ | ⟨acc, bv, buf, indices, ht, hi, ha, rfl⟩
  · exact hz
  · have hlen := zeroed_length _ buf.data ha.2
    have ht' := target_withData model key acc bv buf
      (zeroed (slotsOf key acc bv indices) buf.data) ht
    rw [zero_closed rng _ key acc bv _ indices ht' hi]
    have ha' : Accessible key acc bv indices
        (zeroed (slotsOf key acc bv indices) buf.data).length := by rw [hlen]; exact ha
    rw [if_pos ha', withData_withData, zeroed_zeroed _ _ ha.2]

/-- C3: zeroing erases the mark: when `ZeroingBits` has completed on a model, `EmbedHMAC` of
any 64-byte digest into the zeroed model completes, and `ZeroingBits` of the marked model
completes and gives back the zeroed model, byte for byte. -/
theorem C3_zero_erases_mark (rng : Int → Nat → Nat) (model m₁ : Model) (key : SteganographyKey)
    (hmac : List BYTE) (hh : hmac.length = 64) (hz : ZeroingBits rng model key = .ok m₁) :
    ∃ m₂, EmbedHMAC rng m₁ key hmac = .ok m₂ ∧ ZeroingBits rng m₂ key = .ok m₁ := by
  rcases zero_ok_cases rng model m₁ key hz with ⟨-, rfl, he, -⟩ | ⟨acc, bv, buf, indices, ht, hi, ha, rfl⟩
  · exact ⟨m₁, he hmac, hz⟩
  · have hlen := zeroed_length _ buf.data ha.2
    have ha' : Accessible key acc bv indices
        (zeroed (slotsOf key acc bv indices) buf.data).length := by rw [hlen]; exact ha
    have hlen2 := embedded_length hmac _ _ ha'.2
    have ha'' : Accessible key acc bv indices
        (embedded hmac (slotsOf key acc bv indices)
          (zeroed (slotsOf key acc bv indices) buf.data)).length := by rw [hlen2]; exact ha'
    have ht' := target_withData model key acc bv buf
      (zeroed (slotsOf key acc bv indices) buf.data) ht
    have ht'' := target_withData model key acc bv buf
      (embedded hmac (slotsOf key acc bv indices)
        (zeroed (slotsOf key acc bv indices) buf.data)) ht
    refine ⟨model.withData bv (embedded hmac (slotsOf key acc bv indices)
        (zeroed (slotsOf key acc bv indices) buf.data)), ?_, ?_⟩
    · rw [embed_closed rng _ key hmac acc bv _ indices hh ht' hi, if_pos ha', withData_withData]
    · rw [zero_closed rng _ key acc bv _ indices ht'' hi, if_pos ha'', withData_withData,
        zeroed_embedded hmac _ _ ha.2]

/-! ### What sufficient capacity gives -/

theorem maxIndexOf_eq (acc : Accessor) (h1 : 1 ≤ acc.count) (h2 : acc.count < 2147483648) :
    maxIndexOf acc = (acc.count : Int) - 1 := by
  unfold maxIndexOf toI32 toU32 toU64
  split <;> omega

theorem capacity_indices (rng : Int → Nat → Nat) (key : SteganographyKey) (acc : Accessor)
    (bv : BufferView) (buf : Buffer) (h : SufficientCapacity key acc bv buf) :
    ∃ indices, GenerateVertexIndices rng key.seed (maxIndexOf acc) = .ok indices ∧
      indices.length = 512 ∧ indices.Nodup ∧ ∀ x ∈ indices, x + 2 ≤ acc.count := by
  have hc1 := h.count_ge
  have hc2 := h.count_lt
  have hm := maxIndexOf_eq acc (by omega) hc2
  have h512 : (512 : Int) ≤ maxIndexOf acc := by rw [hm]; omega
  have hperm := shuffle_perm rng key.seed (List.range (maxIndexOf acc).toNat)
  refine ⟨_, GenerateVertexIndices_eq rng key.seed _ h512, ?_, ?_, ?_⟩
  · rw [List.length_take, hperm.length_eq, List.length_range]; omega
  · exact ((hperm.nodup_iff).mpr (List.nodup_range _)).sublist (List.take_sublist _ _)
  · intro x hxm
    have := (hperm.mem_iff).mp (List.mem_of_mem_take hxm)
    rw [List.mem_range, hm] at this
    omega

theorem mem_allSlots (base : Nat) (stride numOfComps numBits : Int) (indices : List Nat)
    (x : Slot) :
    x ∈ allSlots base stride numOfComps numBits indices ↔
      ∃ idx ∈ indices, ∃ j < numOfComps.toNat, ∃ k < numBits.toNat,
        x = (vertexOffset base stride idx + 4 * j, k) := by
  simp only [allSlots, List.mem_flatMap, List.mem_map, List.mem_range]
  constructor
  · rintro ⟨idx, hi, j, hj, k, hk, rfl⟩
    exact ⟨idx, hi, j, hj, k, hk, rfl⟩
  · rintro ⟨idx, hi, j, hj, k, hk, rfl⟩
    exact ⟨idx, hi, j, hj, k, hk, rfl⟩

theorem length_allSlots (base : Nat) (stride numOfComps numBits : Int) (indices : List Nat) :
    (allSlots base stride numOfComps numBits indices).length
      = indices.length * (numOfComps.toNat * numBits.toNat) := by
  unfold allSlots
  induction indices with
  | nil => simp
  | cons idx rest ih =>
    rw [List.flatMap_cons, List.length_append, ih, List.length_cons]
    have : ∀ n : Nat, ((List.range n).flatMap (fun j =>
        (List.range numBits.toNat).map
          (fun k => (vertexOffset base stride idx + 4 * j, k)))).length = n * numBits.toNat := by
      intro n
      induction n with
      | zero => simp
      | succ n ihn =>
        rw [List.range_succ, List.flatMap_append, List.length_append, ihn]
        simp
        ring
    rw [this]
    ring

/-- Under sufficient capacity the stride is a positive number of bytes and the vertex with
index `idx` starts `idx * stride` bytes after the first one. -/
theorem capacity_offset (key : SteganographyKey) (acc : Accessor) (bv : BufferView)
    (buf : Buffer) (h : SufficientCapacity key acc bv buf) (idx : Nat)
    (hidx : idx + 2 ≤ acc.count) :
    vertexOffset (bv.byteOffset + acc.byteOffset) (acc.ByteStride bv) idx
        = bv.byteOffset + acc.byteOffset + idx * (acc.ByteStride bv).toNat ∧
    bv.byteOffset + acc.byteOffset + idx * (acc.ByteStride bv).toNat
        + (acc.ByteStride bv).toNat + 4 * (GetNumComponentsInType acc.type).toNat
      ≤ buf.data.length ∧
    4 * (GetNumComponentsInType acc.type).toNat ≤ (acc.ByteStride bv).toNat := by
  obtain ⟨hb1, hb2, hc, hn1, hn2, hs, hin, hlen⟩ := h
  generalize acc.ByteStride bv = S at hs hin ⊢
  generalize GetNumComponentsInType acc.type = c at hc hs hin ⊢
  obtain ⟨T, rfl⟩ : ∃ T : Nat, S = (T : Int) := ⟨S.toNat, by omega⟩
  obtain ⟨C, rfl⟩ : ∃ C : Nat, c = (C : Int) := ⟨c.toNat, by omega⟩
  obtain ⟨N, hN⟩ : ∃ N : Nat, acc.count = N + 2 := ⟨acc.count - 2, by omega⟩
  simp only [Int.toNat_ofNat]
  have hin' : bv.byteOffset + acc.byteOffset + (N + 1) * T + 4 * C ≤ buf.data.length := by
    have e : ((acc.count : Int) - 1) = ((N + 1 : Nat) : Int) := by omega
    rw [e] at hin
    exact_mod_cast hin
  have hmul : idx * T ≤ N * T := Nat.mul_le_mul_right T (by omega)
  have hexp : (N + 1) * T = N * T + T := by ring
  have hs' : 4 * C ≤ T := by exact_mod_cast hs
  refine ⟨?_, by omega, hs'⟩
  unfold vertexOffset toU64
  have hT : ((T : Int) % 18446744073709551616).toNat = T := by omega
  rw [hT, Nat.mod_eq_of_lt (by omega)]

theorem capacity_accessible (key : SteganographyKey) (acc : Accessor) (bv : BufferView)
    (buf : Buffer) (h : SufficientCapacity key acc bv buf) (indices : List Nat)
    (hl : indices.length = 512) (hx : ∀ x ∈ indices, x + 2 ≤ acc.count) :
    Accessible key acc bv indices buf.data.length := by
  have hb1 := h.numBits_pos
  have hb2 := h.numBits_le
  have hc := h.components_pos
  constructor
  · rw [length_allSlots, hl]
    have : 1 ≤ (GetNumComponentsInType acc.type).toNat * key.numBits.toNat :=
      Nat.mul_pos (by omega) (by omega)
    calc 512 = 512 * 1 := by norm_num
      _ ≤ 512 * ((GetNumComponentsInType acc.type).toNat * key.numBits.toNat) :=
        Nat.mul_le_mul_left 512 this
  · intro x hxm
    have hxm' := List.mem_of_mem_take hxm
    obtain ⟨idx, hi, j, hj, k, hk, rfl⟩ := (mem_allSlots _ _ _ _ _ _).mp hxm'
    obtain ⟨e, hin, hs⟩ := capacity_offset key acc bv buf h idx (hx idx hi)
    refine ⟨?_, ?_⟩
    · show k < 32
      omega
    · show vertexOffset _ _ idx + 4 * j + 4 ≤ buf.data.length
      rw [e]
      omega


/-- Under sufficient capacity the slots of the mark are pairwise distinct bits of the buffer:
distinct vertices, components and bit numbers never share a bit. -/
theorem capacity_nodup (key : SteganographyKey) (acc : Accessor) (bv : BufferView)
    (buf : Buffer) (h : SufficientCapacity key acc bv buf) (indices : List Nat)
    (hn : indices.Nodup) (hx : ∀ x ∈ indices, x + 2 ≤ acc.count) :
    ((slotsOf key acc bv indices).map Slot.pos).Nodup := by
  have hb2 := h.numBits_le
  unfold slotsOf markSlots
  rw [List.map_take]
  refine List.Nodup.sublist (List.take_sublist _ _) ?_
  -- positions of the slots of one vertex lie in a window of `8 * stride` bits
  have hwin : ∀ idx ∈ indices, ∀ j < (GetNumComponentsInType acc.type).toNat,
      ∀ k < key.numBits.toNat,
      Slot.pos (vertexOffset (bv.byteOffset + acc.byteOffset) (acc.ByteStride bv) idx + 4 * j, k)
        = 8 * (bv.byteOffset + acc.byteOffset) + 8 * (idx * (acc.ByteStride bv).toNat)
          + (32 * j + k) ∧
      32 * j + k < 8 * (acc.ByteStride bv).toNat := by
    intro idx hi j hj k hk
    obtain ⟨e, -, hs⟩ := capacity_offset key acc bv buf h idx (hx idx hi)
    unfold Slot.pos
    simp only [e]
    constructor <;> omega
  unfold allSlots
  rw [List.map_flatMap]
  rw [List.nodup_flatMap]
  constructor
  · intro idx hi
    rw [List.map_flatMap, List.nodup_flatMap]
    constructor
    · intro j _
      rw [List.map_map]
      refine List.Nodup.map_on ?_ (List.nodup_range _)
      intro k₁ _ k₂ _ hk
      simp only [Function.comp, Slot.pos] at hk
      omega
    · refine List.Nodup.pairwise_of_forall_ne (List.nodup_range _) ?_
      intro j₁ hj₁ j₂ hj₂ hne
      simp only [Function.onFun, List.disjoint_left, List.mem_map, List.mem_range]
      rintro p ⟨x₁, ⟨k₁, hk₁, rfl⟩, rfl⟩ ⟨x₂, ⟨k₂, hk₂, rfl⟩, hp⟩
      simp only [Slot.pos] at hp
      omega
  · refine List.Nodup.pairwise_of_forall_ne hn ?_
    intro i₁ hi₁ i₂ hi₂ hne
    simp only [Function.onFun, List.disjoint_left, List.mem_map, List.mem_flatMap, List.mem_range]
    rintro p ⟨x₁, ⟨j₁, hj₁, k₁, hk₁, rfl⟩, rfl⟩ ⟨x₂, ⟨j₂, hj₂, k₂, hk₂, rfl⟩, hp⟩
    obtain ⟨e₁, w₁⟩ := hwin i₁ hi₁ j₁ hj₁ k₁ hk₁
    obtain ⟨e₂, w₂⟩ := hwin i₂ hi₂ j₂ hj₂ k₂ hk₂
    rw [e₁, e₂] at hp
    rcases Nat.lt_or_gt_of_ne hne with hlt | hlt
    · have hmul : (i₁ + 1) * (acc.ByteStride bv).toNat ≤ i₂ * (acc.ByteStride bv).toNat :=
        Nat.mul_le_mul_right _ hlt
      rw [Nat.add_mul, Nat.one_mul] at hmul
      omega
    · have hmul : (i₂ + 1) * (acc.ByteStride bv).toNat ≤ i₁ * (acc.ByteStride bv).toNat :=
        Nat.mul_le_mul_right _ hlt
      rw [Nat.add_mul, Nat.one_mul] at hmul
      omega

/-! ### The round trip -/

theorem bitAt_replicate_zero (n q : Nat) : bitAt (List.replicate n (0 : BYTE)) q = false := by
  unfold bitAt
  cases h : (List.replicate n (0 : BYTE))[q / 8]? with
  | none => rfl
  | some b =>
    have hb : b = 0 := by
      obtain ⟨hlt, hget⟩ := List.getElem?_eq_some_iff.mp h
      rw [← hget]
      exact List.eq_of_mem_replicate (List.getElem_mem hlt)
    subst hb
    simp

theorem digestBit_eq_bitAt (l : List BYTE) (p : Nat) :
    digestBit l (8 * (p / 8) + (7 - p % 8)) = bitAt l p := by
  unfold digestBit
  congr 1
  omega

/-- Extraction from the marked buffer gives back the digest, bit for bit. -/
theorem extracted_embedded (hmac : List BYTE) (P : List Slot) (data : List BYTE)
    (hh : hmac.length = 64) (hP : P.length = 512) (hv : ∀ x ∈ P, x.valid data.length)
    (hnd : (P.map Slot.pos).Nodup) :
    extracted (embedded hmac P (zeroed P data)) P (List.replicate HMAC_BYTE_SIZE 0) = hmac := by
  have hlen := zeroed_length P data hv
  have hv' : ∀ x ∈ P, x.valid (zeroed P data).length := by rw [hlen]; exact hv
  have hlen2 := embedded_length hmac P _ hv'
  have hv'' : ∀ x ∈ P, x.valid (embedded hmac P (zeroed P data)).length := by
    rw [hlen2]; exact hv'
  have hcap : P.length ≤ 8 * (List.replicate HMAC_BYTE_SIZE (0 : BYTE)).length := by
    simp [HMAC_BYTE_SIZE, hP]
  have hlen3 := extracted_length _ P (List.replicate HMAC_BYTE_SIZE 0) hv'' hcap
  rw [List.length_replicate] at hlen3
  apply bitAt_ext _ _ (by rw [hlen3, hh]; rfl)
  intro p
  by_cases hp : p < 512
  · rw [← digestBit_eq_bitAt _ p, ← digestBit_eq_bitAt hmac p]
    have hm : 8 * (p / 8) + (7 - p % 8) < P.length := by omega
    rw [digestBit_extracted _ P _ hv'' hcap, List.getElem?_eq_getElem hm]
    simp only [Option.map_some', Option.getD_some]
    rw [bitAt_embedded hmac P _ hv' hnd _ hm, bitAt_zeroed P data hv]
    have hmem : (P[8 * (p / 8) + (7 - p % 8)]).pos ∈ P.map Slot.pos :=
      List.mem_map_of_mem _ (List.getElem_mem hm)
    unfold digestBit
    simp [hmem, bitAt_replicate_zero]
  · rw [bitAt_of_le _ p (by rw [hlen3]; simp only [HMAC_BYTE_SIZE]; omega),
      bitAt_of_le _ p (by omega)]

/-- The operations of a marking and verification run on a model of sufficient capacity, in
closed form. -/
theorem run_of_capacity (rng : Int → Nat → Nat) (model : Model) (key : SteganographyKey)
    (acc : Accessor) (bv : BufferView) (buf : Buffer)
    (ht : target model key = some (acc, bv, buf)) (hc : SufficientCapacity key acc bv buf) :
    ∃ indices, GenerateVertexIndices rng key.seed (maxIndexOf acc) = .ok indices ∧
      (slotsOf key acc bv indices).length = 512 ∧
      Accessible key acc bv indices buf.data.length ∧
      ((slotsOf key acc bv indices).map Slot.pos).Nodup ∧
      ZeroingBits rng model key
        = .ok (model.withData bv (zeroed (slotsOf key acc bv indices) buf.data)) ∧
      ∀ hmac : List BYTE, hmac.length = 64 →
        EmbedHMAC rng (model.withData bv (zeroed (slotsOf key acc bv indices) buf.data)) key hmac
          = .ok (model.withData bv (embedded hmac (slotsOf key acc bv indices)
              (zeroed (slotsOf key acc bv indices) buf.data))) ∧
        ExtractHMAC rng (model.withData bv (embedded hmac (slotsOf key acc bv indices)
              (zeroed (slotsOf key acc bv indices) buf.data))) key
            (List.replicate HMAC_BYTE_SIZE 0) = .ok hmac ∧
        ZeroingBits rng (model.withData bv (embedded hmac (slotsOf key acc bv indices)
              (zeroed (slotsOf key acc bv indices) buf.data))) key
          = .ok (model.withData bv (zeroed (slotsOf key acc bv indices) buf.data)) := by
  obtain ⟨indices, hi, hl, hn, hx⟩ := capacity_indices rng key acc bv buf hc
  have ha := capacity_accessible key acc bv buf hc indices hl hx
  have hnd := capacity_nodup key acc bv buf hc indices hn hx
  have hP : (slotsOf key acc bv indices).length = 512 := by
    unfold slotsOf markSlots
    rw [List.length_take]
    exact Nat.min_eq_left ha.1
  have hlen := zeroed_length _ buf.data ha.2
  have ha' : Accessible key acc bv indices
      (zeroed (slotsOf key acc bv indices) buf.data).length := by rw [hlen]; exact ha
  have ht' := target_withData model key acc bv buf
    (zeroed (slotsOf key acc bv indices) buf.data) ht
  refine ⟨indices, hi, hP, ha, hnd, ?_, ?_⟩
  · rw [zero_closed rng _ key acc bv _ indices ht hi, if_pos ha]
  · intro hmac hh
    have hlen2 := embedded_length hmac _ _ ha'.2
    have ha'' : Accessible key acc bv indices
        (embedded hmac (slotsOf key acc bv indices)
          (zeroed (slotsOf key acc bv indices) buf.data)).length := by rw [hlen2]; exact ha'
    have ht'' := target_withData model key acc bv buf
      (embedded hmac (slotsOf key acc bv indices)
        (zeroed (slotsOf key acc bv indices) buf.data)) ht
    refine ⟨?_, ?_, ?_⟩
    · rw [embed_closed rng _ key hmac acc bv _ indices hh ht' hi, if_pos ha', withData_withData]
    · rw [extract_closed rng _ key _ acc bv _ indices (by simp [HMAC_BYTE_SIZE]) ht'' hi,
        if_pos ha'', extracted_embedded hmac _ _ hh hP ha.2 hnd]
    · rw [zero_closed rng _ key acc bv _ indices ht'' hi, if_pos ha'', withData_withData,
        zeroed_embedded hmac _ _ ha.2]

/-- C2: round trip.  For every 64-byte digest, every key and every model whose target vertex
data has sufficient capacity for the key (bit density between 1 and 32), `ZeroingBits` and
then `EmbedHMAC` of the digest complete, and `ExtractHMAC` run on the result with a
zero-initialised output buffer completes and yields exactly the digest. -/
theorem C2_round_trip (rng : Int → Nat → Nat) (model : Model) (key : SteganographyKey)
    (hmac : List BYTE) (acc : Accessor) (bv : BufferView) (buf : Buffer)
    (ht : target model key = some (acc, bv, buf)) (hc : SufficientCapacity key acc bv buf)
    (hh : hmac.length = 64) :
    ∃ m₁ m₂, ZeroingBits rng model key = .ok m₁ ∧ EmbedHMAC rng m₁ key hmac = .ok m₂ ∧
      ExtractHMAC rng m₂ key (List.replicate HMAC_BYTE_SIZE 0) = .ok hmac := by
  obtain ⟨indices, -, -, -, -, hz, hrest⟩ := run_of_capacity rng model key acc bv buf ht hc
  obtain ⟨he, hx, -⟩ := hrest hmac hh
  exact ⟨_, _, hz, he, hx⟩

/-! ### Marking, verification, tampering -/

/-- C1: mark-then-verify returns Match.  With `save` a function of the model and
`load (save m) = m`, a 64-byte `CalculateHMAC`, and a model whose target vertex data has
sufficient capacity for the key, the marking flow completes, and the verification flow run on
the marked file with the same key completes and finds the recomputed digest equal to the
extracted one. -/
theorem C1_mark_then_verify {File : Type} (E : Collaborators File) (rng : Int → Nat → Nat)
    (modelFile : File) (key : SteganographyKey) (acc : Accessor) (bv : BufferView)
    (buf : Buffer) (hload : ∀ m, E.load (E.save m) = m)
    (hdigest : ∀ f k, (E.CalculateHMAC f k).length = 64)
    (ht : target (E.load modelFile) key = some (acc, bv, buf))
    (hc : SufficientCapacity key acc bv buf) :
    ∃ marked, marking E rng modelFile key = .ok marked ∧
      verification E rng marked key = .ok true := by
  obtain ⟨indices, -, -, -, -, hz, hrest⟩ :=
    run_of_capacity rng (E.load modelFile) key acc bv buf ht hc
  generalize zeroed (slotsOf key acc bv indices) buf.data = Z at hz hrest
  obtain ⟨he, hx, hz'⟩ := hrest _ (hdigest (E.save ((E.load modelFile).withData bv Z)) key.keyHMAC)
  refine ⟨E.save ((E.load modelFile).withData bv (embedded
    (E.CalculateHMAC (E.save ((E.load modelFile).withData bv Z)) key.keyHMAC)
    (slotsOf key acc bv indices) Z)), ?_, ?_⟩
  · simp only [marking, hz, hload, he]
  · simp only [verification, hload, hx, hz']
    simp

/-! ### Tampering with one bit of the mark -/

@[simp] theorem length_flipBit (data : List BYTE) (p : Nat) :
    (flipBit data p).length = data.length := by
  unfold flipBit
  split <;> simp

theorem bitAt_flipBit (data : List BYTE) (p q : Nat) (hp : p < 8 * data.length) :
    bitAt (flipBit data p) q = (bitAt data q ^^ decide (q = p)) := by
  have hlt : p / 8 < data.length := by omega
  unfold flipBit
  rw [List.getElem?_eq_getElem hlt]
  simp only
  unfold bitAt
  rw [List.getElem?_set]
  by_cases hq : p / 8 = q / 8
  · rw [if_pos hq, if_pos hlt]
    have hget : data[q / 8]? = some (data[p / 8]) := by
      rw [← hq, List.getElem?_eq_getElem hlt]
    rw [hget]
    have h256 : (256 : Nat) = 2 ^ 8 := by norm_num
    simp only [h256, Nat.testBit_mod_two_pow, Nat.testBit_xor, Nat.one_shiftLeft,
      Nat.testBit_two_pow]
    have hlt8 : q % 8 < 8 := by omega
    by_cases hb : p % 8 = q % 8
    · have : q = p := by omega
      simp [hlt8, hb, this]
    · have : ¬ q = p := by omega
      simp [hlt8, hb, this]
  · rw [if_neg hq]
    have : ¬ q = p := fun e => hq (by rw [e])
    simp [this]

theorem pos_lt_of_valid (n : Nat) (slot : Slot) (h : slot.valid n) : slot.pos < 8 * n := by
  obtain ⟨h1, h2⟩ := h
  unfold Slot.pos
  omega

/-- Zeroing forgets a flipped mark bit. -/
theorem zeroed_flipBit (P : List Slot) (data : List BYTE) (slot : Slot)
    (hv : ∀ x ∈ P, x.valid data.length) (hs : slot ∈ P) :
    zeroed P (flipBit data slot.pos) = zeroed P data := by
  have hv' : ∀ x ∈ P, x.valid (flipBit data slot.pos).length := by
    rw [length_flipBit]; exact hv
  apply bitAt_ext _ _ (by rw [zeroed_length P _ hv', zeroed_length P _ hv, length_flipBit])
  intro q
  rw [bitAt_zeroed P _ hv', bitAt_zeroed P data hv,
    bitAt_flipBit _ _ _ (pos_lt_of_valid _ _ (hv slot hs))]
  by_cases hq : q ∈ P.map Slot.pos
  · simp [hq]
  · have : ¬ q = slot.pos := fun e => hq (e ▸ List.mem_map_of_mem _ hs)
    simp [this]

/-- Extraction after one mark bit was flipped does not give back the digest. -/
theorem extracted_flipBit_ne (hmac : List BYTE) (P : List Slot) (data : List BYTE)
    (slot : Slot) (hP : P.length = 512) (hv : ∀ x ∈ P, x.valid data.length)
    (hnd : (P.map Slot.pos).Nodup) (hs : slot ∈ P) :
    extracted (flipBit (embedded hmac P (zeroed P data)) slot.pos) P
      (List.replicate HMAC_BYTE_SIZE 0) ≠ hmac := by
  have hlen := zeroed_length P data hv
  have hv' : ∀ x ∈ P, x.valid (zeroed P data).length := by rw [hlen]; exact hv
  have hlen2 := embedded_length hmac P _ hv'
  have hv'' : ∀ x ∈ P, x.valid (embedded hmac P (zeroed P data)).length := by
    rw [hlen2]; exact hv'
  have hv3 : ∀ x ∈ P, x.valid (flipBit (embedded hmac P (zeroed P data)) slot.pos).length := by
    rw [length_flipBit]; exact hv''
  have hcap : P.length ≤ 8 * (List.replicate HMAC_BYTE_SIZE (0 : BYTE)).length := by
    simp [HMAC_BYTE_SIZE, hP]
  obtain ⟨n, hn, rfl⟩ := List.getElem_of_mem hs
  intro heq
  have hbit := digestBit_extracted (flipBit (embedded hmac P (zeroed P data)) (P[n]).pos) P
    (List.replicate HMAC_BYTE_SIZE 0) hv3 hcap n
  rw [heq, List.getElem?_eq_getElem hn] at hbit
  simp only [Option.map_some', Option.getD_some] at hbit
  rw [bitAt_flipBit _ _ _ (pos_lt_of_valid _ _ (hv'' _ (List.getElem_mem hn))),
    bitAt_embedded hmac P _ hv' hnd n hn, bitAt_zeroed P data hv] at hbit
  have hmem : (P[n]).pos ∈ P.map Slot.pos := List.mem_map_of_mem _ (List.getElem_mem hn)
  unfold digestBit at hbit
  simp [hmem, bitAt_replicate_zero] at hbit

/-- C6: tamper sensitivity.  Under the assumptions of mark-then-verify, the marked model
carries 512 mark slots, and inverting the bit of any one of them makes the verification flow
complete with Mismatch: the extracted digest differs from the digest recomputed over the
re-zeroed file. -/
theorem C6_tamper_sensitivity {File : Type} (E : Collaborators File) (rng : Int → Nat → Nat)
    (modelFile : File) (key : SteganographyKey) (acc : Accessor) (bv : BufferView)
    (buf : Buffer) (hload : ∀ m, E.load (E.save m) = m)
    (hdigest : ∀ f k, (E.CalculateHMAC f k).length = 64)
    (ht : target (E.load modelFile) key = some (acc, bv, buf))
    (hc : SufficientCapacity key acc bv buf) :
    ∃ marked, marking E rng modelFile key = .ok marked ∧
      (markSlotsOf rng (E.load marked) key).length = 512 ∧
      ∀ slot ∈ markSlotsOf rng (E.load marked) key,
        verification E rng (E.save (tamper (E.load marked) key slot)) key = .ok false := by
  obtain ⟨indices, hi, hP, ha, hnd, hz, hrest⟩ :=
    run_of_capacity rng (E.load modelFile) key acc bv buf ht hc
  have hlenZ := zeroed_length _ buf.data ha.2
  have hembv := fun hmac => embedded_length hmac (slotsOf key acc bv indices)
    (zeroed (slotsOf key acc bv indices) buf.data) (by rw [hlenZ]; exact ha.2)
  have hne := fun hmac slot => extracted_flipBit_ne hmac (slotsOf key acc bv indices) buf.data
    slot hP ha.2 hnd
  have hzf := fun hmac slot hs => (zeroed_flipBit (slotsOf key acc bv indices)
    (embedded hmac (slotsOf key acc bv indices) (zeroed (slotsOf key acc bv indices) buf.data))
    slot (by rw [hembv hmac, hlenZ]; exact ha.2) hs).trans
    (zeroed_embedded hmac (slotsOf key acc bv indices) buf.data ha.2)
  generalize zeroed (slotsOf key acc bv indices) buf.data = Z at hz hrest hembv hne hzf hlenZ
  have hd := hdigest (E.save ((E.load modelFile).withData bv Z)) key.keyHMAC
  obtain ⟨he, -, -⟩ := hrest _ hd
  have hne' := hne (E.CalculateHMAC (E.save ((E.load modelFile).withData bv Z)) key.keyHMAC)
  have hzf' := hzf (E.CalculateHMAC (E.save ((E.load modelFile).withData bv Z)) key.keyHMAC)
  have hlenE := hembv (E.CalculateHMAC (E.save ((E.load modelFile).withData bv Z)) key.keyHMAC)
  generalize hmacdef :
    E.CalculateHMAC (E.save ((E.load modelFile).withData bv Z)) key.keyHMAC = hmac
    at he hne' hzf' hlenE hd
  have htE := target_withData (E.load modelFile) key acc bv buf
    (embedded hmac (slotsOf key acc bv indices) Z) ht
  have hslots : markSlotsOf rng ((E.load modelFile).withData bv
      (embedded hmac (slotsOf key acc bv indices) Z)) key = slotsOf key acc bv indices := by
    simp only [markSlotsOf, htE, hi]
  refine ⟨E.save ((E.load modelFile).withData bv
    (embedded hmac (slotsOf key acc bv indices) Z)), ?_, ?_, ?_⟩
  · simp only [marking, hz, hload, hmacdef, he]
  · rw [hload, hslots, hP]
  · intro slot hs
    rw [hload, hslots] at hs
    have htam : tamper ((E.load modelFile).withData bv
        (embedded hmac (slotsOf key acc bv indices) Z)) key slot
        = (E.load modelFile).withData bv
            (flipBit (embedded hmac (slotsOf key acc bv indices) Z) slot.pos) := by
      simp only [tamper, htE, withData_withData]
    have htF := target_withData (E.load modelFile) key acc bv buf
      (flipBit (embedded hmac (slotsOf key acc bv indices) Z) slot.pos) ht
    have haF : Accessible key acc bv indices
        (flipBit (embedded hmac (slotsOf key acc bv indices) Z) slot.pos).length := by
      rw [length_flipBit, hlenE, hlenZ]; exact ha
    have hxF := extract_closed rng _ key (List.replicate HMAC_BYTE_SIZE 0) acc bv _ indices
      (by simp [HMAC_BYTE_SIZE]) htF hi
    have hzF := zero_closed rng _ key acc bv _ indices htF hi
    rw [if_pos haF] at hxF hzF
    rw [withData_withData, hzf' slot hs] at hzF
    simp only [verification, hload, htam, hxF, hzF, hmacdef, Except.ok.injEq,
      decide_eq_false_iff_not]
    exact fun e => hne' slot hs e.symm

/-! ### The sample model -/

theorem sampleBuffer_length : sampleBuffer.data.length = 12036 := List.length_replicate 12036 0

theorem sample_target :
    target sampleModel sampleKey = some (sampleAccessor, sampleView, sampleBuffer) := rfl

theorem sample_capacity : SufficientCapacity sampleKey sampleAccessor sampleView sampleBuffer :=
  ⟨by decide, by decide, by decide, by decide, by decide, by decide,
    by rw [sampleBuffer_length]; decide, by rw [sampleBuffer_length]; decide⟩

theorem sample_digest_length (f : Model) (k : String) :
    (sampleCollaborators.CalculateHMAC f k).length = 64 := by
  simp [sampleCollaborators]

/-- Mark-then-verify on the sample model: 1000 `POSITION` vertices, bit density 1, seed 7. -/
theorem C1_mark_then_verify_witness :
    ∃ marked, marking sampleCollaborators sampleRng sampleModel sampleKey = .ok marked ∧
      verification sampleCollaborators sampleRng marked sampleKey = .ok true :=
  C1_mark_then_verify sampleCollaborators sampleRng sampleModel sampleKey sampleAccessor
    sampleView sampleBuffer (fun _ => rfl) sample_digest_length sample_target sample_capacity

/-- The round trip on the sample model, key and digest. -/
theorem C2_round_trip_witness :
    ∃ m₁ m₂, ZeroingBits sampleRng sampleModel sampleKey = .ok m₁ ∧
      EmbedHMAC sampleRng m₁ sampleKey sampleDigest = .ok m₂ ∧
      ExtractHMAC sampleRng m₂ sampleKey (List.replicate HMAC_BYTE_SIZE 0) = .ok sampleDigest :=
  C2_round_trip sampleRng sampleModel sampleKey sampleDigest sampleAccessor sampleView
    sampleBuffer sample_target sample_capacity (List.length_replicate 64 165)

/-- Zeroing after embedding on the sample model, key and digest. -/
theorem C3_zero_erases_mark_witness :
    ∃ m₁ m₂, ZeroingBits sampleRng sampleModel sampleKey = .ok m₁ ∧
      EmbedHMAC sampleRng m₁ sampleKey sampleDigest = .ok m₂ ∧
      ZeroingBits sampleRng m₂ sampleKey = .ok m₁ := by
  obtain ⟨indices, -, -, -, -, hz, -⟩ := run_of_capacity sampleRng sampleModel sampleKey
    sampleAccessor sampleView sampleBuffer sample_target sample_capacity
  obtain ⟨m₂, he, hz'⟩ := C3_zero_erases_mark sampleRng sampleModel _ sampleKey sampleDigest
    (List.length_replicate 64 165) hz
  exact ⟨_, m₂, hz, he, hz'⟩

/-- Zeroing twice on the sample model and key. -/
theorem C4_zero_idempotent_witness :
    ∃ m₁, ZeroingBits sampleRng sampleModel sampleKey = .ok m₁ ∧
      ZeroingBits sampleRng m₁ sampleKey = .ok m₁ := by
  obtain ⟨indices, -, -, -, -, hz, -⟩ := run_of_capacity sampleRng sampleModel sampleKey
    sampleAccessor sampleView sampleBuffer sample_target sample_capacity
  exact ⟨_, hz, C4_zero_idempotent sampleRng sampleModel _ sampleKey hz⟩

/-- Tampering with the marked sample model. -/
theorem C6_tamper_sensitivity_witness :
    ∃ marked, marking sampleCollaborators sampleRng sampleModel sampleKey = .ok marked ∧
      (markSlotsOf sampleRng (sampleCollaborators.load marked) sampleKey).length = 512 ∧
      ∀ slot ∈ markSlotsOf sampleRng (sampleCollaborators.load marked) sampleKey,
        verification sampleCollaborators sampleRng
          (sampleCollaborators.save (tamper (sampleCollaborators.load marked) sampleKey slot))
          sampleKey = .ok false :=
  C6_tamper_sensitivity sampleCollaborators sampleRng sampleModel sampleKey sampleAccessor
    sampleView sampleBuffer (fun _ => rfl) sample_digest_length sample_target sample_capacity

/-! ### The capacity guard -/

theorem findMaxLoop_le (accessors : List Accessor) (meshes : List Mesh) (i bestId bestN id n : Int)
    (h : findMaxLoop accessors meshes i (bestId, bestN) = .ok (id, n)) : bestN ≤ n := by
  induction meshes generalizing i bestId bestN with
  | nil =>
    simp only [findMaxLoop, Except.ok.injEq, Prod.mk.injEq] at h
    omega
  | cons m ms ih =>
    unfold findMaxLoop at h
    cases hs : sumElements accessors m.primitives 0 with
    | error e => simp [hs] at h
    | ok numElements =>
      simp only [hs] at h
      by_cases hgt : numElements > bestN
      · rw [if_pos hgt] at h
        have := ih _ _ _ h
        omega
      · rw [if_neg hgt] at h
        exact ih _ _ _ h

theorem numOfVerts_eq (key : SteganographyKey) (h1 : 1 ≤ key.numBits) (h2 : key.numBits ≤ 99) :
    numOfVerts key = .ok (512 / (3 * key.numBits) + 1).toNat := by
  obtain ⟨b, hb⟩ : ∃ b : Nat, key.numBits = (b : Int) := ⟨key.numBits.toNat, by omega⟩
  have hb1 : 1 ≤ b := by omega
  have hb2 : b ≤ 99 := by omega
  have hdiv : toU32 (key.numBits * 3) = b * 3 := by
    unfold toU32
    rw [hb]
    omega
  unfold numOfVerts
  rw [hdiv, if_neg (by omega)]
  have hq : 512 / (b * 3) ≤ 512 := Nat.div_le_self _ _
  have e : (512 / (3 * key.numBits) + 1).toNat = 512 / (b * 3) + 1 := by
    rw [hb]
    have : (512 : Int) / (3 * (b : Int)) = ((512 / (b * 3) : Nat) : Int) := by
      rw [mul_comm]
      norm_cast
    rw [this]
    generalize 512 / (b * 3) = x
    omega
  rw [e]
  simp only [MAX_VERTICES_FOR_HMAC]
  rw [Nat.mod_eq_of_lt (by omega)]

/-- C9 (amended): the capacity guard.  With `numOfVerts = 512 / (3 * numBits) + 1`, whenever
the element count of the selected mesh is below `numOfVerts`, in particular when it is exactly
`numOfVerts - 1`, each of `ZeroingBits`, `EmbedHMAC` and `ExtractHMAC` returns normally at
once: the model and the digest buffer are left unchanged and nothing is reported. -/
theorem C9_capacity_guard (rng : Int → Nat → Nat) (model : Model) (key : SteganographyKey)
    (hmac : List BYTE) (maxNumElMeshId maxNumElements : Int)
    (h1 : 1 ≤ key.numBits) (h2 : key.numBits ≤ 99)
    (hf : FindMaxVerticesMeshId model = .ok (maxNumElMeshId, maxNumElements))
    (hlt : maxNumElements < 512 / (3 * key.numBits) + 1) :
    ZeroingBits rng model key = .ok model ∧ EmbedHMAC rng model key hmac = .ok model ∧
      ExtractHMAC rng model key hmac = .ok hmac := by
  have h0 : 0 ≤ maxNumElements := findMaxLoop_le _ _ _ _ _ _ _ hf
  have hnv := numOfVerts_eq key h1 h2
  have hq : (0 : Int) ≤ 512 / (3 * key.numBits) := Int.ediv_nonneg (by norm_num) (by omega)
  have hq2 : (512 : Int) / (3 * key.numBits) ≤ 512 :=
    Int.ediv_le_self _ (by norm_num)
  have hguard : toU32 maxNumElements < (512 / (3 * key.numBits) + 1).toNat := by
    unfold toU32
    omega
  refine ⟨?_, ?_, ?_⟩
  · simp only [ZeroingBits, hf, hnv, if_pos hguard]
  · simp only [EmbedHMAC, hf, hnv, if_pos hguard]
  · simp only [ExtractHMAC, hf, hnv, if_pos hguard]

/-- The capacity guard at a mesh of 14 vertices (42 elements) and bit density 4. -/
theorem C9_capacity_guard_witness :
    ZeroingBits sampleRng (meshModel 14) denseKey = .ok (meshModel 14) ∧
      EmbedHMAC sampleRng (meshModel 14) denseKey sampleDigest = .ok (meshModel 14) ∧
      ExtractHMAC sampleRng (meshModel 14) denseKey sampleDigest = .ok sampleDigest :=
  C9_capacity_guard sampleRng (meshModel 14) denseKey sampleDigest 0 42 (by decide) (by decide)
    (by decide) (by decide)

set_option maxRecDepth 100000 in
/-- The capacity boundary as the spec states it fails on the code.  With bit density 4 the
guard computes `numOfVerts = 43`.  A mesh of 14 `VEC3` vertices has 42 elements, one below the
guard's threshold: the three operations return normally and change nothing, no error is
yielded.  A mesh of exactly 43 vertices passes the guard, and the operations then run into
undefined behaviour: `GenerateVertexIndices` copies 512 entries out of a vector of 42. -/
theorem C9_counterexample :
    (FindMaxVerticesMeshId (meshModel 14) = .ok (0, 42) ∧ numOfVerts denseKey = .ok 43 ∧
      ZeroingBits sampleRng (meshModel 14) denseKey = .ok (meshModel 14) ∧
      EmbedHMAC sampleRng (meshModel 14) denseKey sampleDigest = .ok (meshModel 14) ∧
      ExtractHMAC sampleRng (meshModel 14) denseKey sampleDigest = .ok sampleDigest) ∧
    (FindMaxVerticesMeshId (meshModel 43) = .ok (0, 129) ∧
      ZeroingBits sampleRng (meshModel 43) denseKey = .error .undefinedBehaviour ∧
      EmbedHMAC sampleRng (meshModel 43) denseKey sampleDigest = .error .undefinedBehaviour ∧
      ExtractHMAC sampleRng (meshModel 43) denseKey sampleDigest
        = .error .undefinedBehaviour) :=
  ⟨⟨by decide, by decide, rfl, rfl, rfl⟩, ⟨by decide, by decide, by decide, by decide⟩⟩

/-! ## Theorems: the marked file name -/

theorem find_last_of_none (s : List Char) (c : Char) (h : c ∉ s) : find_last_of s c = none := by
  induction s with
  | nil => rfl
  | cons x xs ih =>
    simp only [List.mem_cons, not_or] at h
    simp only [find_last_of, ih h.2]
    rw [if_neg (fun e => h.1 e.symm)]

theorem find_last_of_append (s t : List Char) (c : Char) (h : c ∉ t) :
    find_last_of (s ++ c :: t) c = some s.length := by
  induction s with
  | nil => simp [find_last_of, find_last_of_none t c h]
  | cons x xs ih => simp [find_last_of, ih]

/-- C13: for every filename, `GetMarkedFilename` returns the filename followed by `_marked.glb`
when it contains no `.`, and otherwise the filename with `_marked` inserted immediately before
its last `.`. -/
theorem C13_marked_filename (filename : String) :
    ('.' ∉ filename.data → GetMarkedFilename filename = filename ++ "_marked.glb") ∧
    (∀ stem ext : List Char, filename.data = stem ++ '.' :: ext → '.' ∉ ext →
      GetMarkedFilename filename = String.mk (stem ++ "_marked".data ++ '.' :: ext)) := by
  constructor
  · intro h
    simp only [GetMarkedFilename, find_last_of_none _ _ h]
  · intro stem ext hf he
    simp only [GetMarkedFilename, hf, find_last_of_append _ _ _ he]
    simp [String.ext_iff]

/-- The marked names of `model.glb`, `scene.v2.glb` and `model`. -/
theorem C13_marked_filename_witness :
    GetMarkedFilename "model.glb" = "model_marked.glb" ∧
    GetMarkedFilename "scene.v2.glb" = "scene.v2_marked.glb" ∧
    GetMarkedFilename "model" = "model_marked.glb" :=
  ⟨(C13_marked_filename "model.glb").2 "model".data "glb".data rfl (by decide),
   (C13_marked_filename "scene.v2.glb").2 "scene.v2".data "glb".data rfl (by decide),
   (C13_marked_filename "model").1 (by decide)⟩

/-! ## Theorems: inputs the code does not reject -/

/-- With a bound in `0..511` the vector has fewer than 512 elements and `copy_n` reads past its
end. -/
theorem GenerateVertexIndices_short (rng : Int → Nat → Nat) (seed maxIndex : Int)
    (h0 : 0 ≤ maxIndex) (h : maxIndex < 512) :
    GenerateVertexIndices rng seed maxIndex = .error .undefinedBehaviour := by
  have hlen : (shuffle rng seed (List.range maxIndex.toNat)).length = maxIndex.toNat := by
    rw [(shuffle_perm _ _ _).length_eq, List.length_range]
  unfold GenerateVertexIndices
  rw [if_neg (by omega)]
  simp only [hlen]
  rw [if_pos (by omega)]

/-- With a negative bound the constructor of the vector throws `std::length_error`. -/
theorem GenerateVertexIndices_neg (rng : Int → Nat → Nat) (seed maxIndex : Int)
    (h : maxIndex < 0) :
    GenerateVertexIndices rng seed maxIndex = .error .length_error := by
  unfold GenerateVertexIndices
  rw [if_pos h]

/-- C11: on the sample model, whose primitives carry `POSITION` only, with a key whose target
attribute is `NORMAL`, `ZeroingBits` and `ExtractHMAC` end the process by `exit(1)`, while
`EmbedHMAC` passes the primitive over and returns normally with the model unchanged: it has no
`else` branch. -/
theorem C11_missing_attribute :
    ZeroingBits sampleRng sampleModel normalKey = .error .exit1 ∧
    ExtractHMAC sampleRng sampleModel normalKey (List.replicate HMAC_BYTE_SIZE 0)
      = .error .exit1 ∧
    EmbedHMAC sampleRng sampleModel normalKey sampleDigest = .ok sampleModel :=
  ⟨rfl, rfl, rfl⟩

/-- C12: at seed 7 and bound 511, one below 512, `GenerateVertexIndices` reports no error: it
copies 512 elements out of a vector of 511, which is undefined behaviour. -/
theorem C12_short_bound :
    GenerateVertexIndices sampleRng 7 511 = .error .undefinedBehaviour :=
  GenerateVertexIndices_short sampleRng 7 511 (by decide) (by decide)

/-- C17: the constructor accepts the key `001*POSITION*mysecret` without reporting an error and
leaves bit density 0; with that key the guard of `ZeroingBits`, `EmbedHMAC` and `ExtractHMAC`
divides by zero. -/
theorem C17_zero_density :
    SteganographyKey.parse "001*POSITION*mysecret" = .constructed zeroKey ∧
    numOfVerts zeroKey = .error .undefinedBehaviour ∧
    ZeroingBits sampleRng sampleModel zeroKey = .error .undefinedBehaviour ∧
    EmbedHMAC sampleRng sampleModel zeroKey sampleDigest = .error .undefinedBehaviour ∧
    ExtractHMAC sampleRng sampleModel zeroKey (List.replicate HMAC_BYTE_SIZE 0)
      = .error .undefinedBehaviour :=
  ⟨by decide, rfl, rfl, rfl, rfl⟩

/-! ## Theorems: the capacity formula -/

/-- The guard value for every density whose triple is an `int`. -/
theorem numOfVerts_of_pos (key : SteganographyKey) (b : Nat) (hb : key.numBits = (b : Int))
    (h1 : 1 ≤ b) (h2 : b * 3 ≤ 2147483647) :
    numOfVerts key = .ok (512 / (b * 3) + 1) := by
  have hdiv : toU32 (key.numBits * 3) = b * 3 := by
    unfold toU32
    rw [hb]
    have h3 : ((b : Int) * 3) % 4294967296 = ((b * 3 : Nat) : Int) := by
      rw [Int.emod_eq_of_lt (by positivity) (by omega)]
      push_cast
      rfl
    rw [h3, Int.toNat_ofNat]
  have hq : 512 / (b * 3) ≤ 512 := Nat.div_le_self _ _
  have hne : ¬ (b * 3 = 0) := by omega
  have hm : (512 / (b * 3) + 1) % 4294967296 = 512 / (b * 3) + 1 := by
    generalize 512 / (b * 3) = x at hq ⊢
    omega
  simp only [numOfVerts, hdiv, if_neg hne, MAX_VERTICES_FOR_HMAC, hm]

/-- Truncating division of 512 by `3 * b`, plus one, is the ceiling of `512 / b / 3`: 512 is no
multiple of 3. -/
theorem div_add_one_eq_ceil (b : Nat) (h1 : 1 ≤ b) :
    ((512 / (b * 3) + 1 : Nat) : Int) = ⌈(512 : ℚ) / (b : ℚ) / 3⌉ := by
  symm
  rw [Int.ceil_eq_iff]
  have hb : (0 : ℚ) < (b : ℚ) := by exact_mod_cast h1
  have hpos : (0 : ℚ) < (b : ℚ) * 3 := by positivity
  have hm : 512 % (b * 3) ≠ 0 := by
    intro h0
    have hd : b * 3 ∣ 512 := Nat.dvd_of_mod_eq_zero h0
    have h3 : 3 ∣ 512 := Dvd.dvd.trans (Dvd.intro_left b rfl) hd
    omega
  have hdm := Nat.div_add_mod 512 (b * 3)
  have hlt : 512 % (b * 3) < b * 3 := Nat.mod_lt _ (by omega)
  generalize 512 / (b * 3) = q at *
  generalize 512 % (b * 3) = r at *
  have e : (512 : ℚ) / (b : ℚ) / 3 = 512 / ((b : ℚ) * 3) := by
    rw [div_div]
  rw [e]
  have hq : ((b * 3 * q + r : Nat) : ℚ) = 512 := by exact_mod_cast hdm
  have hr0 : (0 : ℚ) < (r : ℚ) := by
    have : 0 < r := by omega
    exact_mod_cast this
  have hrb : (r : ℚ) < (b : ℚ) * 3 := by exact_mod_cast hlt
  push_cast at hq ⊢
  constructor
  · rw [lt_div_iff₀ hpos]
    linarith
  · rw [div_le_iff₀ hpos]
    nlinarith

/-- C16: for every bit density `b ≥ 1` (with `3 * b` an `int`), the guard value
`numOfVerts = 512 / (b * 3) + 1` computed by truncating division equals
`ceil(512 / b / 3)` computed over the rationals, 512 being `MAX_VERTICES_FOR_HMAC`. -/
theorem C16_capacity_formula (key : SteganographyKey) (h1 : 1 ≤ key.numBits)
    (h2 : key.numBits * 3 ≤ 2147483647) :
    ∃ n : Nat, numOfVerts key = .ok n ∧
      n = MAX_VERTICES_FOR_HMAC / (key.numBits.toNat * 3) + 1 ∧
      (n : Int) = ⌈(MAX_VERTICES_FOR_HMAC : ℚ) / (key.numBits : ℚ) / 3⌉ := by
  obtain ⟨b, hb⟩ : ∃ b : Nat, key.numBits = (b : Int) := ⟨key.numBits.toNat, by omega⟩
  have hb1 : 1 ≤ b := by omega
  refine ⟨_, numOfVerts_of_pos key b hb hb1 (by omega), ?_, ?_⟩
  · rw [hb]; rfl
  · rw [hb]
    have := div_add_one_eq_ceil b hb1
    simpa [MAX_VERTICES_FOR_HMAC] using this

/-- The guard value at bit density 1 is 171. -/
theorem C16_capacity_formula_witness :
    ∃ n : Nat, numOfVerts sampleKey = .ok n ∧
      n = MAX_VERTICES_FOR_HMAC / (sampleKey.numBits.toNat * 3) + 1 ∧
      (n : Int) = ⌈(MAX_VERTICES_FOR_HMAC : ℚ) / (sampleKey.numBits : ℚ) / 3⌉ :=
  C16_capacity_formula sampleKey (by decide) (by decide)

/-! ## Theorems: the layout of the mark -/

/-- Entry `i * m + r` of a concatenation of blocks of length `m` is entry `r` of block `i`. -/
theorem flatMap_getElem? {α β : Type} (f : α → List β) (m : Nat) (hf : ∀ x, (f x).length = m)
    (l : List α) (i r : Nat) (hr : r < m) :
    (l.flatMap f)[i * m + r]? = (l[i]?).bind (fun x => (f x)[r]?) := by
  induction l generalizing i with
  | nil => simp
  | cons x xs ih =>
    rw [List.flatMap_cons]
    cases i with
    | zero =>
      rw [Nat.zero_mul, Nat.zero_add, List.getElem?_append_left (by rw [hf]; exact hr)]
      simp
    | succ i =>
      have e : (i + 1) * m + r = i * m + r + (f x).length := by rw [hf]; ring
      rw [e, List.getElem?_append_right (by omega), Nat.add_sub_cancel, ih]
      simp

/-- The slot numbered `(i * c + j) * b + k` is bit `k` of component `j` of vertex
`indices[i]`. -/
theorem allSlots_getElem? (base : Nat) (stride numOfComps numBits : Int) (indices : List Nat)
    (i j k : Nat) (hj : j < numOfComps.toNat) (hk : k < numBits.toNat) :
    (allSlots base stride numOfComps numBits indices)[(i * numOfComps.toNat + j)
        * numBits.toNat + k]?
      = (indices[i]?).map (fun idx => (vertexOffset base stride idx + 4 * j, k)) := by
  have e : (i * numOfComps.toNat + j) * numBits.toNat + k
      = i * (numOfComps.toNat * numBits.toNat) + (j * numBits.toNat + k) := by ring
  have hlt : j * numBits.toNat + k < numOfComps.toNat * numBits.toNat := by
    calc j * numBits.toNat + k < j * numBits.toNat + numBits.toNat := by omega
      _ = (j + 1) * numBits.toNat := by ring
      _ ≤ numOfComps.toNat * numBits.toNat := Nat.mul_le_mul_right _ hj
  unfold allSlots
  rw [e, flatMap_getElem? _ (numOfComps.toNat * numBits.toNat) _ _ _ _ hlt]
  · cases indices[i]? with
    | none => rfl
    | some idx =>
      simp only [Option.some_bind, Option.map_some']
      rw [flatMap_getElem? _ numBits.toNat _ _ _ _ hk]
      · simp [List.getElem?_range hj, List.getElem?_range hk]
      · intro x; simp
  · intro x
    have h := length_allSlots base stride numOfComps numBits [x]
    simpa [allSlots] using h

/-- The same for the slots of the mark, which are the first 512. -/
theorem markSlots_getElem? (base : Nat) (stride numOfComps numBits : Int) (indices : List Nat)
    (i j k : Nat) (hj : j < numOfComps.toNat) (hk : k < numBits.toNat)
    (hn : (i * numOfComps.toNat + j) * numBits.toNat + k < 512) :
    (markSlots base stride numOfComps numBits indices)[(i * numOfComps.toNat + j)
        * numBits.toNat + k]?
      = (indices[i]?).map (fun idx => (vertexOffset base stride idx + 4 * j, k)) := by
  unfold markSlots
  rw [List.getElem?_take_of_lt hn]
  exact allSlots_getElem? base stride numOfComps numBits indices i j k hj hk

/-- An accessible loop nest has exactly 512 slots of the mark. -/
theorem length_slotsOf (key : SteganographyKey) (acc : Accessor) (bv : BufferView)
    (indices : List Nat) (n : Nat) (h : Accessible key acc bv indices n) :
    (slotsOf key acc bv indices).length = 512 := by
  unfold slotsOf markSlots
  rw [List.length_take]
  exact Nat.min_eq_left h.1

/-- C15: when `ZeroingBits` reaches the vertex data and completes, the model it leaves differs
from the input only in the target buffer, which keeps its length; the slots concerned are the
first 512 of the loop nest in permutation order, slot `(i * c + j) * b + k` being bit `k` of
component `j` of vertex `indices[i]`; the bit of each of these slots is cleared and every other
bit of the buffer is unchanged. -/
theorem C15_zero_frame (rng : Int → Nat → Nat) (model m₁ : Model) (key : SteganographyKey)
    (acc : Accessor) (bv : BufferView) (buf : Buffer)
    (hz : ZeroingBits rng model key = .ok m₁) (ht : target model key = some (acc, bv, buf)) :
    ∃ indices data₁,
      GenerateVertexIndices rng key.seed (maxIndexOf acc) = .ok indices ∧
      m₁ = model.withData bv data₁ ∧
      m₁.accessors = model.accessors ∧ m₁.meshes = model.meshes ∧
      m₁.bufferViews = model.bufferViews ∧
      (∀ i : Nat, i ≠ bv.buffer.toNat → m₁.buffers[i]? = model.buffers[i]?) ∧
      data₁.length = buf.data.length ∧
      (slotsOf key acc bv indices).length = 512 ∧
      (∀ i j k : Nat, j < (GetNumComponentsInType acc.type).toNat → k < key.numBits.toNat →
        (i * (GetNumComponentsInType acc.type).toNat + j) * key.numBits.toNat + k < 512 →
        (slotsOf key acc bv indices)[(i * (GetNumComponentsInType acc.type).toNat + j)
            * key.numBits.toNat + k]?
          = (indices[i]?).map (fun idx =>
              (vertexOffset (bv.byteOffset + acc.byteOffset) (acc.ByteStride bv) idx + 4 * j,
                k))) ∧
      (∀ slot ∈ slotsOf key acc bv indices, bitAt data₁ slot.pos = false) ∧
      (∀ q, q ∉ (slotsOf key acc bv indices).map Slot.pos → bitAt data₁ q = bitAt buf.data q) := by
  rcases zero_ok_cases rng model m₁ key hz with ⟨hn, -⟩ | ⟨acc', bv', buf', indices, ht', hi, ha, hm⟩
  · rw [ht] at hn
    exact absurd hn (by simp)
  · rw [ht] at ht'
    obtain ⟨rfl, rfl, rfl⟩ : acc = acc' ∧ bv = bv' ∧ buf = buf' := by
      simpa using ht'
    refine ⟨indices, _, hi, hm, ?_, ?_, ?_, ?_, zeroed_length _ _ ha.2,
      length_slotsOf key acc bv indices _ ha, ?_, ?_, ?_⟩
    · rw [hm]; rfl
    · rw [hm]; rfl
    · rw [hm]; rfl
    · intro i hne
      rw [hm]
      simp only [Model.withData]
      rw [List.getElem?_set_ne (fun e => hne e.symm)]
    · intro i j k hj hk hn
      exact markSlots_getElem? _ _ _ _ indices i j k hj hk hn
    · intro slot hs
      rw [bitAt_zeroed _ _ ha.2]
      have : slot.pos ∈ (slotsOf key acc bv indices).map Slot.pos := List.mem_map_of_mem _ hs
      simp [this]
    · intro q hq
      rw [bitAt_zeroed _ _ ha.2]
      simp [hq]

/-- The frame of zeroing on the sample model and key. -/
theorem C15_zero_frame_witness :
    ∃ m₁ indices data₁,
      ZeroingBits sampleRng sampleModel sampleKey = .ok m₁ ∧
      GenerateVertexIndices sampleRng sampleKey.seed (maxIndexOf sampleAccessor) = .ok indices ∧
      m₁ = sampleModel.withData sampleView data₁ ∧
      data₁.length = sampleBuffer.data.length ∧
      (slotsOf sampleKey sampleAccessor sampleView indices).length = 512 ∧
      (∀ slot ∈ slotsOf sampleKey sampleAccessor sampleView indices,
        bitAt data₁ slot.pos = false) ∧
      (∀ q, q ∉ (slotsOf sampleKey sampleAccessor sampleView indices).map Slot.pos →
        bitAt data₁ q = bitAt sampleBuffer.data q) := by
  obtain ⟨indices', -, -, -, -, hz, -⟩ := run_of_capacity sampleRng sampleModel sampleKey
    sampleAccessor sampleView sampleBuffer sample_target sample_capacity
  obtain ⟨indices, data₁, hi, hm, -, -, -, -, hl, hs, -, h0, hf⟩ :=
    C15_zero_frame sampleRng sampleModel _ sampleKey sampleAccessor sampleView sampleBuffer hz
      sample_target
  exact ⟨_, indices, data₁, hz, hi, hm, hl, hs, h0, hf⟩

/-- Bit `n` of a digest in the order of the spec is bit `7 - n % 8` of its byte `n / 8`. -/
theorem digestBit_eq_testBit (hmac : List BYTE) (n : Nat) (byte : BYTE)
    (h : hmac[n / 8]? = some byte) : digestBit hmac n = byte.val.testBit (7 - n % 8) := by
  unfold digestBit bitAt
  have h1 : (8 * (n / 8) + (7 - n % 8)) / 8 = n / 8 := by omega
  have h2 : (8 * (n / 8) + (7 - n % 8)) % 8 = 7 - n % 8 := by omega
  rw [h1, h2, h]

/-- C14: on a mesh with sufficient capacity (bit density `b` in `1..32`, `c` components per
vertex), after `ZeroingBits` and then `EmbedHMAC` with a 64-byte digest, for every slot number
`n = (i * c + j) * b + k < 512` with `j < c` and `k < b`, bit `k` of the 32-bit word of component
`j` of vertex `indices[i]` equals bit `7 - n % 8` of digest byte `n / 8`. -/
theorem C14_embed_layout (rng : Int → Nat → Nat) (model : Model) (key : SteganographyKey)
    (hmac : List BYTE) (acc : Accessor) (bv : BufferView) (buf : Buffer)
    (ht : target model key = some (acc, bv, buf)) (hc : SufficientCapacity key acc bv buf)
    (hh : hmac.length = 64) :
    ∃ indices m₁ m₂ data₂,
      GenerateVertexIndices rng key.seed (maxIndexOf acc) = .ok indices ∧
      ZeroingBits rng model key = .ok m₁ ∧ EmbedHMAC rng m₁ key hmac = .ok m₂ ∧
      target m₂ key = some (acc, bv, { data := data₂ }) ∧
      ∀ i j k n idx : Nat, indices[i]? = some idx →
        j < (GetNumComponentsInType acc.type).toNat → k < key.numBits.toNat →
        n = (i * (GetNumComponentsInType acc.type).toNat + j) * key.numBits.toNat + k →
        n < 512 →
        ∃ w byte,
          readU32 data₂
            (vertexOffset (bv.byteOffset + acc.byteOffset) (acc.ByteStride bv) idx + 4 * j)
              = some w ∧
          hmac[n / 8]? = some byte ∧
          w.testBit k = byte.val.testBit (7 - n % 8) := by
  obtain ⟨indices, hi, hl, ha, hnd, hz, hrest⟩ := run_of_capacity rng model key acc bv buf ht hc
  obtain ⟨he, -, -⟩ := hrest hmac hh
  refine ⟨indices, _, _, _, hi, hz, he, target_withData model key acc bv buf _ ht, ?_⟩
  intro i j k n idx hidx hj hk hn hlt
  have hv : ∀ x ∈ slotsOf key acc bv indices, x.valid (zeroed (slotsOf key acc bv indices)
      buf.data).length := by
    rw [zeroed_length _ _ ha.2]
    exact ha.2
  have hget : (slotsOf key acc bv indices)[n]?
      = some (vertexOffset (bv.byteOffset + acc.byteOffset) (acc.ByteStride bv) idx + 4 * j,
          k) := by
    rw [hn]
    unfold slotsOf
    rw [markSlots_getElem? _ _ _ _ indices i j k hj hk (hn ▸ hlt), hidx]
    rfl
  obtain ⟨hnl, hslot⟩ := List.getElem?_eq_some_iff.mp hget
  have hmem : (slotsOf key acc bv indices)[n] ∈ slotsOf key acc bv indices :=
    List.getElem_mem _
  have hvalid := ha.2 _ hmem
  rw [hslot] at hvalid hmem
  have hbit := bitAt_embedded hmac (slotsOf key acc bv indices)
    (zeroed (slotsOf key acc bv indices) buf.data) hv hnd n hnl
  rw [hslot, bitAt_zeroed _ _ ha.2] at hbit
  have hpos : Slot.pos (vertexOffset (bv.byteOffset + acc.byteOffset) (acc.ByteStride bv) idx
      + 4 * j, k) ∈ (slotsOf key acc bv indices).map Slot.pos := List.mem_map_of_mem _ hmem
  have hlen2 : (embedded hmac (slotsOf key acc bv indices)
      (zeroed (slotsOf key acc bv indices) buf.data)).length = buf.data.length := by
    rw [embedded_length _ _ _ hv, zeroed_length _ _ ha.2]
  obtain ⟨w, hw⟩ := readU32_isSome (embedded hmac (slotsOf key acc bv indices)
      (zeroed (slotsOf key acc bv indices) buf.data))
    (vertexOffset (bv.byteOffset + acc.byteOffset) (acc.ByteStride bv) idx + 4 * j)
    (by rw [hlen2]; exact hvalid.2)
  have hbyte : n / 8 < hmac.length := by omega
  refine ⟨w, hmac[n / 8], hw, List.getElem?_eq_getElem hbyte, ?_⟩
  rw [readU32_testBit _ _ _ _ hw, ← digestBit_eq_testBit hmac n _ (List.getElem?_eq_getElem hbyte)]
  have hk32 : k < 32 := hvalid.1
  simp only [Slot.pos] at hbit hpos
  rw [hbit]
  simp [hk32, hpos]

/-- The layout of the mark on the sample model, key and digest. -/
theorem C14_embed_layout_witness :
    ∃ indices m₁ m₂ data₂,
      GenerateVertexIndices sampleRng sampleKey.seed (maxIndexOf sampleAccessor) = .ok indices ∧
      ZeroingBits sampleRng sampleModel sampleKey = .ok m₁ ∧
      EmbedHMAC sampleRng m₁ sampleKey sampleDigest = .ok m₂ ∧
      target m₂ sampleKey = some (sampleAccessor, sampleView, { data := data₂ }) ∧
      ∀ i j k n idx : Nat, indices[i]? = some idx →
        j < (GetNumComponentsInType sampleAccessor.type).toNat → k < sampleKey.numBits.toNat →
        n = (i * (GetNumComponentsInType sampleAccessor.type).toNat + j)
          * sampleKey.numBits.toNat + k →
        n < 512 →
        ∃ w byte,
          readU32 data₂
            (vertexOffset (sampleView.byteOffset + sampleAccessor.byteOffset)
              (sampleAccessor.ByteStride sampleView) idx + 4 * j) = some w ∧
          sampleDigest[n / 8]? = some byte ∧
          w.testBit k = byte.val.testBit (7 - n % 8) :=
  C14_embed_layout sampleRng sampleModel sampleKey sampleDigest sampleAccessor sampleView
    sampleBuffer sample_target sample_capacity (List.length_replicate 64 165)

/-! ## Theorems: the loop bound -/

/-- The number of permutation entries that carry 512 slots at `d` slots per entry. -/
theorem ceil_div_bounds (d : Nat) (hd : 1 ≤ d) :
    (512 + d - 1) / d ≤ 512 ∧ 1 ≤ (512 + d - 1) / d ∧
    ((512 + d - 1) / d - 1) * d < 512 ∧ 512 ≤ (512 + d - 1) / d * d := by
  have h1 := Nat.div_add_mod (512 + d - 1) d
  have h2 : (512 + d - 1) % d < d := Nat.mod_lt _ (by omega)
  have h3 : (512 + d - 1) / d < 513 := by
    rw [Nat.div_lt_iff_lt_mul (by omega)]
    omega
  have h4 : 1 ≤ (512 + d - 1) / d := by
    rw [Nat.one_le_div_iff (by omega)]
    omega
  generalize (512 + d - 1) / d = N at *
  generalize (512 + d - 1) % d = r at *
  have h5 : (N - 1) * d = N * d - d := by rw [Nat.sub_mul, Nat.one_mul]
  have h6 : d * N = N * d := Nat.mul_comm _ _
  refine ⟨by omega, h4, by omega, by omega⟩

/-- The slots of the mark are those of the first `N` entries when these carry 512 slots. -/
theorem markSlots_take (base : Nat) (stride numOfComps numBits : Int) (indices : List Nat)
    (N : Nat) (hN : 512 ≤ N * (numOfComps.toNat * numBits.toNat)) :
    markSlots base stride numOfComps numBits (indices.take N)
        = markSlots base stride numOfComps numBits indices ∧
    (512 ≤ (allSlots base stride numOfComps numBits (indices.take N)).length ↔
      512 ≤ (allSlots base stride numOfComps numBits indices).length) := by
  by_cases h : N ≤ indices.length
  · have hlen : 512 ≤ (allSlots base stride numOfComps numBits (indices.take N)).length := by
      rw [length_allSlots, List.length_take, Nat.min_eq_left h]
      exact hN
    have hsplit : allSlots base stride numOfComps numBits indices
        = allSlots base stride numOfComps numBits (indices.take N)
          ++ allSlots base stride numOfComps numBits (indices.drop N) := by
      conv_lhs => rw [← List.take_append_drop N indices]
      unfold allSlots
      rw [List.flatMap_append]
    constructor
    · unfold markSlots
      rw [hsplit, List.take_append_of_le_length hlen]
    · constructor
      · intro _
        rw [hsplit, List.length_append]
        omega
      · intro _
        exact hlen
  · rw [List.take_of_length_le (by omega)]
    exact ⟨rfl, Iff.rfl⟩

/-- With fewer than 512 slots the loop nest runs off the index array. -/
theorem allSlots_take_lt (base : Nat) (stride numOfComps numBits : Int) (indices : List Nat)
    (m : Nat) (hm : m * (numOfComps.toNat * numBits.toNat) < 512) :
    ¬ 512 ≤ (allSlots base stride numOfComps numBits (indices.take m)).length := by
  rw [length_allSlots, List.length_take]
  have : min m indices.length * (numOfComps.toNat * numBits.toNat)
      ≤ m * (numOfComps.toNat * numBits.toNat) := Nat.mul_le_mul_right _ (Nat.min_le_left _ _)
  omega

/-- A body that counts its executions and returns at the `N`-th one neither returns nor faults
on fewer valid variables than remain up to `N`: the run falls through to what follows. -/
theorem runList_counted_next {ι σ : Type} (body : ι → σ → Except Fault (Flow σ))
    (step : ι → σ → σ) (valid : ι → Prop) (inv : σ → Prop) (rank : σ → Nat) (N : Nat)
    (hstep : ∀ x s, inv s → rank s < N → valid x →
      body x s = if rank s + 1 = N then .ok (.ret (step x s)) else .ok (.next (step x s)))
    (hinv : ∀ x s, inv s → rank s < N → valid x →
      inv (step x s) ∧ rank (step x s) = rank s + 1)
    (l : List ι) (s : σ) (hs : inv s) (hr : rank s + l.length < N) (hv : ∀ x ∈ l, valid x) :
    runList body l s = .ok (.next (l.foldl (fun s x => step x s) s)) := by
  induction l generalizing s with
  | nil => rfl
  | cons x xs ih =>
    simp only [List.length_cons] at hr
    simp only [List.mem_cons, forall_eq_or_imp] at hv
    simp only [runList, List.foldl_cons]
    rw [hstep x s hs (by omega) hv.1, if_neg (by omega)]
    obtain ⟨hs', hr'⟩ := hinv x s hs (by omega) hv.1
    exact ih (step x s) hs' (by omega) hv.2

/-- Fewer than 512 accessible slots: the loop body of `ZeroingBits` has not returned. -/
theorem zero_run_next (data : List BYTE) (l : List Slot) (hl : l.length < 512)
    (hv : ∀ x ∈ l, x.valid data.length) :
    runList (fun slot : Slot => zeroStep slot.1 slot.2) l (data, 0)
      = .ok (.next (l.foldl (fun s x => (zeroWord s.1 x, s.2 + 1)) (data, 0))) := by
  refine runList_counted_next (fun slot : Slot => zeroStep slot.1 slot.2)
    (fun x s => (zeroWord s.1 x, s.2 + 1)) (Slot.valid data.length)
    (fun s => s.1.length = data.length ∧ 0 ≤ s.2) (fun s => s.2.toNat) 512 ?_ ?_ l (data, 0)
    ⟨rfl, le_refl _⟩ (by simpa using hl) hv
  · rintro ⟨off, k⟩ ⟨d, c⟩ ⟨hlen, hc⟩ hr ⟨hk, hoff⟩
    simp only at hlen hc hr hk hoff
    obtain ⟨w, hw⟩ := readU32_isSome d off (by omega)
    simp only [zeroStep, zeroWord, hw, Option.getD_some, if_neg (show ¬ 32 ≤ k by omega),
      MAX_VERTICES_FOR_HMAC]
    have : (c + 1 = ((512 : Nat) : Int)) ↔ (c.toNat + 1 = 512) := by omega
    by_cases h512 : c.toNat + 1 = 512
    · rw [if_pos (this.mpr h512), if_pos h512]
    · rw [if_neg (fun h => h512 (this.mp h)), if_neg h512]
  · rintro ⟨off, k⟩ ⟨d, c⟩ ⟨hlen, hc⟩ hr hv
    simp only at hlen hc hr ⊢
    refine ⟨⟨by simp [hlen], by omega⟩, by omega⟩

/-- Fewer than 512 accessible slots: the loop body of `EmbedHMAC` has not returned. -/
theorem embed_run_next (hmac data : List BYTE) (hh : hmac.length = 64) (l : List Slot)
    (hl : l.length < 512) (hv : ∀ x ∈ l, x.valid data.length) :
    runList (fun slot : Slot => embedStep hmac slot.1 slot.2) l (data, 0, 7)
      = .ok (.next (l.foldl (fun s x => embedEffect hmac x s) (data, 0, 7))) := by
  refine runList_counted_next (fun slot : Slot => embedStep hmac slot.1 slot.2)
    (fun x s => embedEffect hmac x s) (Slot.valid data.length)
    (fun s => s.1.length = data.length ∧ 0 ≤ s.2.1 ∧ 0 ≤ s.2.2 ∧ s.2.2 ≤ 7)
    (fun s => (8 * s.2.1 + (7 - s.2.2)).toNat) 512 ?_ ?_ l (data, 0, 7)
    ⟨rfl, le_refl _, by norm_num, le_refl _⟩ (by simpa using hl) hv
  · rintro ⟨off, k⟩ ⟨d, bc, tc⟩ ⟨hlen, hb, ht0, ht7⟩ hr ⟨hk, hoff⟩
    simp only at hlen hb ht0 ht7 hr hk hoff
    obtain ⟨w, hw⟩ := readU32_isSome d off (by omega)
    have hidx := index_of_lt hmac bc hb (by omega)
    obtain ⟨a0, a1, a2, a3⟩ := advance_rank bc tc hb ht0 ht7
    simp only [embedStep, embedEffect, hw, hidx, Option.getD_some,
      if_neg (show ¬ 32 ≤ k by omega), HMAC_BYTE_SIZE]
    have : ((advance bc tc).1 = ((64 : Nat) : Int)) ↔ ((8 * bc + (7 - tc)).toNat + 1 = 512) := by
      omega
    by_cases h512 : (8 * bc + (7 - tc)).toNat + 1 = 512
    · rw [if_pos (this.mpr h512), if_pos h512]
    · rw [if_neg (fun h => h512 (this.mp h)), if_neg h512]
  · rintro ⟨off, k⟩ ⟨d, bc, tc⟩ ⟨hlen, hb, ht0, ht7⟩ hr hv
    simp only at hlen hb ht0 ht7 hr ⊢
    obtain ⟨a0, a1, a2, a3⟩ := advance_rank bc tc hb ht0 ht7
    refine ⟨⟨by simp [embedEffect, hlen], a0, a1, a2⟩, ?_⟩
    simp only [embedEffect]
    omega

/-- Fewer than 512 accessible slots: the loop body of `ExtractHMAC` has not returned. -/
theorem extract_run_next (data hmac : List BYTE) (hh : hmac.length = 64) (l : List Slot)
    (hl : l.length < 512) (hv : ∀ x ∈ l, x.valid data.length) :
    runList (fun slot : Slot => extractStep data slot.1 slot.2) l (hmac, 0, 7)
      = .ok (.next (l.foldl (fun s x => extractEffect data x s) (hmac, 0, 7))) := by
  refine runList_counted_next (fun slot : Slot => extractStep data slot.1 slot.2)
    (fun x s => extractEffect data x s) (Slot.valid data.length)
    (fun s => s.1.length = 64 ∧ 0 ≤ s.2.1 ∧ 0 ≤ s.2.2 ∧ s.2.2 ≤ 7)
    (fun s => (8 * s.2.1 + (7 - s.2.2)).toNat) 512 ?_ ?_ l (hmac, 0, 7)
    ⟨hh, le_refl _, by norm_num, le_refl _⟩ (by simpa using hl) hv
  · rintro ⟨off, k⟩ ⟨d, bc, tc⟩ ⟨hlen, hb, ht0, ht7⟩ hr ⟨hk, hoff⟩
    simp only at hlen hb ht0 ht7 hr hk hoff
    obtain ⟨w, hw⟩ := readU32_isSome data off (by omega)
    have hidx := index_of_lt d bc hb (by omega)
    obtain ⟨a0, a1, a2, a3⟩ := advance_rank bc tc hb ht0 ht7
    simp only [extractStep, extractEffect, hw, hidx, Option.getD_some,
      if_neg (show ¬ 32 ≤ k by omega), HMAC_BYTE_SIZE]
    have : ((advance bc tc).1 = ((64 : Nat) : Int)) ↔ ((8 * bc + (7 - tc)).toNat + 1 = 512) := by
      omega
    by_cases h512 : (8 * bc + (7 - tc)).toNat + 1 = 512
    · rw [if_pos (this.mpr h512), if_pos h512]
    · rw [if_neg (fun h => h512 (this.mp h)), if_neg h512]
  · rintro ⟨off, k⟩ ⟨d, bc, tc⟩ ⟨hlen, hb, ht0, ht7⟩ hr hv
    simp only at hlen hb ht0 ht7 hr ⊢
    obtain ⟨a0, a1, a2, a3⟩ := advance_rank bc tc hb ht0 ht7
    refine ⟨⟨by simp [extractEffect, hlen], a0, a1, a2⟩, ?_⟩
    simp only [extractEffect]
    omega

/-- The slots of the first `m` entries, when fewer than 512, are slots of the mark. -/
theorem allSlots_take_subset (base : Nat) (stride numOfComps numBits : Int)
    (indices : List Nat) (m : Nat)
    (hm : (allSlots base stride numOfComps numBits (indices.take m)).length ≤ 512) :
    ∀ x ∈ allSlots base stride numOfComps numBits (indices.take m),
      x ∈ markSlots base stride numOfComps numBits indices := by
  intro x hx
  have hsplit : allSlots base stride numOfComps numBits indices
      = allSlots base stride numOfComps numBits (indices.take m)
        ++ allSlots base stride numOfComps numBits (indices.drop m) := by
    conv_lhs => rw [← List.take_append_drop m indices]
    unfold allSlots
    rw [List.flatMap_append]
  unfold markSlots
  rw [hsplit, List.take_append_eq_append_take, List.take_of_length_le hm]
  exact List.mem_append_left _ hx

/-- C18: for every bit density `b ≥ 1` and component count `c ≥ 1`, with
`N = ceil(512 / (b * c))`: `N ≤ 512`; slot `(N - 1) * c * b` is still below 512 and `N * c * b`
is not; the loop nests of `ZeroingBits`, `EmbedHMAC` and `ExtractHMAC` give the same result on
the index array as on its first `N` entries, so they read no entry from `N` on, and on fewer
than `N` entries they do not return.  When the array has at least `N` entries and every slot of
the mark can be accessed (bit number below 32, component inside the buffer), each loop nest
ends by its `return`, and after any `m < N` entries it has neither returned nor faulted, so
it goes on to read entry `m`: exactly `N` entries are visited. -/
theorem C18_loop_bound (base : Nat) (stride numOfComps numBits : Int) (indices : List Nat)
    (data hmac digest : List BYTE) (hb : 1 ≤ numBits) (hc : 1 ≤ numOfComps)
    (hh : hmac.length = 64) (hd : digest.length = 64) :
    ∃ N : Nat, N = (512 + numOfComps.toNat * numBits.toNat - 1)
        / (numOfComps.toNat * numBits.toNat) ∧
      (N : Int) = ⌈(512 : ℚ) / ((numBits : ℚ) * (numOfComps : ℚ))⌉ ∧
      N ≤ 512 ∧
      (N - 1) * (numOfComps.toNat * numBits.toNat) < 512 ∧
      512 ≤ N * (numOfComps.toNat * numBits.toNat) ∧
      vertexLoops base stride numOfComps numBits zeroStep indices (data, 0)
        = vertexLoops base stride numOfComps numBits zeroStep (indices.take N) (data, 0) ∧
      vertexLoops base stride numOfComps numBits (embedStep hmac) indices (data, 0, 7)
        = vertexLoops base stride numOfComps numBits (embedStep hmac) (indices.take N)
            (data, 0, 7) ∧
      vertexLoops base stride numOfComps numBits (extractStep data) indices (digest, 0, 7)
        = vertexLoops base stride numOfComps numBits (extractStep data) (indices.take N)
            (digest, 0, 7) ∧
      (∀ m, m < N →
        vertexLoops base stride numOfComps numBits zeroStep (indices.take m) (data, 0)
          = .error .undefinedBehaviour ∧
        vertexLoops base stride numOfComps numBits (embedStep hmac) (indices.take m) (data, 0, 7)
          = .error .undefinedBehaviour ∧
        vertexLoops base stride numOfComps numBits (extractStep data) (indices.take m)
            (digest, 0, 7) = .error .undefinedBehaviour) ∧
      (N ≤ indices.length →
        (∀ x ∈ markSlots base stride numOfComps numBits indices, x.valid data.length) →
        (∃ s, vertexLoops base stride numOfComps numBits zeroStep indices (data, 0) = .ok s) ∧
        (∃ s, vertexLoops base stride numOfComps numBits (embedStep hmac) indices (data, 0, 7)
          = .ok s) ∧
        (∃ s, vertexLoops base stride numOfComps numBits (extractStep data) indices
          (digest, 0, 7) = .ok s) ∧
        ∀ m, m < N →
          (∃ s, runList (fun slot : Slot => zeroStep slot.1 slot.2)
            (allSlots base stride numOfComps numBits (indices.take m)) (data, 0)
              = .ok (.next s)) ∧
          (∃ s, runList (fun slot : Slot => embedStep hmac slot.1 slot.2)
            (allSlots base stride numOfComps numBits (indices.take m)) (data, 0, 7)
              = .ok (.next s)) ∧
          (∃ s, runList (fun slot : Slot => extractStep data slot.1 slot.2)
            (allSlots base stride numOfComps numBits (indices.take m)) (digest, 0, 7)
              = .ok (.next s))) := by
  obtain ⟨b, rfl⟩ : ∃ b : Nat, numBits = (b : Int) := ⟨numBits.toNat, by omega⟩
  obtain ⟨c, rfl⟩ : ∃ c : Nat, numOfComps = (c : Int) := ⟨numOfComps.toNat, by omega⟩
  have hb1 : 1 ≤ b := by omega
  have hc1 : 1 ≤ c := by omega
  simp only [Int.toNat_ofNat]
  have hd1 : 1 ≤ c * b := Nat.mul_pos hc1 hb1
  obtain ⟨h512, h1, hlt, hge⟩ := ceil_div_bounds (c * b) hd1
  refine ⟨_, rfl, ?_, h512, hlt, hge, ?_, ?_, ?_, ?_, ?_⟩
  · symm
    rw [Int.ceil_eq_iff]
    have hpos : (0 : ℚ) < (b : ℚ) * (c : ℚ) := by
      have : 0 < b * c := Nat.mul_pos hb1 hc1
      exact_mod_cast this
    generalize (512 + c * b - 1) / (c * b) = N at *
    have hlt' : (((N - 1) * (c * b) : Nat) : ℚ) < 512 := by exact_mod_cast hlt
    have hge' : (512 : ℚ) ≤ ((N * (c * b) : Nat) : ℚ) := by exact_mod_cast hge
    push_cast [Nat.cast_sub h1] at hlt' hge' ⊢
    constructor
    · rw [lt_div_iff₀ hpos]
      linarith
    · rw [div_le_iff₀ hpos]
      linarith
  · have hN := markSlots_take base stride (c : Int) (b : Int) indices
      ((512 + c * b - 1) / (c * b)) (by simp only [Int.toNat_ofNat]; exact hge)
    rw [zero_loops, zero_loops]
    simp only [hN.1, hN.2]
  · have hN := markSlots_take base stride (c : Int) (b : Int) indices
      ((512 + c * b - 1) / (c * b)) (by simp only [Int.toNat_ofNat]; exact hge)
    rw [embed_loops _ _ _ _ _ _ _ hh, embed_loops _ _ _ _ _ _ _ hh]
    simp only [hN.1, hN.2]
  · have hN := markSlots_take base stride (c : Int) (b : Int) indices
      ((512 + c * b - 1) / (c * b)) (by simp only [Int.toNat_ofNat]; exact hge)
    rw [extract_loops _ _ _ _ _ _ _ hd, extract_loops _ _ _ _ _ _ _ hd]
    simp only [hN.1, hN.2]
  · intro m hm
    have hmlt : m * ((c : Int).toNat * (b : Int).toNat) < 512 := by
      simp only [Int.toNat_ofNat]
      have : m * (c * b) ≤ ((512 + c * b - 1) / (c * b) - 1) * (c * b) :=
        Nat.mul_le_mul_right _ (by omega)
      omega
    have hno := allSlots_take_lt base stride (c : Int) (b : Int) indices m hmlt
    refine ⟨?_, ?_, ?_⟩
    · rw [zero_loops, if_neg (fun h => hno h.1)]
    · rw [embed_loops _ _ _ _ _ _ _ hh, if_neg (fun h => hno h.1)]
    · rw [extract_loops _ _ _ _ _ _ _ hd, if_neg (fun h => hno h.1)]
  · intro hlen hvalid
    have hall : 512 ≤ (allSlots base stride (c : Int) (b : Int) indices).length := by
      rw [length_allSlots]
      simp only [Int.toNat_ofNat]
      exact hge.trans (Nat.mul_le_mul_right _ hlen)
    refine ⟨?_, ?_, ?_, ?_⟩
    · rw [zero_loops, if_pos ⟨hall, hvalid⟩]
      exact ⟨_, rfl⟩
    · rw [embed_loops _ _ _ _ _ _ _ hh, if_pos ⟨hall, hvalid⟩]
      exact ⟨_, rfl⟩
    · rw [extract_loops _ _ _ _ _ _ _ hd, if_pos ⟨hall, hvalid⟩]
      exact ⟨_, rfl⟩
    · intro m hm
      have hmlt : m * ((c : Int).toNat * (b : Int).toNat) < 512 := by
        simp only [Int.toNat_ofNat]
        have : m * (c * b) ≤ ((512 + c * b - 1) / (c * b) - 1) * (c * b) :=
          Nat.mul_le_mul_right _ (by omega)
        omega
      have hno := allSlots_take_lt base stride (c : Int) (b : Int) indices m hmlt
      have hsub := allSlots_take_subset base stride (c : Int) (b : Int) indices m (by omega)
      have hv : ∀ x ∈ allSlots base stride (c : Int) (b : Int) (indices.take m),
          x.valid data.length := fun x hx => hvalid x (hsub x hx)
      exact ⟨⟨_, zero_run_next data _ (by omega) hv⟩,
        ⟨_, embed_run_next hmac data hh _ (by omega) hv⟩,
        ⟨_, extract_run_next data digest hd _ (by omega) hv⟩⟩

/-- The slots of three components at bit density 1 over the index array `0..511`, from byte 36
with stride 12, lie inside the sample buffer. -/
theorem sample_slots_valid :
    ∀ x ∈ markSlots 36 12 3 1 (List.range 512), x.valid sampleBuffer.data.length := by
  intro x hx
  obtain ⟨idx, hi, j, hj, k, hk, rfl⟩ :=
    (mem_allSlots _ _ _ _ _ _).mp (List.mem_of_mem_take hx)
  rw [sampleBuffer_length]
  rw [List.mem_range] at hi
  have hj3 : j < 3 := hj
  have hk1 : k < 1 := hk
  have e : vertexOffset 36 12 idx = 36 + idx * 12 := by
    unfold vertexOffset toU64
    have h12 : ((12 : Int) % 18446744073709551616).toNat = 12 := by decide
    rw [h12, Nat.mod_eq_of_lt (by omega)]
  refine ⟨?_, ?_⟩
  · show k < 32
    omega
  · show vertexOffset 36 12 idx + 4 * j + 4 ≤ 12036
    rw [e]
    omega

/-- The loop bound for three components at bit density 1 over the index array `0..511`: 171
entries, and the three loop nests end by their `return` on the sample buffer. -/
theorem C18_loop_bound_witness :
    ∃ N : Nat, N = (512 + (3 : Int).toNat * (1 : Int).toNat - 1)
        / ((3 : Int).toNat * (1 : Int).toNat) ∧
      (N : Int) = ⌈(512 : ℚ) / (((1 : Int) : ℚ) * ((3 : Int) : ℚ))⌉ ∧
      N ≤ 512 ∧
      (N - 1) * ((3 : Int).toNat * (1 : Int).toNat) < 512 ∧
      512 ≤ N * ((3 : Int).toNat * (1 : Int).toNat) ∧
      vertexLoops 36 12 3 1 zeroStep (List.range 512) (sampleBuffer.data, 0)
        = vertexLoops 36 12 3 1 zeroStep ((List.range 512).take N) (sampleBuffer.data, 0) ∧
      (∃ s, vertexLoops 36 12 3 1 zeroStep (List.range 512) (sampleBuffer.data, 0) = .ok s) ∧
      (∃ s, vertexLoops 36 12 3 1 (embedStep sampleDigest) (List.range 512)
        (sampleBuffer.data, 0, 7) = .ok s) ∧
      (∃ s, vertexLoops 36 12 3 1 (extractStep sampleBuffer.data) (List.range 512)
        (List.replicate 64 0, 0, 7) = .ok s) ∧
      ∀ m, m < N →
        (∃ s, runList (fun slot : Slot => zeroStep slot.1 slot.2)
          (allSlots 36 12 3 1 ((List.range 512).take m)) (sampleBuffer.data, 0)
            = .ok (.next s)) ∧
        (∃ s, runList (fun slot : Slot => embedStep sampleDigest slot.1 slot.2)
          (allSlots 36 12 3 1 ((List.range 512).take m)) (sampleBuffer.data, 0, 7)
            = .ok (.next s)) ∧
        (∃ s, runList (fun slot : Slot => extractStep sampleBuffer.data slot.1 slot.2)
          (allSlots 36 12 3 1 ((List.range 512).take m)) (List.replicate 64 0, 0, 7)
            = .ok (.next s)) := by
  obtain ⟨N, hN, hceil, h512, hlt, hge, e1, -, -, -, hterm⟩ :=
    C18_loop_bound 36 12 3 1 (List.range 512) sampleBuffer.data sampleDigest
      (List.replicate 64 0) (by decide) (by decide) (List.length_replicate 64 165)
      (List.length_replicate 64 0)
  obtain ⟨t1, t2, t3, t4⟩ := hterm (by rw [List.length_range]; exact h512) sample_slots_valid
  exact ⟨N, hN, hceil, h512, hlt, hge, e1, t1, t2, t3, t4⟩

/-! ## Theorems: the vertices addressed -/

/-- Every index `GenerateVertexIndices` returns is below its bound. -/
theorem GenerateVertexIndices_mem (rng : Int → Nat → Nat) (seed maxIndex : Int)
    (indices : List Nat) (h : GenerateVertexIndices rng seed maxIndex = .ok indices) :
    ∀ x ∈ indices, (x : Int) < maxIndex := by
  simp only [GenerateVertexIndices] at h
  split_ifs at h with h1 h2
  have e := Except.ok.inj h
  intro x hx
  rw [← e] at hx
  have := ((shuffle_perm rng seed _).mem_iff).mp (List.mem_of_mem_take hx)
  rw [List.mem_range] at this
  omega

/-- The bound `accessor.count - 1` received as an `int` is never above `accessor.count - 1`. -/
theorem maxIndexOf_le (acc : Accessor) (h1 : 1 ≤ acc.count) :
    maxIndexOf acc ≤ (acc.count : Int) - 1 := by
  obtain ⟨n, hn⟩ : ∃ n : Nat, (acc.count : Int) - 1 = (n : Int) := ⟨acc.count - 1, by omega⟩
  unfold maxIndexOf
  rw [hn]
  have h64 : toU64 (n : Int) ≤ n := by
    unfold toU64
    omega
  have h32 : toU32 ((toU64 (n : Int) : Nat) : Int) ≤ toU64 (n : Int) := by
    unfold toU32
    omega
  unfold toI32
  generalize toU32 ((toU64 (n : Int) : Nat) : Int) = a at *
  generalize toU64 (n : Int) = c at *
  split_ifs <;> omega

/-- C19: the permutation is generated with bound `accessor.count - 1`, so whenever
`accessor.count ≥ 513` every vertex index the three operations address is below
`accessor.count - 1`; and when the vertex data has sufficient capacity, every 32-bit word they
access ends before the last vertex (index `accessor.count - 1`) begins, and zeroing and embedding
leave every bit from the start of the last vertex on unchanged. -/
theorem C19_index_range (rng : Int → Nat → Nat) (key : SteganographyKey) (acc : Accessor)
    (h : 513 ≤ acc.count) :
    (∀ indices, GenerateVertexIndices rng key.seed (maxIndexOf acc) = .ok indices →
      ∀ x ∈ indices, x < acc.count - 1) ∧
    ∀ (model : Model) (bv : BufferView) (buf : Buffer) (hmac : List BYTE),
      target model key = some (acc, bv, buf) → SufficientCapacity key acc bv buf →
      hmac.length = 64 →
      ∃ indices data₁ data₂,
        GenerateVertexIndices rng key.seed (maxIndexOf acc) = .ok indices ∧
        ZeroingBits rng model key = .ok (model.withData bv data₁) ∧
        EmbedHMAC rng (model.withData bv data₁) key hmac = .ok (model.withData bv data₂) ∧
        ExtractHMAC rng (model.withData bv data₂) key (List.replicate HMAC_BYTE_SIZE 0)
          = .ok hmac ∧
        (∀ slot ∈ slotsOf key acc bv indices,
          slot.1 + 4 ≤ bv.byteOffset + acc.byteOffset
            + (acc.count - 1) * (acc.ByteStride bv).toNat) ∧
        ∀ q, 8 * (bv.byteOffset + acc.byteOffset
            + (acc.count - 1) * (acc.ByteStride bv).toNat) ≤ q →
          bitAt data₁ q = bitAt buf.data q ∧ bitAt data₂ q = bitAt buf.data q := by
  have hrange : ∀ indices, GenerateVertexIndices rng key.seed (maxIndexOf acc) = .ok indices →
      ∀ x ∈ indices, x < acc.count - 1 := by
    intro indices hi x hx
    have h1 := GenerateVertexIndices_mem rng key.seed _ indices hi x hx
    have h2 := maxIndexOf_le acc (by omega)
    omega
  refine ⟨hrange, ?_⟩
  intro model bv buf hmac ht hc hh
  obtain ⟨indices, hi, hl, ha, hnd, hz, hrest⟩ := run_of_capacity rng model key acc bv buf ht hc
  obtain ⟨he, hx, -⟩ := hrest hmac hh
  have hslot : ∀ slot ∈ slotsOf key acc bv indices,
      slot.1 + 4 ≤ bv.byteOffset + acc.byteOffset
        + (acc.count - 1) * (acc.ByteStride bv).toNat ∧ slot.2 < 32 := by
    intro slot hs
    have hv := ha.2 slot hs
    obtain ⟨idx, hidx, j, hj, k, hk, rfl⟩ :=
      (mem_allSlots _ _ _ _ _ _).mp (List.mem_of_mem_take hs)
    have hlt := hrange indices hi idx hidx
    obtain ⟨e, -, hs4⟩ := capacity_offset key acc bv buf hc idx (by omega)
    have hmul : (idx + 1) * (acc.ByteStride bv).toNat
        ≤ (acc.count - 1) * (acc.ByteStride bv).toNat := Nat.mul_le_mul_right _ (by omega)
    rw [Nat.add_mul, Nat.one_mul] at hmul
    refine ⟨?_, hv.1⟩
    show vertexOffset _ _ idx + 4 * j + 4 ≤ _
    rw [e]
    omega
  refine ⟨indices, _, _, hi, hz, he, hx, fun slot hs => (hslot slot hs).1, ?_⟩
  intro q hq
  have hnot : q ∉ (slotsOf key acc bv indices).map Slot.pos := by
    intro hmem
    obtain ⟨slot, hs, rfl⟩ := List.mem_map.mp hmem
    obtain ⟨h1, h2⟩ := hslot slot hs
    unfold Slot.pos at hq
    omega
  have hv : ∀ x ∈ slotsOf key acc bv indices, x.valid (zeroed (slotsOf key acc bv indices)
      buf.data).length := by
    rw [zeroed_length _ _ ha.2]
    exact ha.2
  have hz0 : bitAt (zeroed (slotsOf key acc bv indices) buf.data) q = bitAt buf.data q := by
    rw [bitAt_zeroed _ _ ha.2]
    simp [hnot]
  exact ⟨hz0, by rw [bitAt_embedded_of_not_mem _ _ _ hv q hnot, hz0]⟩

/-- The index range on the sample accessor of 1000 vertices. -/
theorem C19_index_range_witness :
    (∀ indices,
      GenerateVertexIndices sampleRng sampleKey.seed (maxIndexOf sampleAccessor) = .ok indices →
      ∀ x ∈ indices, x < sampleAccessor.count - 1) ∧
    ∃ indices data₁ data₂,
      GenerateVertexIndices sampleRng sampleKey.seed (maxIndexOf sampleAccessor) = .ok indices ∧
      ZeroingBits sampleRng sampleModel sampleKey = .ok (sampleModel.withData sampleView data₁) ∧
      EmbedHMAC sampleRng (sampleModel.withData sampleView data₁) sampleKey sampleDigest
        = .ok (sampleModel.withData sampleView data₂) ∧
      ExtractHMAC sampleRng (sampleModel.withData sampleView data₂) sampleKey
          (List.replicate HMAC_BYTE_SIZE 0) = .ok sampleDigest ∧
      (∀ slot ∈ slotsOf sampleKey sampleAccessor sampleView indices,
        slot.1 + 4 ≤ sampleView.byteOffset + sampleAccessor.byteOffset
          + (sampleAccessor.count - 1) * (sampleAccessor.ByteStride sampleView).toNat) ∧
      ∀ q, 8 * (sampleView.byteOffset + sampleAccessor.byteOffset
          + (sampleAccessor.count - 1) * (sampleAccessor.ByteStride sampleView).toNat) ≤ q →
        bitAt data₁ q = bitAt sampleBuffer.data q ∧ bitAt data₂ q = bitAt sampleBuffer.data q :=
  ⟨(C19_index_range sampleRng sampleKey sampleAccessor (by decide)).1,
   (C19_index_range sampleRng sampleKey sampleAccessor (by decide)).2 sampleModel sampleView
     sampleBuffer sampleDigest sample_target sample_capacity (List.length_replicate 64 165)⟩

/-! ## Theorems: the primitive loop -/

/-- The boilerplate code reads the accessors, buffer views and buffers only. -/
theorem locate_congr (model model' : Model) (hacc : model'.accessors = model.accessors)
    (hbv : model'.bufferViews = model.bufferViews) (hbuf : model'.buffers = model.buffers)
    (ai : Int) : locate model' ai = locate model ai := by
  unfold locate
  rw [hacc, hbv, hbuf]

theorem withData_buffers_congr (model model' : Model) (hbuf : model'.buffers = model.buffers)
    (bv : BufferView) (data : List BYTE) :
    (model'.withData bv data).buffers = (model.withData bv data).buffers := by
  unfold Model.withData
  simp only [hbuf]

/-- The primitive loop of `ZeroingBits` leaves the same buffers in two models with the same
accessors, buffer views and buffers. -/
theorem zeroPrimitives_congr (rng : Int → Nat → Nat) (model model' : Model)
    (key : SteganographyKey) (hacc : model'.accessors = model.accessors)
    (hbv : model'.bufferViews = model.bufferViews) (hbuf : model'.buffers = model.buffers)
    (primitive : Primitive) :
    (zeroPrimitives rng model' key [primitive]).map Model.buffers
      = (zeroPrimitives rng model key [primitive]).map Model.buffers := by
  simp only [zeroPrimitives, locate_congr model model' hacc hbv hbuf]
  cases primitive.attributes.lookup key.attr with
  | none => rfl
  | some ai =>
    simp only []
    cases locate model ai with
    | error e => rfl
    | ok t =>
      obtain ⟨acc, bv, buf⟩ := t
      simp only []
      cases GenerateVertexIndices rng key.seed (maxIndexOf acc) with
      | error e => rfl
      | ok indices =>
        simp only []
        cases vertexLoops (bv.byteOffset + acc.byteOffset) (acc.ByteStride bv)
            (GetNumComponentsInType acc.type) key.numBits zeroStep indices (buf.data, 0) with
        | error e => rfl
        | ok s =>
          simp only [Except.map]
          rw [withData_buffers_congr model model' hbuf]

/-- The same for the primitive loop of `EmbedHMAC`. -/
theorem embedPrimitives_congr (rng : Int → Nat → Nat) (model model' : Model)
    (key : SteganographyKey) (hmac : List BYTE) (hacc : model'.accessors = model.accessors)
    (hbv : model'.bufferViews = model.bufferViews) (hbuf : model'.buffers = model.buffers)
    (primitive : Primitive) (ai : Int) (hp : primitive.attributes.lookup key.attr = some ai) :
    (embedPrimitives rng model' key hmac [primitive]).map Model.buffers
      = (embedPrimitives rng model key hmac [primitive]).map Model.buffers := by
  simp only [embedPrimitives, hp, locate_congr model model' hacc hbv hbuf]
  cases locate model ai with
  | error e => rfl
  | ok t =>
    obtain ⟨acc, bv, buf⟩ := t
    simp only []
    cases GenerateVertexIndices rng key.seed (maxIndexOf acc) with
    | error e => rfl
    | ok indices =>
      simp only []
      cases vertexLoops (bv.byteOffset + acc.byteOffset) (acc.ByteStride bv)
          (GetNumComponentsInType acc.type) key.numBits (embedStep hmac) indices
          (buf.data, 0, 7) with
      | error e => rfl
      | ok s =>
        simp only [Except.map]
        rw [withData_buffers_congr model model' hbuf]

/-- The primitive loop of `ExtractHMAC` gives the same digest in two models with the same
accessors, buffer views and buffers. -/
theorem extractPrimitives_congr (rng : Int → Nat → Nat) (model model' : Model)
    (key : SteganographyKey) (hmac : List BYTE) (hacc : model'.accessors = model.accessors)
    (hbv : model'.bufferViews = model.bufferViews) (hbuf : model'.buffers = model.buffers)
    (primitives : List Primitive) :
    extractPrimitives rng model' key hmac primitives
      = extractPrimitives rng model key hmac primitives := by
  cases primitives with
  | nil => rfl
  | cons primitive rest =>
    simp only [extractPrimitives, locate_congr model model' hacc hbv hbuf]

/-- What a completed `EmbedHMAC` that reached the vertex data has done. -/
theorem embed_ok_cases (rng : Int → Nat → Nat) (model m₂ : Model) (key : SteganographyKey)
    (hmac : List BYTE) (acc : Accessor) (bv : BufferView) (buf : Buffer) (hh : hmac.length = 64)
    (ht : target model key = some (acc, bv, buf))
    (he : EmbedHMAC rng model key hmac = .ok m₂) :
    ∃ indices, GenerateVertexIndices rng key.seed (maxIndexOf acc) = .ok indices ∧
      Accessible key acc bv indices buf.data.length ∧
      m₂ = model.withData bv (embedded hmac (slotsOf key acc bv indices) buf.data) := by
  cases hi : GenerateVertexIndices rng key.seed (maxIndexOf acc) with
  | error e =>
    rw [embed_of_target rng model key hmac acc bv buf ht, hi] at he
    simp at he
  | ok indices =>
    rw [embed_closed rng model key hmac acc bv buf indices hh ht hi] at he
    by_cases ha : Accessible key acc bv indices buf.data.length
    · rw [if_pos ha] at he
      exact ⟨indices, rfl, ha, (Except.ok.inj he).symm⟩
    · rw [if_neg ha] at he
      simp at he

/-- C20: when the selected mesh has the primitives `primitive :: rest` and `primitive` carries
the target attribute, `ZeroingBits`, `EmbedHMAC` and `ExtractHMAC` do what their primitive loop
does on `primitive` alone; in a model with the same accessors, buffer views and buffers whose
selected mesh is that mesh reduced to `primitive` (and still passes the guard), they leave the
same buffers and extract the same digest; and a completed zeroing or embedding replaces only the
buffer behind the accessor of `primitive`, changing no bit outside the slots of that accessor. -/
theorem C20_first_primitive (rng : Int → Nat → Nat) (model model' : Model)
    (key : SteganographyKey) (hmac : List BYTE) (id n id' n' : Int) (nv : Nat)
    (primitive : Primitive) (rest : List Primitive) (ai : Int) (hh : hmac.length = 64)
    (hacc : model'.accessors = model.accessors)
    (hbv : model'.bufferViews = model.bufferViews) (hbuf : model'.buffers = model.buffers)
    (hf : FindMaxVerticesMeshId model = .ok (id, n))
    (hf' : FindMaxVerticesMeshId model' = .ok (id', n'))
    (hn : numOfVerts key = .ok nv) (hg : ¬ toU32 n < nv) (hg' : ¬ toU32 n' < nv)
    (hm : index model.meshes id = some { primitives := primitive :: rest })
    (hm' : index model'.meshes id' = some { primitives := [primitive] })
    (hp : primitive.attributes.lookup key.attr = some ai) :
    (ZeroingBits rng model key = zeroPrimitives rng model key [primitive] ∧
      EmbedHMAC rng model key hmac = embedPrimitives rng model key hmac [primitive] ∧
      ExtractHMAC rng model key hmac = extractPrimitives rng model key hmac [primitive]) ∧
    ((ZeroingBits rng model' key).map Model.buffers
        = (ZeroingBits rng model key).map Model.buffers ∧
      (EmbedHMAC rng model' key hmac).map Model.buffers
        = (EmbedHMAC rng model key hmac).map Model.buffers ∧
      ExtractHMAC rng model' key hmac = ExtractHMAC rng model key hmac) ∧
    ∀ m₁, (ZeroingBits rng model key = .ok m₁ ∨ EmbedHMAC rng model key hmac = .ok m₁) →
      ∃ acc bv buf indices data,
        locate model ai = .ok (acc, bv, buf) ∧
        GenerateVertexIndices rng key.seed (maxIndexOf acc) = .ok indices ∧
        m₁ = model.withData bv data ∧ data.length = buf.data.length ∧
        ∀ q, q ∉ (slotsOf key acc bv indices).map Slot.pos → bitAt data q = bitAt buf.data q := by
  have hz : ZeroingBits rng model key = zeroPrimitives rng model key [primitive] := by
    simp only [ZeroingBits, hf, hn, if_neg hg, hm, zeroPrimitives]
  have he : EmbedHMAC rng model key hmac = embedPrimitives rng model key hmac [primitive] := by
    simp only [EmbedHMAC, hf, hn, if_neg hg, hm, embedPrimitives, hp]
  have hx : ExtractHMAC rng model key hmac = extractPrimitives rng model key hmac [primitive] := by
    simp only [ExtractHMAC, hf, hn, if_neg hg, hm, extractPrimitives]
  have hz' : ZeroingBits rng model' key = zeroPrimitives rng model' key [primitive] := by
    simp only [ZeroingBits, hf', hn, if_neg hg', hm']
  have he' : EmbedHMAC rng model' key hmac = embedPrimitives rng model' key hmac [primitive] := by
    simp only [EmbedHMAC, hf', hn, if_neg hg', hm']
  have hx' : ExtractHMAC rng model' key hmac
      = extractPrimitives rng model' key hmac [primitive] := by
    simp only [ExtractHMAC, hf', hn, if_neg hg', hm']
  refine ⟨⟨hz, he, hx⟩, ⟨?_, ?_, ?_⟩, ?_⟩
  · rw [hz, hz']
    exact zeroPrimitives_congr rng model model' key hacc hbv hbuf primitive
  · rw [he, he']
    exact embedPrimitives_congr rng model model' key hmac hacc hbv hbuf primitive ai hp
  · rw [hx, hx']
    exact extractPrimitives_congr rng model model' key hmac hacc hbv hbuf [primitive]
  · intro m₁ hm₁
    cases hl : locate model ai with
    | error e =>
      rcases hm₁ with h | h
      · rw [hz] at h
        simp [zeroPrimitives, hp, hl] at h
      · rw [he] at h
        simp [embedPrimitives, hp, hl] at h
    | ok t =>
      obtain ⟨acc, bv, buf⟩ := t
      have ht : target model key = some (acc, bv, buf) := by
        simp only [target, hf, hn, if_neg hg, hm, hp, hl]
      rcases hm₁ with h | h
      · rcases zero_ok_cases rng model m₁ key h with ⟨hnone, -⟩ | ⟨a, b, c, indices, ht', hi, ha, e⟩
        · rw [ht] at hnone
          exact absurd hnone (by simp)
        · rw [ht] at ht'
          obtain ⟨rfl, rfl, rfl⟩ : acc = a ∧ bv = b ∧ buf = c := by simpa using ht'
          refine ⟨acc, bv, buf, indices, _, rfl, hi, e, zeroed_length _ _ ha.2, ?_⟩
          intro q hq
          rw [bitAt_zeroed _ _ ha.2]
          simp [hq]
      · obtain ⟨indices, hi, ha, e⟩ := embed_ok_cases rng model m₁ key hmac acc bv buf hh ht h
        exact ⟨acc, bv, buf, indices, _, rfl, hi, e, embedded_length _ _ _ ha.2,
          fun q hq => bitAt_embedded_of_not_mem _ _ _ ha.2 q hq⟩

/-- The sample mesh of two primitives and the same mesh reduced to its first primitive. -/
theorem C20_first_primitive_witness :
    (ZeroingBits sampleRng twoPrimitiveModel sampleKey
        = zeroPrimitives sampleRng twoPrimitiveModel sampleKey
            [{ attributes := [("POSITION", 1)] }] ∧
      EmbedHMAC sampleRng twoPrimitiveModel sampleKey sampleDigest
        = embedPrimitives sampleRng twoPrimitiveModel sampleKey sampleDigest
            [{ attributes := [("POSITION", 1)] }] ∧
      ExtractHMAC sampleRng twoPrimitiveModel sampleKey sampleDigest
        = extractPrimitives sampleRng twoPrimitiveModel sampleKey sampleDigest
            [{ attributes := [("POSITION", 1)] }]) ∧
    ((ZeroingBits sampleRng firstPrimitiveModel sampleKey).map Model.buffers
        = (ZeroingBits sampleRng twoPrimitiveModel sampleKey).map Model.buffers ∧
      (EmbedHMAC sampleRng firstPrimitiveModel sampleKey sampleDigest).map Model.buffers
        = (EmbedHMAC sampleRng twoPrimitiveModel sampleKey sampleDigest).map Model.buffers ∧
      ExtractHMAC sampleRng firstPrimitiveModel sampleKey sampleDigest
        = ExtractHMAC sampleRng twoPrimitiveModel sampleKey sampleDigest) :=
  have h := C20_first_primitive sampleRng twoPrimitiveModel firstPrimitiveModel sampleKey
    sampleDigest 0 3009 0 3000 171 { attributes := [("POSITION", 1)] }
    [{ attributes := [("POSITION", 0)] }] 1 (List.length_replicate 64 165) rfl rfl rfl rfl rfl
    rfl (by decide) (by decide) rfl rfl rfl
  ⟨h.1, h.2.1⟩

end Watermark
